import Mathlib

/-!
Verification of the issy issue tracker core (miketromba/issy).

Shallow embedding of:
* the frontmatter codec (`parseFrontmatter` / `generateFrontmatter`),
* the issue store pure logic (`getIssue`, `updateIssue` field merge),
* the query parser / filter / sort engine (`parseQuery`, `filterByQuery`,
  `filterAndSearchIssues`; the fuzzy scorer Fuse.js is an external library
  and is abstracted as a parameter),
* the fractional order-key engine: `computeOrderKey` and the
  `fractional-indexing` npm dependency (`generateKeyBetween` and its
  helpers), embedded digit for digit.

Strings are modelled as Lean `String` / `List Char`; JavaScript string
comparison (`<` on code units) is modelled by `ltCU` below, which agrees
with JS because all strings involved are ASCII.
-/

namespace Issy

/-! ## JS string primitives -/

/-- JS code-unit comparison `a < b` on strings, as lists of characters. -/
def ltCU : List Char → List Char → Bool
  | [], [] => false
  | [], _ :: _ => true
  | _ :: _, [] => false
  | a :: as, b :: bs =>
    if a.toNat < b.toNat then true
    else if b.toNat < a.toNat then false
    else ltCU as bs

/-- JS `a < b` on `String`. -/
def ltS (a b : String) : Bool := ltCU a.data b.data

/-- JS `String.prototype.trim` (on characters of a single line). -/
def trimL (l : List Char) : List Char :=
  ((l.dropWhile Char.isWhitespace).reverse.dropWhile Char.isWhitespace).reverse

def trimS (s : String) : String := String.mk (trimL s.data)

/-- Index of the first occurrence of a character, JS `indexOf` (-1 if absent)
is modelled as `none` if absent. -/
def idxOfChar (c : Char) : List Char → Option Nat
  | [] => none
  | a :: as => if a = c then some 0 else (idxOfChar c as).map (· + 1)

/-- JS `String.prototype.padStart(n, c)`. -/
def padStart (s : String) (n : Nat) (c : Char) : String :=
  if s.length ≥ n then s
  else String.mk (List.replicate (n - s.length) c) ++ s

/-- JS `String.prototype.toLowerCase` (ASCII, which is all the code uses). -/
def toLowerS (s : String) : String := String.mk (s.data.map Char.toLower)

/-- Split a character list at every occurrence of a separator character
(JS `String.prototype.split` with a single-character separator). -/
def splitOnChar (c : Char) : List Char → List (List Char)
  | [] => [[]]
  | a :: as =>
    let rest := splitOnChar c as
    if a = c then [] :: rest
    else match rest with
      | [] => [[a]]
      | r :: rs => (a :: r) :: rs

/-- JS `String.prototype.includes` (substring test). -/
def includesL (pat l : List Char) : Bool :=
  (List.range (l.length + 1)).any (fun i => pat.isPrefixOf (l.drop i))

def includesS (pat s : String) : Bool := includesL pat.data s.data

/-- Last-wins lookup in an association list; models reading a property of a
JS object that was built by successive `obj[key] = value` assignments
(the list keeps every assignment in order, the last one is visible). -/
def objGet (m : List (String × String)) (k : String) : Option String :=
  ((m.filter (fun p => p.1 = k)).getLast?).map (·.2)

/-- Truthiness of an optional JS string: `undefined` and `""` are falsy. -/
def truthy : Option String → Bool
  | none => false
  | some s => s ≠ ""

/-- `opt || null`: an optional string normalized so that falsy becomes `none`. -/
def orNull (o : Option String) : Option String :=
  if truthy o then o else none

/-! ## Data model (`types.ts`)

The runtime record produced by `parseFrontmatter` is a plain string map cast
to `IssueFrontmatter`, so every field may be absent; all fields are therefore
`Option String`.  The TS type also declares a `description` field, but the
current `issues.ts` neither serializes it in `generateFrontmatter` nor merges
it in `updateIssue`, so it plays no role in any claim and is omitted. -/

structure IssueFrontmatter where
  title : Option String
  priority : Option String
  scope : Option String
  type : Option String
  labels : Option String
  status : Option String
  order : Option String
  created : Option String
  updated : Option String
deriving Repr, DecidableEq

structure Issue where
  id : String
  filename : String
  frontmatter : IssueFrontmatter
  content : String
deriving Repr, DecidableEq

structure UpdateIssueInput where
  title : Option String
  body : Option String
  priority : Option String
  scope : Option String
  type : Option String
  labels : Option String
  status : Option String
  order : Option String
deriving Repr, DecidableEq

structure IssueFilters where
  status : Option String
  priority : Option String
  scope : Option String
  type : Option String
  search : Option String
deriving Repr, DecidableEq

/-! ## Frontmatter codec (`issues.ts`, current version)

`parseFrontmatter` matches `/^---\n([\s\S]*?)\n---\n([\s\S]*)$/`: the block is
everything between the leading `---` line and the first following `\n---\n`
marker; on no match the whole content is the body and the frontmatter is
empty.  Each non-empty block line is split at its first `:`; the `title`
value additionally goes through `yamlUnquote`. -/

/-- Split `l` at the first occurrence of the `"\n---\n"` marker (the lazy part
of the parse regex): returns the part before the marker and the part after. -/
def breakOnMarker : List Char → Option (List Char × List Char)
  | [] => none
  | c :: rest =>
    if ['\n', '-', '-', '-', '\n'].isPrefixOf (c :: rest) then
      some ([], rest.drop 4)
    else
      match breakOnMarker rest with
      | some (pre, post) => some (c :: pre, post)
      | none => none

/-- One character-level replacement pass of JS
`String.prototype.replace(/xy/g, rep)` for a two-character pattern: scan left
to right, non-overlapping, replacement text not rescanned. -/
def replacePair (x y : Char) (rep : List Char) : List Char → List Char
  | [] => []
  | [c] => [c]
  | a :: b :: rest =>
    if a = x ∧ b = y then rep ++ replacePair x y rep rest
    else a :: replacePair x y rep (b :: rest)

/-- `value.replace(/\\/g, '\\\\').replace(/"/g, '\\"')` — the escaping inside
`yamlQuote`.  The first pass doubles every backslash (a single-character
pattern, hence a plain bind), the second escapes every double quote. -/
def escapeQuoted (l : List Char) : List Char :=
  (l.flatMap (fun c => if c = '\\' then ['\\', '\\'] else [c])).flatMap
    (fun c => if c = '"' then ['\\', '"'] else [c])

/-- Characters that force the title to be quoted:
`/[:#\[\]{}&*!|>'"%@`,\n]/`. -/
def needsQuoteChar (c : Char) : Bool :=
  c = ':' ∨ c = '#' ∨ c = '[' ∨ c = ']' ∨ c = '\x7b' ∨ c = '\x7d' ∨
  c = '&' ∨ c = '*' ∨ c = '!' ∨ c = '|' ∨ c = '>' ∨ c = '\'' ∨
  c = '"' ∨ c = '%' ∨ c = '@' ∨ c = '\x60' ∨ c = ',' ∨ c = '\n'

def yamlQuote (value : String) : String :=
  if value.data.any needsQuoteChar ∨ value ≠ trimS value then
    String.mk ('"' :: escapeQuoted value.data ++ ['"'])
  else value

/-- `inner.replace(/\\"/g, '"').replace(/\\\\/g, '\\')` — the unescaping of a
double-quoted title inside `yamlUnquote`. -/
def unescapeQuoted (l : List Char) : List Char :=
  replacePair '\\' '\\' ['\\'] (replacePair '\\' '"' ['"'] l)

def yamlUnquote (value : String) : String :=
  let l := value.data
  if (l.head? = some '"' ∧ l.getLast? = some '"') ∨
      (l.head? = some '\'' ∧ l.getLast? = some '\'') then
    let inner := (l.drop 1).dropLast
    if l.head? = some '"' then String.mk (unescapeQuoted inner)
    else String.mk inner
  else value

/-- The assignment contributed by one frontmatter block line: split at the
first colon (if any, and not at position 0), trim both sides, unquote the
`title` value. -/
def lineAssign (line : List Char) : List (String × String) :=
  match idxOfChar ':' line with
  | some colonIdx =>
    if colonIdx > 0 then
      let key := String.mk (trimL (line.take colonIdx))
      let rawValue := String.mk (trimL (line.drop (colonIdx + 1)))
      let value := if key = "title" then yamlUnquote rawValue else rawValue
      [(key, value)]
    else []
  | none => []

/-- Parse the lines of a frontmatter block into the JS object (as an
assignment list, see `objGet`). -/
def parseFMLines (lines : List (List Char)) : List (String × String) :=
  lines.foldl (fun m line => m ++ lineAssign line) []

/-- `parseFrontmatter(content)`: the raw string map and the body. -/
def parseFrontmatter (content : String) : List (String × String) × String :=
  if ['-', '-', '-', '\n'].isPrefixOf content.data then
    match breakOnMarker (content.data.drop 4) with
    | some (pre, post) =>
      (parseFMLines (splitOnChar '\n' pre), String.mk post)
    | none => ([], content)
  else ([], content)

/-- Read the parsed map into the typed record (the `as IssueFrontmatter` cast:
each field is whatever the map holds for that key). -/
def frontmatterOfMap (m : List (String × String)) : IssueFrontmatter where
  title := objGet m "title"
  priority := objGet m "priority"
  scope := objGet m "scope"
  type := objGet m "type"
  labels := objGet m "labels"
  status := objGet m "status"
  order := objGet m "order"
  created := objGet m "created"
  updated := objGet m "updated"

/-- Template-literal interpolation of a possibly-undefined value
(JS stringifies `undefined` as `"undefined"`). -/
def interp : Option String → String
  | some s => s
  | none => "undefined"

/-- `lines.join('\n')`, on character lists. -/
def joinNLL : List (List Char) → List Char
  | [] => []
  | [x] => x
  | x :: y :: rest => x ++ '\n' :: joinNLL (y :: rest)

/-- The emitted frontmatter lines of `generateFrontmatter`, in their fixed
order, optional fields only when truthy. -/
def fmLines (data : IssueFrontmatter) : List String :=
  [["---"],
    ["title: " ++ yamlQuote (interp data.title)],
    ["priority: " ++ interp data.priority],
    if truthy data.scope then ["scope: " ++ interp data.scope] else [],
    ["type: " ++ interp data.type],
    if truthy data.labels then ["labels: " ++ interp data.labels] else [],
    ["status: " ++ interp data.status],
    if truthy data.order then ["order: " ++ interp data.order] else [],
    ["created: " ++ interp data.created],
    if truthy data.updated then ["updated: " ++ interp data.updated] else [],
    ["---"]].flatten

/-- `generateFrontmatter(data)`: `lines.join('\n')`. -/
def generateFrontmatter (data : IssueFrontmatter) : String :=
  String.mk (joinNLL ((fmLines data).map String.data))

/-! ## Issue store (`issues.ts`, current version)

The issues directory is modelled as an association list from filename to file
content, in `readdir` order.  `formatDate()` (the current wall-clock time) is
passed in explicitly as `now`. -/

def Dir := List (String × String)

/-- Leading digit run, for the leading-digits-then-dash regex match of
`getIssueIdFromFilename`. -/
def leadingDigits (l : List Char) : List Char := l.takeWhile Char.isDigit

/-- Replace the first occurrence of `pat` (JS `replace` with a string
pattern). -/
def replaceFirstL (pat rep : List Char) : List Char → List Char
  | [] => []
  | c :: rest =>
    if pat.isPrefixOf (c :: rest) then rep ++ (c :: rest).drop pat.length
    else c :: replaceFirstL pat rep rest

/-- `getIssueIdFromFilename(filename)`: the leading digit run when followed by
a dash, otherwise the filename with its first `.md` removed. -/
def getIssueIdFromFilename (filename : String) : String :=
  let ds := leadingDigits filename.data
  if ds ≠ [] ∧ (filename.data.drop ds.length).head? = some '-' then
    String.mk ds
  else String.mk (replaceFirstL ['.', 'm', 'd'] [] filename.data)

/-- The `getIssueFiles` filter: filename ends with `.md` and starts with four
digits followed by a dash. -/
def isIssueFile (f : String) : Bool :=
  ['.', 'm', 'd'].isSuffixOf f.data ∧
  (f.data.take 4).length = 4 ∧ (f.data.take 4).all Char.isDigit ∧
  (f.data.drop 4).head? = some '-'

def getIssueFiles (dir : Dir) : List String :=
  (dir.map Prod.fst).filter isIssueFile

/-- Content of a file in the directory. -/
def readFileD (dir : Dir) (f : String) : Option String :=
  (List.find? (fun p => p.1 = f) dir).map (·.2)

/-- The filename-matching predicate of `getIssue`. -/
def fileMatches (paddedId : String) (f : String) : Bool :=
  paddedId.data.isPrefixOf f.data ∨ getIssueIdFromFilename f = paddedId

/-- `getIssue(id)`. -/
def getIssue (dir : Dir) (id : String) : Option Issue :=
  let files := getIssueFiles dir
  let paddedId := padStart id 4 '0'
  match files.find? (fileMatches paddedId) with
  | none => none
  | some file =>
    match readFileD dir file with
    | none => none
    | some content =>
      let parsed := parseFrontmatter content
      some { id := getIssueIdFromFilename file, filename := file,
             frontmatter := frontmatterOfMap parsed.1, content := parsed.2 }

/-- The frontmatter merge of `updateIssue`: conditional spreads (truthy for
the enum-ish fields, presence for `labels`), then `updated` stamped. -/
def mergeFrontmatter (fm : IssueFrontmatter) (input : UpdateIssueInput)
    (now : String) : IssueFrontmatter where
  title := if truthy input.title then input.title else fm.title
  priority := if truthy input.priority then input.priority else fm.priority
  scope := if truthy input.scope then input.scope else fm.scope
  type := if truthy input.type then input.type else fm.type
  labels := if input.labels ≠ none then orNull input.labels else fm.labels
  status := if truthy input.status then input.status else fm.status
  order := if truthy input.order then input.order else fm.order
  created := fm.created
  updated := some now

/-- `updateIssue(id, input)`: the returned record (the write of the same
data back to the file is not modelled). -/
def updateIssue (dir : Dir) (id : String) (input : UpdateIssueInput)
    (now : String) : Except String Issue :=
  match getIssue dir id with
  | none => Except.error ("Issue not found: " ++ id)
  | some issue =>
    let updatedFrontmatter := mergeFrontmatter issue.frontmatter input now
    let updatedContent :=
      match input.body with
      | some b => "\n" ++ b ++ "\n"
      | none => issue.content
    Except.ok { issue with
      frontmatter := updatedFrontmatter, content := updatedContent }

/-! ## Query parser (`packages/core/src/lib/query-parser.ts`)

JS `Array.prototype.sort` is a stable sort driven by an integer comparator;
for the consistent comparators used here every stable sort computes the same
list, so it is modelled by the stable `List.insertionSort` on the
comparator's non-positive relation.  `String.prototype.localeCompare` is
modelled as code-unit comparison, with which the default collation agrees on
the ASCII digit ids it is applied to. -/

def jsSortBy (cmp : α → α → Int) (l : List α) : List α :=
  l.insertionSort (fun a b => cmp a b ≤ 0)

def localeCompare (a b : String) : Int :=
  if ltS a b then -1 else if ltS b a then 1 else 0

structure ParsedQuery where
  qualifiers : List (String × String)
  searchText : String
deriving Repr, DecidableEq

def SUPPORTED_QUALIFIERS : List String :=
  ["is", "priority", "type", "label", "sort"]

/-- One step of the `tokenizeQuery` character loop; the state is
(tokens so far, current token, active quote character). -/
def tokenizeStep (st : List String × List Char × Option Char) (c : Char) :
    List String × List Char × Option Char :=
  let (tokens, currentToken, quote) := st
  if (c = '"' ∨ c = '\'') ∧ quote = none then (tokens, currentToken, some c)
  else if some c = quote then (tokens, currentToken, none)
  else if c = ' ' ∧ quote = none then
    if currentToken ≠ [] then (tokens ++ [String.mk currentToken], [], none)
    else (tokens, [], none)
  else (tokens, currentToken ++ [c], quote)

def tokenizeQuery (query : String) : List String :=
  let st := query.data.foldl tokenizeStep ([], [], none)
  if st.2.1 ≠ [] then st.1 ++ [String.mk st.2.1] else st.1

/-- The key:value shape test of `parseQuery`: first colon present, not at
position 0 and not at the last position. -/
def qualifierShape (token : String) : Option (String × String) :=
  match idxOfChar ':' token.data with
  | some colonIndex =>
    if colonIndex > 0 ∧ colonIndex < token.length - 1 then
      some (String.mk (token.data.take colonIndex),
            String.mk (token.data.drop (colonIndex + 1)))
    else none
  | none => none

/-- The per-token step of `parseQuery`: a supported key:value token becomes
a qualifier assignment, everything else is appended to the search text
parts. -/
def parseQueryStep (supported : List String)
    (st : List (String × String) × List String) (token : String) :
    List (String × String) × List String :=
  match qualifierShape token with
  | some (key, value) =>
    if key ∈ supported then (st.1 ++ [(key, value)], st.2)
    else (st.1, st.2 ++ [token])
  | none => (st.1, st.2 ++ [token])

/-- `parts.join(' ')`, on character lists. -/
def joinSpaceL : List (List Char) → List Char
  | [] => []
  | [x] => x
  | x :: y :: rest => x ++ ' ' :: joinSpaceL (y :: rest)

/-- `parts.join(' ')`. -/
def joinSpace (parts : List String) : String :=
  String.mk (joinSpaceL (parts.map String.data))

/-- The body shared by the older and the current `parseQuery`, parameterized
by the recognized qualifier set. -/
def parseQueryWith (supported : List String) (query : String) : ParsedQuery :=
  if trimS query = "" then { qualifiers := [], searchText := "" }
  else
    let st := (tokenizeQuery query).foldl (parseQueryStep supported) ([], [])
    { qualifiers := st.1, searchText := trimS (joinSpace st.2) }

def parseQuery (query : String) : ParsedQuery :=
  parseQueryWith SUPPORTED_QUALIFIERS query

/-- `priorityOrder[p] ?? 999`. -/
def priorityRank : Option String → Int
  | some "high" => 0
  | some "medium" => 1
  | some "low" => 2
  | _ => 999

def priorityCmp (a b : Issue) : Int :=
  if priorityRank a.frontmatter.priority ≠ priorityRank b.frontmatter.priority
  then priorityRank a.frontmatter.priority - priorityRank b.frontmatter.priority
  else localeCompare b.id a.id

def createdCmp (a b : Issue) : Int :=
  let dateA := (a.frontmatter.created).getD ""
  let dateB := (b.frontmatter.created).getD ""
  if dateA ≠ dateB then localeCompare dateB dateA else localeCompare b.id a.id

def createdAscCmp (a b : Issue) : Int :=
  let dateA := (a.frontmatter.created).getD ""
  let dateB := (b.frontmatter.created).getD ""
  if dateA ≠ dateB then localeCompare dateA dateB else localeCompare a.id b.id

def updatedCmp (a b : Issue) : Int :=
  let dateA := ((a.frontmatter.updated).or a.frontmatter.created).getD ""
  let dateB := ((b.frontmatter.updated).or b.frontmatter.created).getD ""
  if dateA ≠ dateB then localeCompare dateB dateA else localeCompare b.id a.id

def idCmp (a b : Issue) : Int := localeCompare b.id a.id

/-- `sortIssues(issues, sortBy)` (the sorted copy; the original sorts in
place). -/
def sortIssues (issues : List Issue) (sortBy : String) : List Issue :=
  let sortOption := toLowerS sortBy
  if sortOption = "priority" then jsSortBy priorityCmp issues
  else if sortOption = "created" then jsSortBy createdCmp issues
  else if sortOption = "created-asc" then jsSortBy createdAscCmp issues
  else if sortOption = "updated" then jsSortBy updatedCmp issues
  else if sortOption = "id" then jsSortBy idCmp issues
  else jsSortBy priorityCmp issues

/-- The qualifier predicate of `filterByQuery` applied to one issue. -/
def matchesQualifiers (parsed : ParsedQuery) (issue : Issue) : Bool :=
  (match objGet parsed.qualifiers "is" with
   | some v =>
     let statusValue := toLowerS v
     if statusValue = "open" ∨ statusValue = "closed" then
       decide (issue.frontmatter.status = some statusValue)
     else true
   | none => true) &&
  (match objGet parsed.qualifiers "priority" with
   | some v =>
     let priorityValue := toLowerS v
     if priorityValue = "high" ∨ priorityValue = "medium" ∨
         priorityValue = "low" then
       decide (issue.frontmatter.priority = some priorityValue)
     else true
   | none => true) &&
  (match objGet parsed.qualifiers "type" with
   | some v =>
     let typeValue := toLowerS v
     if typeValue = "bug" ∨ typeValue = "improvement" then
       decide (issue.frontmatter.type = some typeValue)
     else true
   | none => true) &&
  (match objGet parsed.qualifiers "label" with
   | some v =>
     includesS (toLowerS v) (toLowerS ((issue.frontmatter.labels).getD ""))
   | none => true)

/-- Fuse.js is an external dependency; a search engine is abstracted as a
function from the indexed issues and the query to the scored results
`(item id, optional relevance score)` in relevance order. -/
def Fuse := List Issue → String → List (String × Option Rat)

/-- `searchResults.find(r => r.item.id === a.id)?.score ?? 1`. -/
def scoreOf (searchResults : List (String × Option Rat)) (id : String) : Rat :=
  (((searchResults.find? (fun r => r.1 = id)).bind Prod.snd)).getD 1

/-- The id-prefix match test of the search composition: leading zeros
stripped from both sides, or a literal prefix. -/
def isIdMatch (query : String) (issue : Issue) : Bool :=
  let normalizedQuery := String.mk (query.data.dropWhile (· = '0'))
  let normalizedId := String.mk (issue.id.data.dropWhile (· = '0'))
  normalizedQuery.data.isPrefixOf normalizedId.data ∨
  query.data.isPrefixOf issue.id.data

/-- The shared id-prefix + fuzzy composition: id matches (in incoming order)
first, then fuzzy-only matches sorted by ascending score.  `searchResults`
is the Fuse result for this query. -/
def composeSearch (searchResults : List (String × Option Rat))
    (result : List Issue) (query : String) : List Issue :=
  let idMatches := result.filter (isIdMatch query)
  let matchedIds := searchResults.map Prod.fst
  let idMatchIds := idMatches.map Issue.id
  let nonIdMatches := result.filter
    (fun issue => issue.id ∉ idMatchIds ∧ issue.id ∈ matchedIds)
  idMatches ++
    jsSortBy (fun a b =>
        if scoreOf searchResults a.id < scoreOf searchResults b.id then -1
        else if scoreOf searchResults b.id < scoreOf searchResults a.id then 1
        else 0)
      nonIdMatches

/-- `filterByQuery(issues, query)`, parameterized by the search engine. -/
def filterByQuery (fuse : Fuse) (issues : List Issue) (query : String) :
    List Issue :=
  let parsed := parseQuery query
  let result := issues.filter (matchesQualifiers parsed)
  if trimS parsed.searchText = "" then
    let sortBy :=
      match orNull ((objGet parsed.qualifiers "sort").map toLowerS) with
      | some s => s
      | none => "priority"
    sortIssues result sortBy
  else
    let searchQuery := trimS parsed.searchText
    composeSearch (fuse result searchQuery) result searchQuery

/-- `filterIssues(issues, filters)` (the literal-equality filter form). -/
def filterIssues (issues : List Issue) (filters : IssueFilters) : List Issue :=
  issues.filter (fun issue =>
    (if truthy filters.status then
       decide (issue.frontmatter.status = filters.status)
     else true) &&
    (if truthy filters.priority then
       decide (issue.frontmatter.priority = filters.priority)
     else true) &&
    (if truthy filters.type then
       decide (issue.frontmatter.type = filters.type)
     else true))

/-- `filterAndSearchIssues(issues, filters)`: dropdown filters, then the same
id-prefix + fuzzy composition (whose index is built over all `issues`, not
the filtered list). -/
def filterAndSearchIssues (fuse : Fuse) (issues : List Issue)
    (filters : IssueFilters) : List Issue :=
  let result := filterIssues issues filters
  match filters.search with
  | some s =>
    if trimS s ≠ "" then
      let query := trimS s
      composeSearch (fuse issues query) result query
    else result
  | none => result

/-! ## Current query engine (spec-modelled)

The test suite under `packages/core/tests` (`query-parser.test.ts`,
`sorting.test.ts`, `filtering.test.ts`, `issues.test.ts`) exercises a newer
`query-parser.ts` that recognizes a `scope` qualifier and `roadmap` / `scope`
sort options; that implementation is not part of the source snapshot — only
its tests and the spec describe it.  The definitions in this namespace are
therefore modelled from the spec (§4.4, §4.5) rather than translated from
source. -/

namespace Current

/-- Modelled from the spec: the current recognized qualifier set
(`is, priority, scope, type, label, sort`); the implementation with `scope`
is missing from the snapshot. -/
def SUPPORTED_QUALIFIERS : List String :=
  ["is", "priority", "scope", "type", "label", "sort"]

/-- Modelled from the spec: the current `parseQuery` — identical to the
older one except for the recognized qualifier set. -/
def parseQuery (query : String) : ParsedQuery :=
  parseQueryWith SUPPORTED_QUALIFIERS query

/-- The §3 default roadmap comparator (this one is translated from the
`getAllIssues` default sort, which is in the snapshot): truthy orders first,
ascending as strings; issues without order after them, by id. -/
def roadmapCmp (a b : Issue) : Int :=
  let orderA := orNull a.frontmatter.order
  let orderB := orNull b.frontmatter.order
  match orderA, orderB with
  | some oa, some ob => if ltS oa ob then -1 else if ltS ob oa then 1 else 0
  | some _, none => -1
  | none, some _ => 1
  | none, none => if ltS a.id b.id then -1 else if ltS b.id a.id then 1 else 0

/-- Modelled from the spec: scope rank for the current `sort:scope`
(small, then medium, then large, issues without scope last). -/
def scopeRank : Option String → Int
  | some "small" => 0
  | some "medium" => 1
  | some "large" => 2
  | _ => 999

/-- Modelled from the spec: the current `sort:scope` comparator
(small to large, id descending tiebreak). -/
def scopeCmp (a b : Issue) : Int :=
  if scopeRank a.frontmatter.scope ≠ scopeRank b.frontmatter.scope then
    scopeRank a.frontmatter.scope - scopeRank b.frontmatter.scope
  else localeCompare b.id a.id

/-- Modelled from the spec: the current `sortIssues` — `roadmap` (the §3
default order), `priority`, `scope`, `created`, `created-asc`, `updated`,
`id`; an unknown sort value falls back to the priority sort. -/
def sortIssues (issues : List Issue) (sortBy : String) : List Issue :=
  let sortOption := toLowerS sortBy
  if sortOption = "roadmap" then jsSortBy roadmapCmp issues
  else if sortOption = "priority" then jsSortBy priorityCmp issues
  else if sortOption = "scope" then jsSortBy scopeCmp issues
  else if sortOption = "created" then jsSortBy createdCmp issues
  else if sortOption = "created-asc" then jsSortBy createdAscCmp issues
  else if sortOption = "updated" then jsSortBy updatedCmp issues
  else if sortOption = "id" then jsSortBy idCmp issues
  else jsSortBy priorityCmp issues

/-- Modelled from the spec: the current qualifier predicate — the older one
plus the fail-open `scope` qualifier. -/
def matchesQualifiers (parsed : ParsedQuery) (issue : Issue) : Bool :=
  Issy.matchesQualifiers parsed issue &&
  (match objGet parsed.qualifiers "scope" with
   | some v =>
     let scopeValue := toLowerS v
     if scopeValue = "small" ∨ scopeValue = "medium" ∨ scopeValue = "large"
     then decide (issue.frontmatter.scope = some scopeValue)
     else true
   | none => true)

/-- Modelled from the spec: the current `filterByQuery` — qualifier filters,
then the `sort` qualifier (default `roadmap`) when no search text, else the
shared id-prefix + fuzzy composition. -/
def filterByQuery (fuse : Fuse) (issues : List Issue) (query : String) :
    List Issue :=
  let parsed := parseQuery query
  let result := issues.filter (matchesQualifiers parsed)
  if trimS parsed.searchText = "" then
    let sortBy :=
      match orNull ((objGet parsed.qualifiers "sort").map toLowerS) with
      | some s => s
      | none => "roadmap"
    sortIssues result sortBy
  else
    let searchQuery := trimS parsed.searchText
    composeSearch (fuse result searchQuery) result searchQuery

end Current

/-! ## Fractional indexing (the `fractional-indexing` npm dependency)

`computeOrderKey` delegates key generation to `generateKeyBetween` from the
`fractional-indexing` package (base-62 order keys: a self-length-describing
integer part, head `a`-`z` for lengths 2-27 and `Z`-`A` for 2-27 going
downwards, followed by a fractional part with no trailing zero).  The
library is embedded function for function; its `throw`s become
`Except.error`.  Out-of-range JS string indexing yields `undefined`; it is
modelled by the filler character `?`, reachable only on inputs the library
is never given. -/

def BASE_62_DIGITS : List Char :=
  "0123456789ABCDEFGHIJKLMNOPQRSTUVWXYZabcdefghijklmnopqrstuvwxyz".data

def ZERO : Char := '0'

/-- `digits.indexOf(c)`. -/
def digIdx (c : Char) : Int :=
  match idxOfChar c BASE_62_DIGITS with
  | some n => (n : Int)
  | none => -1

/-- `digits[i]` (JS indexing, `?` standing for `undefined`). -/
def digAt (i : Int) : Char :=
  if 0 ≤ i ∧ i < 62 then BASE_62_DIGITS.getD i.toNat '?' else '?'

/-- `Math.round(0.5 * (digitA + digitB))` for integer summands. -/
def roundHalf (s : Int) : Int := if s % 2 = 0 then s / 2 else (s + 1) / 2

/-- The `while ((a[n] || zero) === b[n]) n++` loop of `midpoint`: the length
of the common prefix of `a` (padded with zeros) and `b`. -/
def commonN : List Char → List Char → Nat
  | _, [] => 0
  | [], b :: bt => if ZERO = b then commonN [] bt + 1 else 0
  | a :: at', b :: bt => if a = b then commonN at' bt + 1 else 0

theorem commonN_le (a b : List Char) : commonN a b ≤ b.length := by
  induction b generalizing a with
  | nil => simp [commonN]
  | cons c bt ih =>
    cases a with
    | nil =>
      simp only [commonN, List.length_cons]
      split
      · exact Nat.succ_le_succ (ih [])
      · exact Nat.zero_le _
    | cons a at' =>
      simp only [commonN, List.length_cons]
      split
      · exact Nat.succ_le_succ (ih at')
      · exact Nat.zero_le _

/-- `const digitA = a ? digits.indexOf(a[0]) : 0`. -/
def digitAOf (a : List Char) : Int :=
  match a with
  | [] => 0
  | c :: _ => digIdx c

/-- `const digitB = b != null ? digits.indexOf(b[0]) : digits.length`
(indexing an empty string gives `undefined`, whose `indexOf` is -1). -/
def digitBOf (b : Option (List Char)) : Int :=
  match b with
  | none => 62
  | some [] => -1
  | some (c :: _) => digIdx c

theorem ltCU_nil_right (a : List Char) : ltCU a [] = false := by
  cases a <;> rfl

/-- `midpoint(a, b, digits)` — `b = none` is the JS `null` (unbounded).
The `b != null` checks of the source are rendered by matching on `b` first
and specializing each branch. -/
def midpoint (a : List Char) (b : Option (List Char)) :
    Except String (List Char) :=
  match b with
  | some bs =>
    if h1 : ltCU a bs = true then
      if h2 : a.getLast? = some ZERO ∨ (bs ≠ [] ∧ bs.getLast? = some ZERO)
      then Except.error "midpoint: trailing zero"
      else if h3 : 0 < commonN a bs then
        (midpoint (a.drop (commonN a bs))
            (some (bs.drop (commonN a bs)))).map
          (fun m => bs.take (commonN a bs) ++ m)
      else if h4 : digitBOf (some bs) - digitAOf a > 1 then
        Except.ok [digAt (roundHalf (digitAOf a + digitBOf (some bs)))]
      else if h5 : bs.length > 1 then Except.ok (bs.take 1)
      else (midpoint (a.drop 1) none).map (fun m => digAt (digitAOf a) :: m)
    else Except.error "midpoint: a must be less than b"
  | none =>
    if h2 : a.getLast? = some ZERO then
      Except.error "midpoint: trailing zero"
    else if h4 : digitBOf none - digitAOf a > 1 then
      Except.ok [digAt (roundHalf (digitAOf a + digitBOf none))]
    else (midpoint (a.drop 1) none).map (fun m => digAt (digitAOf a) :: m)
termination_by a.length + (match b with | none => 0 | some bs => bs.length)
decreasing_by
  · have hle : commonN a bs ≤ bs.length := commonN_le a bs
    simp only [List.length_drop]
    omega
  · have hbs : bs ≠ [] := by
      intro hnil
      subst hnil
      rw [ltCU_nil_right] at h1
      exact Bool.noConfusion h1
    simp only [List.length_drop]
    cases bs with
    | nil => exact absurd rfl hbs
    | cons c cs => simp only [List.length_cons]; omega
  · have ha : a ≠ [] := by
      intro hnil
      subst hnil
      simp [digitAOf, digitBOf] at h4
    simp only [List.length_drop]
    cases a with
    | nil => exact absurd rfl ha
    | cons c cs => simp only [List.length_cons]; omega

/-- `getIntegerLength(head)`. -/
def getIntegerLength (head : Char) : Except String Nat :=
  if 'a' ≤ head ∧ head ≤ 'z' then
    Except.ok (head.toNat - 'a'.toNat + 2)
  else if 'A' ≤ head ∧ head ≤ 'Z' then
    Except.ok ('Z'.toNat - head.toNat + 2)
  else Except.error "invalid order key head"

/-- `validateInteger(int)` (`charAt(0)` of an empty string is `''`, whose
integer length lookup throws). -/
def validateInteger (int : List Char) : Except String Unit :=
  match int.head? with
  | none => Except.error "invalid order key head"
  | some h =>
    match getIntegerLength h with
    | Except.error e => Except.error e
    | Except.ok len =>
      if int.length = len then Except.ok ()
      else Except.error "invalid integer part of order key"

/-- The carry loop of `incrementInteger`, on the digits in reverse order;
returns the new reversed digits and whether a carry survived. -/
def incDigitsRev : List Char → List Char × Bool
  | [] => ([], true)
  | d :: rest =>
    let dv := digIdx d + 1
    if dv = 62 then
      let r := incDigitsRev rest
      (ZERO :: r.1, r.2)
    else (digAt dv :: rest, false)

/-- `incrementInteger(x, digits)`; `Except.ok none` is the JS `null` return. -/
def incrementInteger (x : List Char) : Except String (Option (List Char)) :=
  match validateInteger x with
  | Except.error e => Except.error e
  | Except.ok _ =>
    match x with
    | [] => Except.error "invalid order key head"
    | head :: digs =>
      let r := incDigitsRev digs.reverse
      let digs2 := r.1.reverse
      if r.2 then
        if head = 'Z' then Except.ok (some ['a', ZERO])
        else if head = 'z' then Except.ok none
        else
          let h := Char.ofNat (head.toNat + 1)
          if 'a'.toNat < h.toNat then Except.ok (some (h :: digs2 ++ [ZERO]))
          else Except.ok (some (h :: digs2.dropLast))
      else Except.ok (some (head :: digs2))

/-- The borrow loop of `decrementInteger`, on the digits in reverse order. -/
def decDigitsRev : List Char → List Char × Bool
  | [] => ([], true)
  | d :: rest =>
    let dv := digIdx d - 1
    if dv = -1 then
      let r := decDigitsRev rest
      ('z' :: r.1, r.2)
    else (digAt dv :: rest, false)

/-- `decrementInteger(x, digits)`; `Except.ok none` is the JS `null` return. -/
def decrementInteger (x : List Char) : Except String (Option (List Char)) :=
  match validateInteger x with
  | Except.error e => Except.error e
  | Except.ok _ =>
    match x with
    | [] => Except.error "invalid order key head"
    | head :: digs =>
      let r := decDigitsRev digs.reverse
      let digs2 := r.1.reverse
      if r.2 then
        if head = 'a' then Except.ok (some ['Z', 'z'])
        else if head = 'A' then Except.ok none
        else
          let h := Char.ofNat (head.toNat - 1)
          if h.toNat < 'Z'.toNat then Except.ok (some (h :: digs2 ++ ['z']))
          else Except.ok (some (h :: digs2.dropLast))
      else Except.ok (some (head :: digs2))

/-- `getIntegerPart(key)`. -/
def getIntegerPart (key : List Char) : Except String (List Char) :=
  match key.head? with
  | none => Except.error "invalid order key head"
  | some h =>
    match getIntegerLength h with
    | Except.error e => Except.error e
    | Except.ok len =>
      if len > key.length then Except.error "invalid order key"
      else Except.ok (key.take len)

/-- `'A' + digits[0].repeat(26)` — the unusable smallest integer. -/
def SMALLEST_INTEGER : List Char := 'A' :: List.replicate 26 ZERO

/-- `validateOrderKey(key, digits)`. -/
def validateOrderKey (key : List Char) : Except String Unit :=
  if key = SMALLEST_INTEGER then Except.error "invalid order key"
  else
    match getIntegerPart key with
    | Except.error e => Except.error e
    | Except.ok i =>
      let f := key.drop i.length
      if f.getLast? = some ZERO then Except.error "invalid order key"
      else Except.ok ()

/-- The body of `generateKeyBetween` after its three input validations. -/
def gkbCore (a b : Option (List Char)) : Except String (List Char) :=
  match a, b with
  | none, none => Except.ok ['a', ZERO]
  | none, some kb =>
    match getIntegerPart kb with
    | Except.error e => Except.error e
    | Except.ok ib =>
      let fb := kb.drop ib.length
      if ib = SMALLEST_INTEGER then
        (midpoint [] (some fb)).map (fun m => ib ++ m)
      else if ltCU ib kb then Except.ok ib
      else
        match decrementInteger ib with
        | Except.error e => Except.error e
        | Except.ok none => Except.error "cannot decrement any more"
        | Except.ok (some res) => Except.ok res
  | some ka, none =>
    match getIntegerPart ka with
    | Except.error e => Except.error e
    | Except.ok ia =>
      let fa := ka.drop ia.length
      match incrementInteger ia with
      | Except.error e => Except.error e
      | Except.ok none => (midpoint fa none).map (fun m => ia ++ m)
      | Except.ok (some i) => Except.ok i
  | some ka, some kb =>
    match getIntegerPart ka with
    | Except.error e => Except.error e
    | Except.ok ia =>
      match getIntegerPart kb with
      | Except.error e => Except.error e
      | Except.ok ib =>
        let fa := ka.drop ia.length
        let fb := kb.drop ib.length
        if ia = ib then (midpoint fa (some fb)).map (fun m => ia ++ m)
        else
          match incrementInteger ia with
          | Except.error e => Except.error e
          | Except.ok none => Except.error "cannot increment any more"
          | Except.ok (some i) =>
            if ltCU i kb then Except.ok i
            else (midpoint fa none).map (fun m => ia ++ m)

/-- `generateKeyBetween(a, b, digits)`: validate both bounds and their
order, then generate. -/
def generateKeyBetween (a b : Option (List Char)) :
    Except String (List Char) :=
  match (match a with
         | some ka => validateOrderKey ka
         | none => Except.ok ()) with
  | Except.error e => Except.error e
  | Except.ok _ =>
    match (match b with
           | some kb => validateOrderKey kb
           | none => Except.ok ()) with
    | Except.error e => Except.error e
    | Except.ok _ =>
      match a, b with
      | some ka, some kb =>
        if ¬ ltCU ka kb then Except.error "a is not less than b"
        else gkbCore a b
      | _, _ => gkbCore a b

/-! ## computeOrderKey (`issues.ts`, current version) -/

structure OrderOptions where
  before : Option String := none
  after : Option String := none
  first : Bool := false
  last : Bool := false
deriving Repr, DecidableEq

/-- `issue.frontmatter.order || null`, as a character-list bound. -/
def orderBound (i : Issue) : Option (List Char) :=
  match orNull i.frontmatter.order with
  | some s => some s.data
  | none => none

/-- `computeOrderKey(openIssues, options, excludeId)`; throws become
`Except.error`. -/
def computeOrderKey (openIssues : List Issue) (options : OrderOptions)
    (excludeId : Option String := none) : Except String String :=
  let issues :=
    match excludeId with
    | some e => openIssues.filter (fun i => i.id ≠ padStart e 4 '0')
    | none => openIssues
  if options.first then
    match issues with
    | [] => (generateKeyBetween none none).map String.mk
    | i0 :: _ => (generateKeyBetween none (orderBound i0)).map String.mk
  else if options.last then
    match issues.getLast? with
    | none => (generateKeyBetween none none).map String.mk
    | some ilast =>
      (generateKeyBetween (orderBound ilast) none).map String.mk
  else
    match options.after with
    | some aid =>
      let targetId := padStart aid 4 '0'
      match issues.findIdx? (fun i => i.id = targetId) with
      | none =>
        Except.error ("Issue #" ++ aid ++
          " not found among open issues. The --after target must be an open issue.")
      | some idx =>
        let afterOrder :=
          match issues.get? idx with
          | some i => orderBound i
          | none => none
        let nextOrder :=
          match issues.get? (idx + 1) with
          | some i => orderBound i
          | none => none
        (generateKeyBetween afterOrder nextOrder).map String.mk
    | none =>
      match options.before with
      | some bid =>
        let targetId := padStart bid 4 '0'
        match issues.findIdx? (fun i => i.id = targetId) with
        | none =>
          Except.error ("Issue #" ++ bid ++
            " not found among open issues. The --before target must be an open issue.")
        | some idx =>
          let beforeOrder :=
            match issues.get? idx with
            | some i => orderBound i
            | none => none
          let prevOrder :=
            if idx > 0 then
              match issues.get? (idx - 1) with
              | some i => orderBound i
              | none => none
            else none
          (generateKeyBetween prevOrder beforeOrder).map String.mk
      | none =>
        match issues.getLast? with
        | none => (generateKeyBetween none none).map String.mk
        | some ilast =>
          (generateKeyBetween (orderBound ilast) none).map String.mk

/-! ## Demo store used by witnesses -/

def demoFile : String :=
  "---\ntitle: Test\npriority: high\ntype: bug\nstatus: open\norder: a0\ncreated: 2026-01-01T00:00:00\n---\n\nBody"

def demoDir : Dir := [("0001-test.md", demoFile)]

/-! ## Claim C8: updateIssue partial-update semantics -/

/-- C8: for every existing issue and every patch, a successful
`updateIssue` changes only the provided fields — every omitted frontmatter
field keeps its prior value, the body is preserved verbatim when no body is
given and replaced wholesale when one is — and `updated` is always stamped
with the current time. -/
theorem C8_updateIssue_frame (dir : Dir) (id : String)
    (input : UpdateIssueInput) (now : String) (prior : Issue)
    (h : getIssue dir id = some prior) :
    ∃ u, updateIssue dir id input now = Except.ok u ∧
      (input.title = none → u.frontmatter.title = prior.frontmatter.title) ∧
      (input.priority = none →
        u.frontmatter.priority = prior.frontmatter.priority) ∧
      (input.scope = none → u.frontmatter.scope = prior.frontmatter.scope) ∧
      (input.type = none → u.frontmatter.type = prior.frontmatter.type) ∧
      (input.labels = none → u.frontmatter.labels = prior.frontmatter.labels) ∧
      (input.status = none → u.frontmatter.status = prior.frontmatter.status) ∧
      (input.order = none → u.frontmatter.order = prior.frontmatter.order) ∧
      u.frontmatter.created = prior.frontmatter.created ∧
      u.frontmatter.updated = some now ∧
      u.id = prior.id ∧ u.filename = prior.filename ∧
      (input.body = none → u.content = prior.content) ∧
      (∀ b, input.body = some b → u.content = "\n" ++ b ++ "\n") := by
  have hu : updateIssue dir id input now = Except.ok
      { prior with
        frontmatter := mergeFrontmatter prior.frontmatter input now,
        content := match input.body with
          | some b => "\n" ++ b ++ "\n"
          | none => prior.content } := by
    simp only [updateIssue, h]
  refine ⟨_, hu, ?_, ?_, ?_, ?_, ?_, ?_, ?_, ?_, ?_, rfl, rfl, ?_, ?_⟩
  · intro hx; simp [mergeFrontmatter, hx, truthy]
  · intro hx; simp [mergeFrontmatter, hx, truthy]
  · intro hx; simp [mergeFrontmatter, hx, truthy]
  · intro hx; simp [mergeFrontmatter, hx, truthy]
  · intro hx; simp [mergeFrontmatter, hx, truthy]
  · intro hx; simp [mergeFrontmatter, hx, truthy]
  · intro hx; simp [mergeFrontmatter, hx, truthy]
  · simp [mergeFrontmatter]
  · simp [mergeFrontmatter]
  · intro hx; simp [hx]
  · intro b hb; simp [hb]

theorem C8_updateIssue_frame_witness :
    ∃ u, updateIssue demoDir "0001"
        { title := none, body := none, priority := none, scope := none,
          type := none, labels := none, status := some "closed",
          order := none } "2026-02-02T00:00:00" = Except.ok u ∧
      (none = (none : Option String) →
        u.frontmatter.title = some "Test") ∧
      ((none : Option String) = none → u.frontmatter.priority = some "high") ∧
      ((none : Option String) = none → u.frontmatter.scope = none) ∧
      ((none : Option String) = none → u.frontmatter.type = some "bug") ∧
      ((none : Option String) = none → u.frontmatter.labels = none) ∧
      (some "closed" = (none : Option String) →
        u.frontmatter.status = some "open") ∧
      ((none : Option String) = none → u.frontmatter.order = some "a0") ∧
      u.frontmatter.created = some "2026-01-01T00:00:00" ∧
      u.frontmatter.updated = some "2026-02-02T00:00:00" ∧
      u.id = "0001" ∧ u.filename = "0001-test.md" ∧
      ((none : Option String) = none → u.content = "\nBody") ∧
      (∀ b, (none : Option String) = some b →
        u.content = "\n" ++ b ++ "\n") := by
  have h : getIssue demoDir "0001" = some
      { id := "0001", filename := "0001-test.md",
        frontmatter :=
          { title := some "Test", priority := some "high", scope := none,
            type := some "bug", labels := none, status := some "open",
            order := some "a0", created := some "2026-01-01T00:00:00",
            updated := none },
        content := "\nBody" } := by decide
  exact C8_updateIssue_frame demoDir "0001" _ "2026-02-02T00:00:00" _ h

/-! ## Claim C9: getIssue id resolution -/

/-- C9: `getIssue "1"`, `getIssue "01"` and `getIssue "0001"` always agree
(the id is zero-padded to 4 digits before matching against filenames), and
when no stored filename matches the padded id, `getIssue` returns `none`
rather than failing. -/
theorem C9_getIssue_id_resolution (dir : Dir) :
    (getIssue dir "1" = getIssue dir "0001" ∧
     getIssue dir "01" = getIssue dir "0001") ∧
    (∀ id : String,
      (∀ f ∈ getIssueFiles dir, fileMatches (padStart id 4 '0') f = false) →
      getIssue dir id = none) := by
  constructor
  · constructor
    · simp only [getIssue]
      rw [show padStart "1" 4 '0' = padStart "0001" 4 '0' from by decide]
    · simp only [getIssue]
      rw [show padStart "01" 4 '0' = padStart "0001" 4 '0' from by decide]
  · intro id hnone
    simp only [getIssue]
    have : (getIssueFiles dir).find? (fileMatches (padStart id 4 '0')) =
        none := by
      rw [List.find?_eq_none]
      intro f hf
      simp [hnone f hf]
    rw [this]

theorem C9_getIssue_id_resolution_witness :
    ((getIssue demoDir "1" = getIssue demoDir "0001" ∧
      getIssue demoDir "01" = getIssue demoDir "0001") ∧
     (∀ id : String,
       (∀ f ∈ getIssueFiles demoDir,
         fileMatches (padStart id 4 '0') f = false) →
       getIssue demoDir id = none)) ∧
    (∀ f ∈ getIssueFiles demoDir,
      fileMatches (padStart "7" 4 '0') f = false) ∧
    getIssue demoDir "1" ≠ none :=
  ⟨C9_getIssue_id_resolution demoDir, by decide, by decide⟩

/-! ## Claim C10: updateIssue on empty-string patch fields -/

/-- C10: in `updateIssue`, an empty-string patch value for `title`,
`priority`, `scope`, `type`, `status` or `order` is treated as absent (the
prior value is kept; in particular an existing order key can never be
removed), while an empty-string `labels` clears the labels field and an
empty-string `body` does replace the body. -/
theorem C10_updateIssue_empty_fields (dir : Dir) (id : String)
    (input : UpdateIssueInput) (now : String) (prior : Issue)
    (h : getIssue dir id = some prior) :
    ∃ u, updateIssue dir id input now = Except.ok u ∧
      (input.title = some "" →
        u.frontmatter.title = prior.frontmatter.title) ∧
      (input.priority = some "" →
        u.frontmatter.priority = prior.frontmatter.priority) ∧
      (input.scope = some "" → u.frontmatter.scope = prior.frontmatter.scope) ∧
      (input.type = some "" → u.frontmatter.type = prior.frontmatter.type) ∧
      (input.status = some "" →
        u.frontmatter.status = prior.frontmatter.status) ∧
      (input.order = some "" →
        u.frontmatter.order = prior.frontmatter.order) ∧
      (u.frontmatter.order = prior.frontmatter.order ∨
        ∃ o, input.order = some o ∧ o ≠ "" ∧ u.frontmatter.order = some o) ∧
      (input.labels = some "" → u.frontmatter.labels = none) ∧
      (input.body = some "" → u.content = "\n\n") := by
  have hu : updateIssue dir id input now = Except.ok
      { prior with
        frontmatter := mergeFrontmatter prior.frontmatter input now,
        content := match input.body with
          | some b => "\n" ++ b ++ "\n"
          | none => prior.content } := by
    simp only [updateIssue, h]
  refine ⟨_, hu, ?_, ?_, ?_, ?_, ?_, ?_, ?_, ?_, ?_⟩
  · intro hx; simp [mergeFrontmatter, hx, truthy]
  · intro hx; simp [mergeFrontmatter, hx, truthy]
  · intro hx; simp [mergeFrontmatter, hx, truthy]
  · intro hx; simp [mergeFrontmatter, hx, truthy]
  · intro hx; simp [mergeFrontmatter, hx, truthy]
  · intro hx; simp [mergeFrontmatter, hx, truthy]
  · match ho : input.order with
    | none => left; simp [mergeFrontmatter, ho, truthy]
    | some "" => left; simp [mergeFrontmatter, ho, truthy]
    | some (o : String) =>
      by_cases hoe : o = ""
      · left; subst hoe; simp [mergeFrontmatter, ho, truthy]
      · right
        exact ⟨o, rfl, hoe, by simp [mergeFrontmatter, ho, truthy, hoe]⟩
  · intro hx; simp [mergeFrontmatter, hx, truthy, orNull]
  · intro hx; simp [hx]

theorem C10_updateIssue_empty_fields_witness :
    ∃ u, updateIssue demoDir "0001"
        { title := some "", body := some "", priority := some "",
          scope := some "", type := some "", labels := some "",
          status := some "", order := some "" } "2026-02-02T00:00:00" =
        Except.ok u ∧
      (some "" = some "" → u.frontmatter.title = some "Test") ∧
      (some "" = some "" → u.frontmatter.priority = some "high") ∧
      (some "" = some "" → u.frontmatter.scope = none) ∧
      (some "" = some "" → u.frontmatter.type = some "bug") ∧
      (some "" = some "" → u.frontmatter.status = some "open") ∧
      (some "" = some "" → u.frontmatter.order = some "a0") ∧
      (u.frontmatter.order = some "a0" ∨
        ∃ o, some "" = some o ∧ o ≠ "" ∧ u.frontmatter.order = some o) ∧
      (some "" = some "" → u.frontmatter.labels = none) ∧
      (some "" = some "" → u.content = "\n\n") := by
  have h : getIssue demoDir "0001" = some
      { id := "0001", filename := "0001-test.md",
        frontmatter :=
          { title := some "Test", priority := some "high", scope := none,
            type := some "bug", labels := none, status := some "open",
            order := some "a0", created := some "2026-01-01T00:00:00",
            updated := none },
        content := "\nBody" } := by decide
  exact C10_updateIssue_empty_fields demoDir "0001" _ "2026-02-02T00:00:00" _ h

/-! ## Claim C4: parseQuery qualifier extraction (current version) -/

/-- The qualifier assignment a single token contributes, given the
recognized set. -/
def qualTokenFor (supported : List String) (t : String) :
    Option (String × String) :=
  match qualifierShape t with
  | some (k, v) => if k ∈ supported then some (k, v) else none
  | none => none

/-- The value of the last token of shape `k:v` for a fixed key `k`. -/
def lastQualValue (k : String) (toks : List String) : Option String :=
  (toks.filterMap (fun t =>
    match qualifierShape t with
    | some (k', v) => if k' = k then some v else none
    | none => none)).getLast?

theorem foldl_parseQueryStep (supported : List String) (toks : List String)
    (q0 : List (String × String)) (s0 : List String) :
    toks.foldl (parseQueryStep supported) (q0, s0) =
      (q0 ++ toks.filterMap (qualTokenFor supported),
       s0 ++ toks.filter (fun t => (qualTokenFor supported t).isNone)) := by
  induction toks generalizing q0 s0 with
  | nil => simp
  | cons t ts ih =>
    simp only [List.foldl_cons, List.filterMap_cons, List.filter_cons]
    match hq : qualifierShape t with
    | some (k, v) =>
      by_cases hk : k ∈ supported
      · simp [parseQueryStep, qualTokenFor, hq, hk, ih]
      · simp [parseQueryStep, qualTokenFor, hq, hk, ih]
    | none =>
      simp [parseQueryStep, qualTokenFor, hq, ih]

theorem objGet_append (a b : List (String × String)) (k : String) :
    objGet (a ++ b) k = (objGet b k).or (objGet a k) := by
  simp only [objGet, List.filter_append]
  match h : (b.filter (fun p => decide (p.1 = k))).getLast? with
  | some x =>
    rw [List.getLast?_append_of_ne_nil, h]
    · rfl
    · intro habs
      rw [habs] at h
      exact Option.noConfusion h
  | none =>
    have hb : b.filter (fun p => decide (p.1 = k)) = [] := by
      cases hb : b.filter (fun p => decide (p.1 = k)) with
      | nil => rfl
      | cons x xs =>
        rw [hb] at h
        rcases List.getLast?_eq_none_iff.mp h with h'
        exact List.noConfusion h'
    rw [hb, List.append_nil]
    cases (a.filter (fun p => decide (p.1 = k))).getLast? <;> rfl

theorem objGet_filterMap_qualToken (supported : List String) (k : String)
    (hk : k ∈ supported) (toks : List String) :
    objGet (toks.filterMap (qualTokenFor supported)) k =
      lastQualValue k toks := by
  induction toks using List.reverseRecOn with
  | nil => simp [objGet, lastQualValue]
  | append_singleton ts t ih =>
    simp only [List.filterMap_append, lastQualValue] at ih ⊢
    rw [objGet_append, ih]
    simp only [List.getLast?_append]
    match hq : qualifierShape t with
    | some (k', v) =>
      by_cases hk' : k' ∈ supported
      · by_cases hkk : k' = k
        · subst hkk
          simp [qualTokenFor, hq, hk', objGet]
        · simp [qualTokenFor, hq, hk', hkk, objGet, lastQualValue]
      · have hkk : k' ≠ k := fun h => hk' (h ▸ hk)
        simp [qualTokenFor, hq, hk', hkk, objGet]
    | none =>
      simp [qualTokenFor, hq, objGet]

theorem trimL_eq_nil_iff (l : List Char) :
    trimL l = [] ↔ ∀ c ∈ l, c.isWhitespace := by
  unfold trimL
  rw [List.reverse_eq_nil_iff, List.dropWhile_eq_nil_iff]
  constructor
  · intro h c hc
    have hsplit : c ∈ l.takeWhile Char.isWhitespace ++
        l.dropWhile Char.isWhitespace := by
      rw [List.takeWhile_append_dropWhile]
      exact hc
    rcases List.mem_append.mp hsplit with hm | hm
    · exact List.mem_takeWhile_imp hm
    · exact h c (List.mem_reverse.mpr hm)
  · intro h c hc
    exact h c ((List.dropWhile_sublist _).mem (List.mem_reverse.mp hc))

theorem idxOfChar_eq_none (c : Char) (l : List Char) (h : c ∉ l) :
    idxOfChar c l = none := by
  induction l with
  | nil => rfl
  | cons a as ih =>
    have ha : ¬ (a = c) := by
      intro habs
      subst habs
      exact h (List.mem_cons_self _ _)
    have has : c ∉ as := fun hm => h (List.mem_cons_of_mem a hm)
    simp only [idxOfChar, if_neg ha, ih has, Option.map_none']

/-- Tokens produced from an all-whitespace query are nonempty runs of
non-space whitespace. -/
def WsToken (t : String) : Prop :=
  t.data ≠ [] ∧ ∀ c ∈ t.data, c.isWhitespace ∧ c ≠ ' '

theorem tokenizeStep_space (tokens : List String) (cur : List Char) :
    tokenizeStep (tokens, cur, none) ' ' =
      if cur ≠ [] then (tokens ++ [String.mk cur], [], none)
      else (tokens, [], none) := by
  simp [tokenizeStep]

theorem tokenizeStep_plain (tokens : List String) (cur : List Char)
    (c : Char) (h1 : c ≠ '"') (h2 : c ≠ '\'') (h3 : c ≠ ' ') :
    tokenizeStep (tokens, cur, none) c = (tokens, cur ++ [c], none) := by
  simp [tokenizeStep, h1, h2, h3]

theorem tokenizeStep_ws_invariant (cs : List Char)
    (hws : ∀ c ∈ cs, c.isWhitespace) (tokens : List String)
    (cur : List Char) (htoks : ∀ t ∈ tokens, WsToken t)
    (hcur : ∀ c ∈ cur, c.isWhitespace ∧ c ≠ ' ') :
    (cs.foldl tokenizeStep (tokens, cur, none)).2.2 = none ∧
    (∀ t ∈ (cs.foldl tokenizeStep (tokens, cur, none)).1, WsToken t) ∧
    (∀ c ∈ (cs.foldl tokenizeStep (tokens, cur, none)).2.1,
      c.isWhitespace ∧ c ≠ ' ') := by
  induction cs generalizing tokens cur with
  | nil => exact ⟨rfl, htoks, hcur⟩
  | cons c rest ih =>
    have hcws : c.isWhitespace := hws c (List.mem_cons_self _ _)
    have hrest : ∀ x ∈ rest, x.isWhitespace :=
      fun x hx => hws x (List.mem_cons_of_mem _ hx)
    have hq1 : c ≠ '"' := by
      intro habs; subst habs; simp [Char.isWhitespace] at hcws
    have hq2 : c ≠ '\'' := by
      intro habs; subst habs; simp [Char.isWhitespace] at hcws
    by_cases hsp : c = ' '
    · subst hsp
      rw [List.foldl_cons, tokenizeStep_space]
      by_cases hc : cur ≠ []
      · rw [if_pos hc]
        refine ih hrest _ _ ?_ (by intro x hx; cases hx)
        intro t ht
        rcases List.mem_append.mp ht with hm | hm
        · exact htoks t hm
        · rcases List.mem_singleton.mp hm with rfl
          exact ⟨by simpa using hc, hcur⟩
      · rw [if_neg hc]
        exact ih hrest _ _ htoks (by intro x hx; cases hx)
    · rw [List.foldl_cons, tokenizeStep_plain _ _ c hq1 hq2 hsp]
      refine ih hrest _ _ htoks ?_
      intro x hx
      rcases List.mem_append.mp hx with hm | hm
      · exact hcur x hm
      · rcases List.mem_singleton.mp hm with rfl
        exact ⟨hcws, hsp⟩

theorem tokenizeQuery_all_ws (query : String)
    (hws : ∀ c ∈ query.data, c.isWhitespace) :
    ∀ t ∈ tokenizeQuery query, WsToken t := by
  have h := tokenizeStep_ws_invariant query.data hws [] []
    (by intro t ht; cases ht) (by intro c hc; cases hc)
  unfold tokenizeQuery
  intro t ht
  by_cases hc :
      (query.data.foldl tokenizeStep ([], [], none)).2.1 ≠ []
  · rw [if_pos hc] at ht
    rcases List.mem_append.mp ht with hm | hm
    · exact h.2.1 t hm
    · rcases List.mem_singleton.mp hm with rfl
      exact ⟨by simpa using hc, h.2.2⟩
  · rw [if_neg hc] at ht
    exact h.2.1 t ht

theorem mem_joinSpaceL (xss : List (List Char)) (c : Char)
    (hc : c ∈ joinSpaceL xss) : c = ' ' ∨ ∃ xs ∈ xss, c ∈ xs := by
  induction xss with
  | nil => cases hc
  | cons xs rest ih =>
    cases rest with
    | nil => exact Or.inr ⟨xs, List.mem_cons_self _ _, hc⟩
    | cons ys rest' =>
      rw [joinSpaceL] at hc
      rcases List.mem_append.mp hc with hm | hm
      · exact Or.inr ⟨xs, List.mem_cons_self _ _, hm⟩
      · rcases List.mem_cons.mp hm with rfl | hm'
        · exact Or.inl rfl
        · rcases ih hm' with h | ⟨zs, hzs, hczs⟩
          · exact Or.inl h
          · exact Or.inr ⟨zs, List.mem_cons_of_mem _ hzs, hczs⟩

/-- C4: in the current `parseQuery` (spec-modelled; the recognized set is
`is, priority, scope, type, label, sort`), every token of key:value shape
with a recognized key is recorded as a qualifier — the visible value being
the one of the last such token for that key — and exactly the remaining
tokens form the search text. -/
theorem C4_parseQuery_qualifiers (query : String) (k : String)
    (hk : k ∈ Current.SUPPORTED_QUALIFIERS) :
    objGet (Current.parseQuery query).qualifiers k =
      lastQualValue k (tokenizeQuery query) ∧
    (Current.parseQuery query).searchText =
      trimS (joinSpace ((tokenizeQuery query).filter
        (fun t => (qualTokenFor Current.SUPPORTED_QUALIFIERS t).isNone))) := by
  unfold Current.parseQuery parseQueryWith
  by_cases hq : trimS query = ""
  · have hws : ∀ c ∈ query.data, c.isWhitespace := by
      rw [← trimL_eq_nil_iff]
      have := congrArg String.data hq
      simpa [trimS] using this
    have htok := tokenizeQuery_all_ws query hws
    have hnoshape : ∀ t ∈ tokenizeQuery query, qualifierShape t = none := by
      intro t ht
      have hcolon : ':' ∉ t.data := by
        intro hmem
        have := (htok t ht).2 ':' hmem
        simp [Char.isWhitespace] at this
      simp [qualifierShape, idxOfChar_eq_none ':' t.data hcolon]
    constructor
    · rw [if_pos hq]
      have : (tokenizeQuery query).filterMap (fun t =>
          match qualifierShape t with
          | some (k', v) => if k' = k then some v else none
          | none => none) = [] := by
        rw [List.filterMap_eq_nil]
        intro t ht
        rw [hnoshape t ht]
      simp [lastQualValue, this, objGet]
    · rw [if_pos hq]
      have hall : ∀ t ∈ (tokenizeQuery query).filter
          (fun t => (qualTokenFor Current.SUPPORTED_QUALIFIERS t).isNone),
          WsToken t := by
        intro t ht
        exact htok t (List.mem_of_mem_filter ht)
      have : trimL (joinSpace ((tokenizeQuery query).filter
          (fun t =>
            (qualTokenFor Current.SUPPORTED_QUALIFIERS t).isNone))).data
          = [] := by
        rw [trimL_eq_nil_iff]
        intro c hc
        simp only [joinSpace] at hc
        rcases mem_joinSpaceL _ c hc with rfl | ⟨xs, hxs, hcxs⟩
        · simp [Char.isWhitespace]
        · rcases List.mem_map.mp hxs with ⟨t, ht, rfl⟩
          exact ((hall t ht).2 c hcxs).1
      simp only [trimS, this]
  · rw [if_neg hq, foldl_parseQueryStep]
    exact ⟨objGet_filterMap_qualToken _ k hk _, rfl⟩

theorem C4_parseQuery_qualifiers_witness :
    ("scope" ∈ Current.SUPPORTED_QUALIFIERS ∧
      (objGet (Current.parseQuery "scope:small").qualifiers "scope" =
        lastQualValue "scope" (tokenizeQuery "scope:small") ∧
       (Current.parseQuery "scope:small").searchText =
         trimS (joinSpace ((tokenizeQuery "scope:small").filter
           (fun t =>
             (qualTokenFor Current.SUPPORTED_QUALIFIERS t).isNone))))) ∧
    objGet (Current.parseQuery "scope:small").qualifiers "scope" =
      some "small" ∧
    (Current.parseQuery "scope:small").searchText = "" :=
  ⟨⟨by decide, C4_parseQuery_qualifiers "scope:small" "scope" (by decide)⟩,
   by decide, by decide⟩

/-! ## Claim C6: invalid qualifier values are fail-open -/

theorem tokenize_plain_run (cs : List Char)
    (h : ∀ c ∈ cs, c ≠ '"' ∧ c ≠ '\'' ∧ c ≠ ' ') (tokens : List String)
    (cur : List Char) :
    cs.foldl tokenizeStep (tokens, cur, none) = (tokens, cur ++ cs, none) := by
  induction cs generalizing cur with
  | nil => simp
  | cons c rest ih =>
    have hc := h c (List.mem_cons_self _ _)
    rw [List.foldl_cons, tokenizeStep_plain _ _ c hc.1 hc.2.1 hc.2.2,
      ih (fun x hx => h x (List.mem_cons_of_mem _ hx))]
    simp

theorem tokenizeQuery_single (s : String) (hne : s.data ≠ [])
    (h : ∀ c ∈ s.data, c ≠ '"' ∧ c ≠ '\'' ∧ c ≠ ' ') :
    tokenizeQuery s = [s] := by
  unfold tokenizeQuery
  rw [tokenize_plain_run s.data h [] []]
  simp [hne]

theorem idxOfChar_append_self (c : Char) (xs ys : List Char)
    (h : c ∉ xs) : idxOfChar c (xs ++ c :: ys) = some xs.length := by
  induction xs with
  | nil => simp [idxOfChar]
  | cons a as ih =>
    have ha : ¬ (a = c) := by
      intro habs; subst habs; exact h (List.mem_cons_self _ _)
    simp only [List.cons_append, idxOfChar, if_neg ha, List.append_eq,
      ih (fun hm => h (List.mem_cons_of_mem a hm)), Option.map_some',
      List.length_cons]

theorem qualifierShape_of_colon (key value : String)
    (hk : ':' ∉ key.data) (hkne : key.data ≠ []) (hvne : value.data ≠ []) :
    qualifierShape (key ++ ":" ++ value) = some (key, value) := by
  have hdata : (key ++ ":" ++ value).data =
      key.data ++ ':' :: value.data := by
    simp [String.data_append]
  have hklen : 0 < key.data.length := List.length_pos.mpr hkne
  have hvlen : 0 < value.data.length := List.length_pos.mpr hvne
  have hlen : (key ++ ":" ++ value).length =
      key.data.length + 1 + value.data.length := by
    rw [show (key ++ ":" ++ value).length =
        (key ++ ":" ++ value).data.length from rfl, hdata]
    simp
    omega
  unfold qualifierShape
  rw [hdata, idxOfChar_append_self ':' key.data value.data hk]
  show (if key.data.length > 0 ∧
      key.data.length < (key ++ ":" ++ value).length - 1 then
    some (String.mk ((key.data ++ ':' :: value.data).take key.data.length),
          String.mk ((key.data ++ ':' :: value.data).drop
            (key.data.length + 1)))
    else none) = some (key, value)
  rw [if_pos ⟨hklen, by omega⟩]
  have htake : (key.data ++ ':' :: value.data).take key.data.length =
      key.data := List.take_left key.data _
  have hdrop : (key.data ++ ':' :: value.data).drop
      (key.data.length + 1) = value.data := by
    have heq : key.data ++ ':' :: value.data =
        (key.data ++ [':']) ++ value.data := by simp
    rw [heq]
    have hlen2 : (key.data ++ [':']).length = key.data.length + 1 := by
      simp
    rw [← hlen2, List.drop_left]
  rw [htake, hdrop]

/-- Every branch of `sortIssues` is a stable sort, hence a permutation of
its input. -/
theorem sortIssues_perm (issues : List Issue) (sortBy : String) :
    (sortIssues issues sortBy).Perm issues := by
  simp only [sortIssues, jsSortBy]
  split_ifs <;> exact List.perm_insertionSort _ issues

/-- The valid value sets of the fail-open enum qualifiers of the older
`filterByQuery`. -/
def enumValuesFor : String → List String
  | "is" => ["open", "closed"]
  | "priority" => ["high", "medium", "low"]
  | "type" => ["bug", "improvement"]
  | _ => []

/-- C6: a query consisting of a single enum qualifier whose value is not a
valid value for that qualifier excludes nothing — `filterByQuery` returns a
permutation of the full input collection (only the default sort may reorder
it); the invalid value is not an error. -/
theorem C6_filterByQuery_fail_open (fuse : Fuse) (issues : List Issue)
    (key value : String) (hkey : key ∈ ["is", "priority", "type"])
    (hvne : value.data ≠ [])
    (hvtok : ∀ c ∈ value.data, ¬ c.isWhitespace ∧ c ≠ '"' ∧ c ≠ '\'')
    (hinv : toLowerS value ∉ enumValuesFor key) :
    (filterByQuery fuse issues (key ++ ":" ++ value)).Perm issues := by
  have hkcases : key = "is" ∨ key = "priority" ∨ key = "type" := by
    simpa using hkey
  have hkchars : (':' ∉ key.data ∧ key.data ≠ []) ∧
      (∀ c ∈ key.data, c ≠ '"' ∧ c ≠ '\'' ∧ c ≠ ' ') ∧
      (∀ c ∈ key.data, ¬ c.isWhitespace) := by
    rcases hkcases with rfl | rfl | rfl <;> exact ⟨by decide, by decide, by decide⟩
  have hdata : (key ++ ":" ++ value).data =
      key.data ++ ':' :: value.data := by
    simp [String.data_append]
  have htrim : trimS (key ++ ":" ++ value) ≠ "" := by
    intro habs
    have hws : ∀ c ∈ (key ++ ":" ++ value).data, c.isWhitespace := by
      rw [← trimL_eq_nil_iff]
      have := congrArg String.data habs
      simpa [trimS] using this
    have : (':' : Char).isWhitespace := by
      refine hws ':' ?_
      rw [hdata]
      exact List.mem_append.mpr (Or.inr (List.mem_cons_self _ _))
    simp [Char.isWhitespace] at this
  have htok : tokenizeQuery (key ++ ":" ++ value) = [key ++ ":" ++ value] := by
    refine tokenizeQuery_single _ (by rw [hdata]; simp) ?_
    intro c hc
    rw [hdata] at hc
    rcases List.mem_append.mp hc with hm | hm
    · exact hkchars.2.1 c hm
    · rcases List.mem_cons.mp hm with rfl | hm'
      · exact ⟨by decide, by decide, by decide⟩
      · have := hvtok c hm'
        refine ⟨this.2.1, this.2.2, ?_⟩
        intro habs
        subst habs
        exact this.1 (by decide)
  have hshape := qualifierShape_of_colon key value hkchars.1.1 hkchars.1.2 hvne
  have hsup : key ∈ SUPPORTED_QUALIFIERS := by
    rcases hkcases with rfl | rfl | rfl <;> decide
  have hparsed : parseQuery (key ++ ":" ++ value) =
      { qualifiers := [(key, value)], searchText := "" } := by
    unfold parseQuery parseQueryWith
    rw [if_neg htrim, htok]
    simp [parseQueryStep, hshape, hsup, joinSpace, joinSpaceL, trimS, trimL]
  have hmatch : ∀ issue, matchesQualifiers
      { qualifiers := [(key, value)], searchText := "" } issue = true := by
    intro issue
    have hget : objGet [(key, value)] key = some value := by
      simp [objGet]
    have hgetOther : ∀ k', k' ≠ key → objGet [(key, value)] k' = none := by
      intro k' hk'
      simp [objGet, Ne.symm hk']
    rcases hkcases with rfl | rfl | rfl
    · have hv : ¬ (toLowerS value = "open" ∨ toLowerS value = "closed") := by
        simpa [enumValuesFor] using hinv
      simp [matchesQualifiers, hget, hgetOther, hv]
    · have hv : ¬ (toLowerS value = "high" ∨ toLowerS value = "medium" ∨
          toLowerS value = "low") := by
        simpa [enumValuesFor] using hinv
      simp [matchesQualifiers, hget, hgetOther, hv]
    · have hv : ¬ (toLowerS value = "bug" ∨ toLowerS value = "improvement") := by
        simpa [enumValuesFor] using hinv
      simp [matchesQualifiers, hget, hgetOther, hv]
  unfold filterByQuery
  rw [hparsed]
  have hfilter : issues.filter (matchesQualifiers
      { qualifiers := [(key, value)], searchText := "" }) = issues :=
    List.filter_eq_self.mpr (fun a _ => hmatch a)
  simp only [hfilter]
  rw [if_pos (by simp [trimS, trimL])]
  exact sortIssues_perm issues _

theorem C6_filterByQuery_fail_open_witness :
    (∀ issues : List Issue,
      (filterByQuery (fun _ _ => []) issues
        ("priority" ++ ":" ++ "notarealvalue")).Perm issues) ∧
    filterByQuery (fun _ _ => []) [] "priority:notarealvalue" = [] :=
  ⟨fun issues =>
    C6_filterByQuery_fail_open (fun _ _ => []) issues "priority"
      "notarealvalue" (by decide) (by decide) (by decide) (by decide),
   by decide⟩

/-! ## Claim C3: frontmatter round trip -/

/-- The combined character expansion of the two escape passes. -/
def escChar (c : Char) : List Char :=
  if c = '\\' then ['\\', '\\'] else if c = '"' then ['\\', '"'] else [c]

theorem escapeQuoted_eq_flatMap (l : List Char) :
    escapeQuoted l = l.flatMap escChar := by
  unfold escapeQuoted
  induction l with
  | nil => rfl
  | cons c r ih =>
    simp only [List.flatMap_cons, List.flatMap_append]
    rw [ih]
    congr 1
    by_cases h1 : c = '\\'
    · subst h1; rfl
    · by_cases h2 : c = '"'
      · subst h2; rfl
      · simp [escChar, h1, h2]

/-- The first unescape pass leaves a character it cannot start a pattern
with. -/
theorem replacePair_cons_plain (x y : Char) (rep : List Char) (c : Char)
    (hc : c ≠ x) (l : List Char) :
    replacePair x y rep (c :: l) = c :: replacePair x y rep l := by
  cases l with
  | nil => rfl
  | cons b r =>
    simp only [replacePair]
    rw [if_neg (by rintro ⟨h, -⟩; exact hc h)]

theorem replacePair_cons2 (x y : Char) (rep : List Char) (c b : Char)
    (l : List Char) (hng : ¬ (c = x ∧ b = y)) :
    replacePair x y rep (c :: b :: l) = c :: replacePair x y rep (b :: l) := by
  simp only [replacePair]
  rw [if_neg hng]

theorem phase1_pat (l : List Char) :
    replacePair '\\' '"' ['"'] ('\\' :: '"' :: l) =
      '"' :: replacePair '\\' '"' ['"'] l := rfl

theorem phase2_pat (l : List Char) :
    replacePair '\\' '\\' ['\\'] ('\\' :: '\\' :: l) =
      '\\' :: replacePair '\\' '\\' ['\\'] l := rfl

theorem phase1_double_backslash (l : List Char)
    (h : l.head? ≠ some '"') :
    replacePair '\\' '"' ['"'] ('\\' :: '\\' :: l) =
      '\\' :: '\\' :: replacePair '\\' '"' ['"'] l := by
  rw [replacePair_cons2 _ _ _ _ _ _
    (by rintro ⟨-, habs⟩; exact absurd habs (by decide))]
  cases l with
  | nil => rfl
  | cons b r =>
    rw [replacePair_cons2 _ _ _ _ _ _
      (by rintro ⟨-, habs⟩; exact h (by rw [habs]; rfl))]

/-- The charwise backslash-doubling (what remains to undo after the first
unescape pass). -/
def escBack (c : Char) : List Char :=
  if c = '\\' then ['\\', '\\'] else [c]

theorem head_flatMap_escChar (l : List Char) :
    (l.flatMap escChar).head? ≠ some '"' := by
  cases l with
  | nil => simp
  | cons c r =>
    by_cases h1 : c = '\\'
    · subst h1
      simp [escChar]
    · by_cases h2 : c = '"'
      · subst h2
        simp [escChar]
      · simp [escChar, h1, h2]

theorem phase1_escape (l : List Char) :
    replacePair '\\' '"' ['"'] (l.flatMap escChar) =
      l.flatMap escBack := by
  induction l with
  | nil => rfl
  | cons c r ih =>
    by_cases h1 : c = '\\'
    · subst h1
      show replacePair '\\' '"' ['"'] ('\\' :: '\\' :: r.flatMap escChar) =
        '\\' :: '\\' :: r.flatMap escBack
      rw [phase1_double_backslash _ (head_flatMap_escChar r), ih]
    · by_cases h2 : c = '"'
      · subst h2
        show replacePair '\\' '"' ['"'] ('\\' :: '"' :: r.flatMap escChar) =
          '"' :: r.flatMap escBack
        rw [phase1_pat, ih]
      · have he : escChar c = [c] := by simp [escChar, h1, h2]
        have hb : escBack c = [c] := by simp [escBack, h1]
        show replacePair '\\' '"' ['"'] (escChar c ++ r.flatMap escChar) =
          escBack c ++ r.flatMap escBack
        rw [he, hb, List.singleton_append, List.singleton_append,
          replacePair_cons_plain _ _ _ c h1, ih]

theorem phase2_escBack (l : List Char) :
    replacePair '\\' '\\' ['\\'] (l.flatMap escBack) = l := by
  induction l with
  | nil => rfl
  | cons c r ih =>
    by_cases h1 : c = '\\'
    · subst h1
      show replacePair '\\' '\\' ['\\'] ('\\' :: '\\' :: r.flatMap escBack) =
        '\\' :: r
      rw [phase2_pat, ih]
    · have hb : escBack c = [c] := by simp [escBack, h1]
      show replacePair '\\' '\\' ['\\'] (escBack c ++ r.flatMap escBack) =
        c :: r
      rw [hb, List.singleton_append, replacePair_cons_plain _ _ _ c h1, ih]

theorem unescape_escape (l : List Char) :
    unescapeQuoted (escapeQuoted l) = l := by
  rw [unescapeQuoted, escapeQuoted_eq_flatMap, phase1_escape, phase2_escBack]

/-- `yamlUnquote` undoes `yamlQuote` on any title string. -/
theorem yamlUnquote_yamlQuote (t : String) :
    yamlUnquote (yamlQuote t) = t := by
  unfold yamlQuote
  by_cases hq : t.data.any needsQuoteChar = true ∨ t ≠ trimS t
  · rw [if_pos hq]
    unfold yamlUnquote
    have hdata : (String.mk ('"' :: escapeQuoted t.data ++ ['"'])).data =
        '"' :: (escapeQuoted t.data ++ ['"']) := rfl
    rw [hdata]
    have hhead : ('"' :: (escapeQuoted t.data ++ ['"'])).head? = some '"' :=
      rfl
    have hlast : ('"' :: (escapeQuoted t.data ++ ['"'])).getLast? =
        some '"' := by
      rw [show '"' :: (escapeQuoted t.data ++ ['"']) =
        ('"' :: escapeQuoted t.data) ++ ['"'] from by simp,
        List.getLast?_concat]
    rw [if_pos (Or.inl ⟨hhead, hlast⟩), if_pos hhead]
    have hinner : (('"' :: (escapeQuoted t.data ++ ['"'])).drop 1).dropLast =
        escapeQuoted t.data := by
      simp
    rw [hinner, unescape_escape]
  · rw [if_neg hq]
    push_neg at hq
    unfold yamlUnquote
    by_cases hnil : t.data = []
    · simp [hnil]
    · have hhead : ∀ q : Char, needsQuoteChar q → t.data.head? ≠ some q := by
        intro q hqc habs
        have hmem : q ∈ t.data := by
          cases ht : t.data with
          | nil => rw [ht] at habs; exact absurd habs (by simp)
          | cons a r =>
            rw [ht] at habs
            simp only [List.head?_cons, Option.some_inj] at habs
            cases habs
            exact List.mem_cons_self _ _
        exact absurd (List.any_eq_true.mpr ⟨q, hmem, hqc⟩) (by simp [hq.1])
      rw [if_neg]
      rintro (⟨h1, -⟩ | ⟨h1, -⟩)
      · exact hhead '"' (by decide) h1
      · exact hhead '\'' (by decide) h1

/-! Marker and line-structure lemmas for the round trip. -/

def MARKER : List Char := ['\n', '-', '-', '-', '\n']

theorem isPrefixOf_marker_false_of_head (c : Char) (X : List Char)
    (hc : c ≠ '\n') : MARKER.isPrefixOf (c :: X) = false := by
  simp only [MARKER, List.isPrefixOf]
  simp [Ne.symm hc]

theorem breakOnMarker_cons_plain (c : Char) (X : List Char)
    (hc : c ≠ '\n') :
    breakOnMarker (c :: X) =
      (breakOnMarker X).map (fun p => (c :: p.1, p.2)) := by
  rw [breakOnMarker]
  have hpref : (['\n', '-', '-', '-', '\n'] : List Char).isPrefixOf
      (c :: X) = false := isPrefixOf_marker_false_of_head c X hc
  rw [if_neg (by simp [hpref])]
  cases breakOnMarker X with
  | none => rfl
  | some p => rfl

theorem breakOnMarker_no_nl (l rest : List Char) (h : '\n' ∉ l) :
    breakOnMarker (l ++ rest) =
      (breakOnMarker rest).map (fun p => (l ++ p.1, p.2)) := by
  induction l with
  | nil =>
    simp only [List.nil_append]
    cases breakOnMarker rest with
    | none => rfl
    | some p => rfl
  | cons c cs ih =>
    have hc : c ≠ '\n' := by
      intro habs; subst habs; exact h (List.mem_cons_self _ _)
    have hcs : '\n' ∉ cs := fun hm => h (List.mem_cons_of_mem _ hm)
    rw [List.cons_append, breakOnMarker_cons_plain c _ hc, ih hcs]
    cases breakOnMarker rest with
    | none => rfl
    | some p => rfl

theorem breakOnMarker_at_marker (b : List Char) :
    breakOnMarker (MARKER ++ b) = some ([], b) := by
  rw [show MARKER ++ b = '\n' :: ('-' :: '-' :: '-' :: '\n' :: b) from rfl,
    breakOnMarker]
  rw [if_pos (by simp [List.isPrefixOf])]
  rfl

/-- The head character of a joined nonempty line list is the head of its
first line. -/
theorem joinNLL_head (x : List Char) (rest : List (List Char))
    (hx : x ≠ []) : (joinNLL (x :: rest)).head? = x.head? := by
  cases rest with
  | nil => rfl
  | cons y r =>
    rw [joinNLL]
    cases x with
    | nil => exact absurd rfl hx
    | cons a as => rfl

theorem breakOnMarker_joinNLL (lines : List (List Char)) (b : List Char)
    (h : ∀ l ∈ lines, l ≠ [] ∧ '\n' ∉ l ∧ l.head? ≠ some '-') :
    breakOnMarker (joinNLL lines ++ (MARKER ++ b)) =
      some (joinNLL lines, b) := by
  induction lines with
  | nil =>
    simp only [joinNLL, List.nil_append]
    exact breakOnMarker_at_marker b
  | cons l rest ih =>
    have hl := h l (List.mem_cons_self _ _)
    have hrest : ∀ x ∈ rest, x ≠ [] ∧ '\n' ∉ x ∧ x.head? ≠ some '-' :=
      fun x hx => h x (List.mem_cons_of_mem _ hx)
    cases rest with
    | nil =>
      simp only [joinNLL]
      rw [breakOnMarker_no_nl l _ hl.2.1, breakOnMarker_at_marker b]
      simp
    | cons l2 rest2 =>
      have hl2 := hrest l2 (List.mem_cons_self _ _)
      rw [joinNLL]
      rw [show (l ++ '\n' :: joinNLL (l2 :: rest2)) ++ (MARKER ++ b) =
        l ++ ('\n' :: (joinNLL (l2 :: rest2) ++ (MARKER ++ b))) from by simp]
      rw [breakOnMarker_no_nl l _ hl.2.1]
      rw [breakOnMarker]
      have hpref : (['\n', '-', '-', '-', '\n'] : List Char).isPrefixOf
          ('\n' :: (joinNLL (l2 :: rest2) ++ (MARKER ++ b))) = false := by
        have hhead : (joinNLL (l2 :: rest2) ++ (MARKER ++ b)).head? =
            l2.head? := by
          cases hj : joinNLL (l2 :: rest2) with
          | nil =>
            have hh := joinNLL_head l2 rest2 hl2.1
            rw [hj] at hh
            cases hl2c : l2 with
            | nil => exact absurd hl2c hl2.1
            | cons a as =>
              rw [hl2c] at hh
              exact Option.noConfusion hh
          | cons a as =>
            have hh := joinNLL_head l2 rest2 hl2.1
            rw [hj] at hh
            simp only [List.cons_append, List.head?_cons]
            exact hh
        cases hX : joinNLL (l2 :: rest2) ++ (MARKER ++ b) with
        | nil => exact absurd hX (by simp [MARKER])
        | cons a as =>
          have ha : a ≠ '-' := by
            intro habs
            subst habs
            rw [hX] at hhead
            exact hl2.2.2 hhead.symm
          simp only [List.isPrefixOf]
          simp [Ne.symm ha]
      rw [if_neg (by simp [hpref]), ih hrest]
      simp

theorem splitOnChar_not_mem (c : Char) (l : List Char) (h : c ∉ l) :
    splitOnChar c l = [l] := by
  induction l with
  | nil => rfl
  | cons a as ih =>
    have ha : ¬ (a = c) := by
      intro habs; subst habs; exact h (List.mem_cons_self _ _)
    rw [splitOnChar]
    simp only [if_neg ha, ih (fun hm => h (List.mem_cons_of_mem _ hm))]

theorem splitOnChar_append_sep (c : Char) (l X : List Char) (h : c ∉ l) :
    splitOnChar c (l ++ c :: X) = l :: splitOnChar c X := by
  induction l with
  | nil =>
    simp only [List.nil_append]
    rw [splitOnChar, if_pos rfl]
  | cons a as ih =>
    have ha : ¬ (a = c) := by
      intro habs; subst habs; exact h (List.mem_cons_self _ _)
    rw [List.cons_append, splitOnChar]
    rw [ih (fun hm => h (List.mem_cons_of_mem _ hm))]
    simp only [if_neg ha]

theorem splitOnChar_joinNLL (lines : List (List Char))
    (h : ∀ l ∈ lines, '\n' ∉ l) (hne : lines ≠ []) :
    splitOnChar '\n' (joinNLL lines) = lines := by
  induction lines with
  | nil => exact absurd rfl hne
  | cons l rest ih =>
    cases rest with
    | nil =>
      simp only [joinNLL]
      exact splitOnChar_not_mem '\n' l (h l (List.mem_cons_self _ _))
    | cons l2 rest2 =>
      rw [joinNLL, splitOnChar_append_sep '\n' l _
        (h l (List.mem_cons_self _ _)),
        ih (fun x hx => h x (List.mem_cons_of_mem _ hx)) (by simp)]

theorem parseFMLines_eq_flatMap (lines : List (List Char)) :
    parseFMLines lines = lines.flatMap lineAssign := by
  unfold parseFMLines
  suffices hgen : ∀ acc, lines.foldl (fun m line => m ++ lineAssign line)
      acc = acc ++ lines.flatMap lineAssign by
    simpa using hgen []
  induction lines with
  | nil => intro acc; simp
  | cons l rest ih =>
    intro acc
    simp only [List.foldl_cons, List.flatMap_cons, ih, List.append_assoc]

theorem trimL_cons_space (x : List Char) : trimL (' ' :: x) = trimL x := by
  rw [trimL, trimL]
  congr 1

/-- The assignment parsed back from a generated `key: value` line. -/
theorem lineAssign_keyval (key v : String) (hk : ':' ∉ key.data)
    (hkne : key.data ≠ []) (hktrim : trimL key.data = key.data)
    (hvtrim : trimL v.data = v.data) :
    lineAssign ((key ++ ": " ++ v).data) =
      [(key, if key = "title" then yamlUnquote v else v)] := by
  have hdata : (key ++ ": " ++ v).data =
      key.data ++ ':' :: ' ' :: v.data := by
    simp [String.data_append]
  rw [hdata]
  have hklen : 0 < key.data.length := List.length_pos.mpr hkne
  have hidx := idxOfChar_append_self ':' key.data (' ' :: v.data) hk
  simp only [lineAssign, hidx]
  rw [if_pos (by exact hklen)]
  have htake : (key.data ++ ':' :: ' ' :: v.data).take key.data.length =
      key.data := List.take_left key.data _
  have hdrop : (key.data ++ ':' :: ' ' :: v.data).drop
      (key.data.length + 1) = ' ' :: v.data := by
    have heq : key.data ++ ':' :: ' ' :: v.data =
        (key.data ++ [':']) ++ ' ' :: v.data := by simp
    rw [heq]
    have hlen2 : (key.data ++ [':']).length = key.data.length + 1 := by simp
    rw [← hlen2, List.drop_left]
  rw [htake, hdrop, hktrim, trimL_cons_space, hvtrim]

theorem joinNLL_cons (x : List Char) (ys : List (List Char))
    (hys : ys ≠ []) : joinNLL (x :: ys) = x ++ '\n' :: joinNLL ys := by
  cases ys with
  | nil => exact absurd rfl hys
  | cons y r => rfl

theorem joinNLL_append_singleton (xs : List (List Char)) (y : List Char)
    (hxs : xs ≠ []) : joinNLL (xs ++ [y]) = joinNLL xs ++ '\n' :: y := by
  induction xs with
  | nil => exact absurd rfl hxs
  | cons x rest ih =>
    cases rest with
    | nil => rfl
    | cons x2 rest2 =>
      rw [List.cons_append, joinNLL_cons x _ (by simp),
        joinNLL_cons x (x2 :: rest2) (by simp), ih (by simp)]
      simp

/-- Parsing a file assembled from a `---` fence, well-formed block lines, a
`---` fence and a body recovers exactly the block lines and the body. -/
theorem parseFrontmatter_roundtrip_lines (mids : List String) (B : String)
    (hne : mids ≠ [])
    (h : ∀ l ∈ mids, l.data ≠ [] ∧ '\n' ∉ l.data ∧ l.data.head? ≠ some '-') :
    parseFrontmatter
      (String.mk (joinNLL (("---" :: mids ++ ["---"]).map String.data)) ++
        "\n" ++ B) =
      (parseFMLines (mids.map String.data), B) := by
  have hmapne : mids.map String.data ≠ [] := by
    intro habs
    exact hne (List.map_eq_nil_iff.mp habs)
  have hJ : joinNLL (("---" :: mids ++ ["---"]).map String.data) =
      ['-', '-', '-'] ++ '\n' ::
        (joinNLL (mids.map String.data) ++ '\n' :: ['-', '-', '-']) := by
    rw [show ("---" :: mids ++ ["---"]).map String.data =
      "---".data :: (mids.map String.data ++ ["---".data]) from by simp]
    rw [joinNLL_cons _ _ (by simp),
      joinNLL_append_singleton _ _ hmapne]
  have hdata : (String.mk
        (joinNLL (("---" :: mids ++ ["---"]).map String.data)) ++
        "\n" ++ B).data =
      '-' :: '-' :: '-' :: '\n' ::
        (joinNLL (mids.map String.data) ++ (MARKER ++ B.data)) := by
    rw [show (String.mk
        (joinNLL (("---" :: mids ++ ["---"]).map String.data)) ++
        "\n" ++ B).data =
      joinNLL (("---" :: mids ++ ["---"]).map String.data) ++
        '\n' :: B.data from by simp [String.data_append], hJ]
    simp [MARKER]
  unfold parseFrontmatter
  rw [hdata]
  rw [if_pos (by simp [List.isPrefixOf])]
  rw [show List.drop 4 ('-' :: '-' :: '-' :: '\n' ::
      (joinNLL (mids.map String.data) ++ (MARKER ++ B.data))) =
    joinNLL (mids.map String.data) ++ (MARKER ++ B.data) from rfl]
  rw [breakOnMarker_joinNLL _ _ (by
    intro l hl
    rcases List.mem_map.mp hl with ⟨x, hx, rfl⟩
    exact h x hx)]
  show (parseFMLines (splitOnChar '\n' (joinNLL (mids.map String.data))),
    String.mk B.data) = (parseFMLines (mids.map String.data), B)
  rw [splitOnChar_joinNLL _ (by
    intro l hl
    rcases List.mem_map.mp hl with ⟨x, hx, rfl⟩
    exact (h x hx).2.1) hmapne]

theorem mem_escapeQuoted_newline (l : List Char) (h : '\n' ∉ l) :
    '\n' ∉ escapeQuoted l := by
  rw [escapeQuoted_eq_flatMap]
  intro hmem
  rcases List.mem_flatMap.mp hmem with ⟨c, hc, hin⟩
  unfold escChar at hin
  split at hin
  · simp at hin
  · split at hin
    · simp at hin
    · rcases List.mem_singleton.mp hin with rfl
      exact h hc

theorem yamlQuote_no_newline (t : String) (h : '\n' ∉ t.data) :
    '\n' ∉ (yamlQuote t).data := by
  unfold yamlQuote
  split
  · intro hmem
    simp only at hmem
    rcases List.mem_cons.mp hmem with habs | hmem'
    · exact absurd habs (by decide)
    · rcases List.mem_append.mp hmem' with hm | hm
      · exact mem_escapeQuoted_newline _ h hm
      · rcases List.mem_singleton.mp hm with habs
        exact absurd habs (by decide)
  · exact h

theorem dropWhile_eq_self_of_head (p : Char → Bool) (l : List Char)
    (h : ∀ c, l.head? = some c → p c = false) : l.dropWhile p = l := by
  cases l with
  | nil => rfl
  | cons a as =>
    rw [List.dropWhile_cons, if_neg (by simp [h a rfl])]

theorem trimL_eq_self_of_ends (l : List Char)
    (h1 : ∀ c, l.head? = some c → c.isWhitespace = false)
    (h2 : ∀ c, l.getLast? = some c → c.isWhitespace = false) :
    trimL l = l := by
  unfold trimL
  rw [dropWhile_eq_self_of_head _ l h1,
    dropWhile_eq_self_of_head _ l.reverse
      (by intro c hc; exact h2 c (by rwa [List.head?_reverse] at hc)),
    List.reverse_reverse]

theorem yamlQuote_trim_stable (t : String) :
    trimL (yamlQuote t).data = (yamlQuote t).data := by
  unfold yamlQuote
  split
  · refine trimL_eq_self_of_ends _ ?_ ?_
    · intro c hc
      simp only [List.head?_cons] at hc
      cases hc
      rfl
    · intro c hc
      have hc' : ('"' :: (escapeQuoted t.data ++ ['"'])).getLast? =
          some c := hc
      rw [show ('"' :: (escapeQuoted t.data ++ ['"'])) =
        ('"' :: escapeQuoted t.data) ++ ['"'] from by simp,
        List.getLast?_concat] at hc'
      cases hc'
      rfl
  · rename_i hcond
    push_neg at hcond
    have := congrArg String.data hcond.2
    simpa [trimS] using this.symm

theorem objGet_singleton (k' v k : String) :
    objGet [(k', v)] k = if k' = k then some v else none := by
  by_cases h : k' = k
  · simp [objGet, h]
  · simp [objGet, h]

theorem line_props (k v : String) (hkne : k.data ≠ [])
    (hkh : k.data.head? ≠ some '-') (hknl : '\n' ∉ k.data)
    (hvnl : '\n' ∉ v.data) :
    (k ++ ": " ++ v).data ≠ [] ∧ '\n' ∉ (k ++ ": " ++ v).data ∧
      (k ++ ": " ++ v).data.head? ≠ some '-' := by
  have hdata : (k ++ ": " ++ v).data = k.data ++ ':' :: ' ' :: v.data := by
    simp [String.data_append]
  rw [hdata]
  refine ⟨by simp, ?_, ?_⟩
  · intro hmem
    rcases List.mem_append.mp hmem with hm | hm
    · exact hknl hm
    · rcases List.mem_cons.mp hm with habs | hm'
      · exact absurd habs (by decide)
      · rcases List.mem_cons.mp hm' with habs | hm''
        · exact absurd habs (by decide)
        · exact hvnl hm''
  · cases hk : k.data with
    | nil => exact absurd hk hkne
    | cons a as =>
      rw [hk] at hkh
      simpa using hkh

theorem objGet_optSeg_self (o : Option String) (k' : String)
    (ho : ∀ x, o = some x → x ≠ "") :
    objGet (if truthy o then [(k', interp o)] else []) k' = o := by
  cases o with
  | none => simp [truthy, objGet]
  | some x =>
    rw [if_pos (by simp [truthy, ho x rfl]), objGet_singleton,
      if_pos rfl, interp]

theorem objGet_optSeg_ne (o : Option String) (k' k : String) (h : k' ≠ k) :
    objGet (if truthy o then [(k', interp o)] else []) k = none := by
  by_cases hc : truthy o = true
  · rw [if_pos hc, objGet_singleton, if_neg h]
  · rw [if_neg hc]
    rfl

/-- The flattened assignment of one conditional (truthy-guarded) line. -/
theorem flatMap_seg (o : Option String) (k : String)
    (hk : ':' ∉ k.data ∧ k.data ≠ [] ∧ trimL k.data = k.data ∧ k ≠ "title")
    (hv : truthy o = true → trimL (interp o).data = (interp o).data) :
    ((if truthy o then [k ++ ": " ++ interp o] else []).map
      String.data).flatMap lineAssign =
      if truthy o then [(k, interp o)] else [] := by
  by_cases h : truthy o = true
  · rw [if_pos h, if_pos h]
    simp only [List.map_cons, List.map_nil, List.flatMap_cons,
      List.flatMap_nil, List.append_nil]
    rw [lineAssign_keyval k (interp o) hk.1 hk.2.1 hk.2.2.1 (hv h)]
    rw [if_neg hk.2.2.2]
  · rw [if_neg h, if_neg h]
    rfl

theorem optOr_some {α : Type} (a : α) (o : Option α) :
    (some a).or o = some a := rfl

theorem optOr_none {α : Type} (o : Option α) : Option.or none o = o := rfl

theorem objGet_nil (k : String) : objGet [] k = none := rfl

theorem objGet_cons (k' v : String) (rest : List (String × String))
    (k : String) :
    objGet ((k', v) :: rest) k =
      (objGet rest k).or (if k' = k then some v else none) := by
  have h : ((k', v) :: rest) = [(k', v)] ++ rest := rfl
  rw [h, objGet_append, objGet_singleton]

/-- C3 (amended): for a §3-shaped record whose title contains no newline and
whose optional raw string fields are nonempty, newline-free and
trim-stable, serializing the frontmatter into a file (the block followed by
a newline and the body, as `createIssue`/`updateIssue` write it) and parsing
it back reproduces every structured value and the body exactly. -/
theorem C3_frontmatter_roundtrip_amended (t p ty s cr B : String)
    (sc lb od up : Option String)
    (ht : '\n' ∉ t.data)
    (hp : p ∈ (["high", "medium", "low"] : List String))
    (hsc : ∀ x, sc = some x → x ∈ (["small", "medium", "large"] : List String))
    (hty : ty ∈ (["bug", "improvement"] : List String))
    (hlb : ∀ x, lb = some x → x ≠ "" ∧ '\n' ∉ x.data ∧ trimS x = x)
    (hs : s ∈ (["open", "closed"] : List String))
    (hod : ∀ x, od = some x → x ≠ "" ∧ '\n' ∉ x.data ∧ trimS x = x)
    (hcr : '\n' ∉ cr.data ∧ trimS cr = cr)
    (hup : ∀ x, up = some x → x ≠ "" ∧ '\n' ∉ x.data ∧ trimS x = x) :
    ∃ m, parseFrontmatter (generateFrontmatter
        ⟨some t, some p, sc, some ty, lb, some s, od, some cr, up⟩ ++
        "\n" ++ B) = (m, B) ∧
      objGet m "title" = some t ∧
      objGet m "priority" = some p ∧
      objGet m "scope" = sc ∧
      objGet m "type" = some ty ∧
      objGet m "labels" = lb ∧
      objGet m "status" = some s ∧
      objGet m "order" = od ∧
      objGet m "created" = some cr ∧
      objGet m "updated" = up := by
  have henum_p : p ≠ "" ∧ '\n' ∉ p.data ∧ trimS p = p := by
    fin_cases hp <;> exact ⟨by decide, by decide, by decide⟩
  have henum_ty : ty ≠ "" ∧ '\n' ∉ ty.data ∧ trimS ty = ty := by
    fin_cases hty <;> exact ⟨by decide, by decide, by decide⟩
  have henum_s : s ≠ "" ∧ '\n' ∉ s.data ∧ trimS s = s := by
    fin_cases hs <;> exact ⟨by decide, by decide, by decide⟩
  have hsc' : ∀ x, sc = some x → x ≠ "" ∧ '\n' ∉ x.data ∧ trimS x = x := by
    intro x hx
    have hmem := hsc x hx
    fin_cases hmem <;> exact ⟨by decide, by decide, by decide⟩
  have htrim_of : ∀ (o : Option String),
      (∀ x, o = some x → x ≠ "" ∧ '\n' ∉ x.data ∧ trimS x = x) →
      truthy o = true → trimL (interp o).data = (interp o).data := by
    intro o ho h
    cases o with
    | none => simp [truthy] at h
    | some x =>
      have := (ho x rfl).2.2
      have hdata := congrArg String.data this
      simpa [trimS, interp] using hdata
  have hnl_of : ∀ (o : Option String),
      (∀ x, o = some x → x ≠ "" ∧ '\n' ∉ x.data ∧ trimS x = x) →
      truthy o = true → '\n' ∉ (interp o).data := by
    intro o ho h
    cases o with
    | none => simp [truthy] at h
    | some x => exact (ho x rfl).2.1
  set mids : List String :=
    ["title" ++ ": " ++ yamlQuote t, "priority" ++ ": " ++ p] ++
    (if truthy sc then ["scope" ++ ": " ++ interp sc] else []) ++
    ["type" ++ ": " ++ ty] ++
    (if truthy lb then ["labels" ++ ": " ++ interp lb] else []) ++
    ["status" ++ ": " ++ s] ++
    (if truthy od then ["order" ++ ": " ++ interp od] else []) ++
    ["created" ++ ": " ++ cr] ++
    (if truthy up then ["updated" ++ ": " ++ interp up] else []) with hmids
  have hgen : generateFrontmatter
      ⟨some t, some p, sc, some ty, lb, some s, od, some cr, up⟩ =
      String.mk (joinNLL (("---" :: mids ++ ["---"]).map String.data)) := by
    unfold generateFrontmatter
    congr 2
    rw [hmids]
    simp only [fmLines, interp]
    simp only [show ∀ x : String, "title: " ++ x = "title" ++ ": " ++ x from
        fun x => rfl,
      show ∀ x : String, "priority: " ++ x = "priority" ++ ": " ++ x from
        fun x => rfl,
      show ∀ x : String, "scope: " ++ x = "scope" ++ ": " ++ x from
        fun x => rfl,
      show ∀ x : String, "type: " ++ x = "type" ++ ": " ++ x from
        fun x => rfl,
      show ∀ x : String, "labels: " ++ x = "labels" ++ ": " ++ x from
        fun x => rfl,
      show ∀ x : String, "status: " ++ x = "status" ++ ": " ++ x from
        fun x => rfl,
      show ∀ x : String, "order: " ++ x = "order" ++ ": " ++ x from
        fun x => rfl,
      show ∀ x : String, "created: " ++ x = "created" ++ ": " ++ x from
        fun x => rfl,
      show ∀ x : String, "updated: " ++ x = "updated" ++ ": " ++ x from
        fun x => rfl]
    simp
  have hprops : ∀ l ∈ mids, l.data ≠ [] ∧ '\n' ∉ l.data ∧
      l.data.head? ≠ some '-' := by
    intro l hl
    rw [hmids] at hl
    simp only [List.append_assoc, List.cons_append, List.nil_append,
      List.mem_cons, List.mem_append, List.mem_singleton] at hl
    have hseg : ∀ (o : Option String) (k : String),
        l ∈ (if truthy o then [k ++ ": " ++ interp o] else []) →
        l = k ++ ": " ++ interp o ∧ truthy o = true := by
      intro o k hmem
      by_cases hcond : truthy o = true
      · rw [if_pos hcond] at hmem
        exact ⟨List.mem_singleton.mp hmem, hcond⟩
      · rw [if_neg hcond] at hmem
        cases hmem
    rcases hl with rfl | rfl | hm | rfl | hm | rfl | hm | rfl | hm
    · exact line_props "title" (yamlQuote t) (by decide) (by decide)
        (by decide) (yamlQuote_no_newline t ht)
    · exact line_props "priority" p (by decide) (by decide) (by decide)
        henum_p.2.1
    · rcases hseg _ _ hm with ⟨rfl, hcond⟩
      exact line_props "scope" (interp sc) (by decide) (by decide)
        (by decide) (hnl_of sc hsc' hcond)
    · exact line_props "type" ty (by decide) (by decide) (by decide)
        henum_ty.2.1
    · rcases hseg _ _ hm with ⟨rfl, hcond⟩
      exact line_props "labels" (interp lb) (by decide) (by decide)
        (by decide) (hnl_of lb hlb hcond)
    · exact line_props "status" s (by decide) (by decide) (by decide)
        henum_s.2.1
    · rcases hseg _ _ hm with ⟨rfl, hcond⟩
      exact line_props "order" (interp od) (by decide) (by decide)
        (by decide) (hnl_of od hod hcond)
    · exact line_props "created" cr (by decide) (by decide) (by decide)
        hcr.1
    · rcases hseg _ _ hm with ⟨rfl, hcond⟩
      exact line_props "updated" (interp up) (by decide) (by decide)
        (by decide) (hnl_of up hup hcond)
  have hparse := parseFrontmatter_roundtrip_lines mids B
    (by rw [hmids]; simp) hprops
  have hL : parseFMLines (mids.map String.data) =
      [("title", t), ("priority", p)] ++
      (if truthy sc then [("scope", interp sc)] else []) ++
      [("type", ty)] ++
      (if truthy lb then [("labels", interp lb)] else []) ++
      [("status", s)] ++
      (if truthy od then [("order", interp od)] else []) ++
      [("created", cr)] ++
      (if truthy up then [("updated", interp up)] else []) := by
    rw [parseFMLines_eq_flatMap, hmids]
    simp only [List.append_assoc, List.cons_append, List.nil_append,
      List.map_cons, List.map_append, List.flatMap_cons,
      List.flatMap_append]
    rw [lineAssign_keyval "title" (yamlQuote t) (by decide) (by decide)
      (by decide) (yamlQuote_trim_stable t)]
    rw [if_pos rfl, yamlUnquote_yamlQuote]
    rw [lineAssign_keyval "priority" p (by decide) (by decide) (by decide)
      (by have := congrArg String.data henum_p.2.2
          simpa [trimS] using this)]
    rw [lineAssign_keyval "type" ty (by decide) (by decide) (by decide)
      (by have := congrArg String.data henum_ty.2.2
          simpa [trimS] using this)]
    rw [lineAssign_keyval "status" s (by decide) (by decide) (by decide)
      (by have := congrArg String.data henum_s.2.2
          simpa [trimS] using this)]
    rw [lineAssign_keyval "created" cr (by decide) (by decide) (by decide)
      (by have := congrArg String.data hcr.2
          simpa [trimS] using this)]
    rw [flatMap_seg sc "scope" ⟨by decide, by decide, by decide, by decide⟩
      (htrim_of sc hsc')]
    rw [flatMap_seg lb "labels" ⟨by decide, by decide, by decide, by decide⟩
      (htrim_of lb hlb)]
    rw [flatMap_seg od "order" ⟨by decide, by decide, by decide, by decide⟩
      (htrim_of od hod)]
    rw [flatMap_seg up "updated"
      ⟨by decide, by decide, by decide, by decide⟩ (htrim_of up hup)]
    simp
  refine ⟨parseFMLines (mids.map String.data), ?_, ?_⟩
  · rw [hgen, hparse]
  · rw [hL]
    have gsc := objGet_optSeg_self sc "scope" (fun x hx => (hsc' x hx).1)
    have glb := objGet_optSeg_self lb "labels" (fun x hx => (hlb x hx).1)
    have god := objGet_optSeg_self od "order" (fun x hx => (hod x hx).1)
    have gup := objGet_optSeg_self up "updated" (fun x hx => (hup x hx).1)
    refine ⟨?_, ?_, ?_, ?_, ?_, ?_, ?_, ?_, ?_⟩ <;>
      simp +decide only [objGet_append, objGet_singleton, objGet_cons,
        objGet_nil, objGet_optSeg_ne, gsc, glb, god, gup, Option.or_none,
        optOr_none, optOr_some, if_true, if_false, reduceIte]

/-- C3 counterexample: the round trip fails as literally claimed.
First, for a perfectly plain record, `parseFrontmatter (generateFrontmatter R)`
loses every field (the parser requires a newline after the closing marker,
which `generateFrontmatter` does not emit), so the title comes back absent.
Second, even in the file framing that the store actually writes (block,
newline, body), a title containing a newline is destroyed: the quoted escape
only handles backslash and double quote, so the parser recovers a mangled
single-line title. -/
theorem C3_roundtrip_counterexample :
    (objGet (parseFrontmatter (generateFrontmatter
        ⟨some "Test", some "high", none, some "bug", none, some "open",
         none, some "2026-01-01T00:00:00", none⟩)).1 "title" = none) ∧
    (objGet (parseFrontmatter (generateFrontmatter
        ⟨some "a\nb", some "high", none, some "bug", none, some "open",
         none, some "2026-01-01T00:00:00", none⟩ ++ "\n" ++ "Body")).1
        "title" ≠ some "a\nb") := by
  constructor
  · decide
  · decide

/-- Witness for C3: the amended round trip at a concrete record whose title
holds a colon, hash, double quotes, backslash, brackets, braces, comma and
leading/trailing spaces. -/
theorem C3_frontmatter_roundtrip_amended_witness :
    ∃ m, parseFrontmatter (generateFrontmatter
        ⟨some " said: \"a\\b\" #1 [x] \x7by\x7d, ", some "high",
         some "small", some "bug", some "cli, ui", some "open", some "a0",
         some "2026-01-01T00:00:00", some "2026-01-02T00:00:00"⟩ ++
        "\n" ++ "Body text") = (m, "Body text") ∧
      objGet m "title" = some " said: \"a\\b\" #1 [x] \x7by\x7d, " ∧
      objGet m "priority" = some "high" ∧
      objGet m "scope" = some "small" ∧
      objGet m "type" = some "bug" ∧
      objGet m "labels" = some "cli, ui" ∧
      objGet m "status" = some "open" ∧
      objGet m "order" = some "a0" ∧
      objGet m "created" = some "2026-01-01T00:00:00" ∧
      objGet m "updated" = some "2026-01-02T00:00:00" :=
  C3_frontmatter_roundtrip_amended
    " said: \"a\\b\" #1 [x] \x7by\x7d, " "high" "bug" "open"
    "2026-01-01T00:00:00" "Body text"
    (some "small") (some "cli, ui") (some "a0")
    (some "2026-01-02T00:00:00")
    (by decide)
    (by decide)
    (by intro x hx; injection hx with h; rw [h.symm]; decide)
    (by decide)
    (by intro x hx; injection hx with h; rw [h.symm]
        exact ⟨by decide, by decide, by decide⟩)
    (by decide)
    (by intro x hx; injection hx with h; rw [h.symm]
        exact ⟨by decide, by decide, by decide⟩)
    (by exact ⟨by decide, by decide⟩)
    (by intro x hx; injection hx with h; rw [h.symm]
        exact ⟨by decide, by decide, by decide⟩)

/-! ## Claim C5: empty-search sorting

The comparators are three-way `Int` comparators built from the code-unit
order `ltCU`; to get sortedness of `insertionSort` out of them we prove that
`ltCU` is a strict linear order and that each comparator's `· ≤ 0` relation
is total and transitive. -/

theorem ltCU_cons_iff (a b : Char) (as bs : List Char) :
    ltCU (a :: as) (b :: bs) = true ↔
      a.toNat < b.toNat ∨ (a.toNat = b.toNat ∧ ltCU as bs = true) := by
  show (if a.toNat < b.toNat then true
    else if b.toNat < a.toNat then false else ltCU as bs) = true ↔ _
  by_cases h1 : a.toNat < b.toNat
  · rw [if_pos h1]
    simp [h1]
  · rw [if_neg h1]
    by_cases h2 : b.toNat < a.toNat
    · rw [if_pos h2]
      constructor
      · intro h
        exact absurd h (by simp)
      · rintro (h | ⟨he, _⟩) <;> omega
    · rw [if_neg h2]
      have he : a.toNat = b.toNat := by omega
      simp [he]

theorem ltCU_cons_false_iff (a b : Char) (as bs : List Char) :
    ltCU (a :: as) (b :: bs) = false ↔
      b.toNat < a.toNat ∨ (a.toNat = b.toNat ∧ ltCU as bs = false) := by
  rw [← Bool.not_eq_true, ltCU_cons_iff]
  constructor
  · intro h
    rcases Nat.lt_trichotomy a.toNat b.toNat with hlt | heq | hgt
    · exact absurd (Or.inl hlt) h
    · refine Or.inr ⟨heq, ?_⟩
      rcases Bool.eq_false_or_eq_true (ltCU as bs) with ht | hf
      · exact absurd (Or.inr ⟨heq, ht⟩) h
      · exact hf
    · exact Or.inl hgt
  · rintro (hgt | ⟨heq, hf⟩) <;> rintro (hlt | ⟨heq2, ht⟩)
    · omega
    · omega
    · omega
    · rw [hf] at ht
      exact Bool.false_ne_true ht

theorem ltCU_irrefl : ∀ (a : List Char), ltCU a a = false
  | [] => rfl
  | a :: as => by
    have ih := ltCU_irrefl as
    rw [ltCU_cons_false_iff]
    exact Or.inr ⟨rfl, ih⟩

theorem ltCU_trans : ∀ (a b c : List Char), ltCU a b = true →
    ltCU b c = true → ltCU a c = true
  | _, b, [], _, hbc => by
    rw [ltCU_nil_right b] at hbc
    exact absurd hbc (by simp)
  | [], [], _ :: _, hab, _ => by
    exact absurd hab (by simp [ltCU])
  | _ :: _, [], _ :: _, hab, _ => by
    rw [ltCU_nil_right] at hab
    exact absurd hab (by simp)
  | [], _ :: _, _ :: _, _, _ => rfl
  | a :: as, b :: bs, c :: cs, hab, hbc => by
    rw [ltCU_cons_iff] at hab hbc ⊢
    rcases hab with h | ⟨he, hr⟩ <;> rcases hbc with h2 | ⟨he2, hr2⟩
    · exact Or.inl (Nat.lt_trans h h2)
    · exact Or.inl (by omega)
    · exact Or.inl (by omega)
    · exact Or.inr ⟨he.trans he2, ltCU_trans as bs cs hr hr2⟩

theorem ltCU_le_trans : ∀ (a b c : List Char), ltCU a b = false →
    ltCU b c = false → ltCU a c = false
  | a, _, [], _, _ => ltCU_nil_right a
  | [], [], _ :: _, _, hbc => hbc
  | [], _ :: _, _ :: _, hab, _ => by
    exact absurd hab (by simp [ltCU])
  | _ :: _, [], _ :: _, _, hbc => by
    exact absurd hbc (by simp [ltCU])
  | a :: as, b :: bs, c :: cs, hab, hbc => by
    rw [ltCU_cons_false_iff] at hab hbc ⊢
    rcases hab with h | ⟨he, hr⟩ <;> rcases hbc with h2 | ⟨he2, hr2⟩
    · exact Or.inl (Nat.lt_trans h2 h)
    · exact Or.inl (by omega)
    · exact Or.inl (by omega)
    · exact Or.inr ⟨he.trans he2, ltCU_le_trans as bs cs hr hr2⟩

theorem ltCU_asymm (a b : List Char) (h : ltCU a b = true) :
    ltCU b a = false := by
  rcases Bool.eq_false_or_eq_true (ltCU b a) with ht | hf
  · have := ltCU_trans a b a h ht
    rw [ltCU_irrefl a] at this
    exact absurd this (by simp)
  · exact hf

theorem ltCU_total (a b : List Char) :
    ltCU a b = false ∨ ltCU b a = false := by
  rcases Bool.eq_false_or_eq_true (ltCU a b) with ht | hf
  · exact Or.inr (ltCU_asymm a b ht)
  · exact Or.inl hf

theorem localeCompare_le_iff (a b : String) :
    localeCompare a b ≤ 0 ↔ ltCU b.data a.data = false := by
  simp only [localeCompare, ltS]
  by_cases h1 : ltCU a.data b.data = true
  · rw [if_pos h1]
    exact iff_of_true (by omega) (ltCU_asymm _ _ h1)
  · rw [if_neg h1]
    by_cases h2 : ltCU b.data a.data = true
    · rw [if_pos h2]
      exact iff_of_false (by omega) (by simp [h2])
    · rw [if_neg h2]
      exact iff_of_true (by omega) (Bool.eq_false_iff.mpr h2)

/-- Transitivity of `cmp · · ≤ 0` for any rank-then-id-descending
three-way comparator (the shape of `priorityCmp` and `scopeCmp`). -/
theorem rankCmp_le_trans {α : Type} (f : α → Int) (g : α → String)
    (cmp : α → α → Int)
    (hdef : ∀ x y, cmp x y =
      if f x ≠ f y then f x - f y else localeCompare (g y) (g x))
    (a b c : α) (hab : cmp a b ≤ 0) (hbc : cmp b c ≤ 0) : cmp a c ≤ 0 := by
  rw [hdef] at hab hbc ⊢
  by_cases h1 : f a = f b <;> by_cases h2 : f b = f c
  · rw [if_neg (fun hn => hn h1)] at hab
    rw [if_neg (fun hn => hn h2)] at hbc
    rw [if_neg (fun hn => hn (h1.trans h2))]
    rw [localeCompare_le_iff] at hab hbc ⊢
    exact ltCU_le_trans _ _ _ hab hbc
  · rw [if_pos h2] at hbc
    rw [if_pos (fun he => h2 (by rw [← h1]; exact he))]
    omega
  · rw [if_pos h1] at hab
    rw [if_pos (fun he => h1 (by rw [he]; exact h2.symm))]
    omega
  · rw [if_pos h1] at hab
    rw [if_pos h2] at hbc
    rw [if_pos (fun he => by omega)]
    omega

/-- Totality of `cmp · · ≤ 0` for rank-then-id-descending comparators. -/
theorem rankCmp_le_total {α : Type} (f : α → Int) (g : α → String)
    (cmp : α → α → Int)
    (hdef : ∀ x y, cmp x y =
      if f x ≠ f y then f x - f y else localeCompare (g y) (g x))
    (a b : α) : cmp a b ≤ 0 ∨ cmp b a ≤ 0 := by
  rw [hdef, hdef]
  by_cases h1 : f a = f b
  · rw [if_neg (fun hn => hn h1), if_neg (fun hn => hn h1.symm)]
    rw [localeCompare_le_iff, localeCompare_le_iff]
    exact ltCU_total _ _
  · rw [if_pos h1, if_pos (fun he => h1 he.symm)]
    omega

/-- The §3 roadmap comparator on two ordered issues compares the order
keys as strings. -/
theorem roadmapCmp_eq_ss (a b : Issue) (oa ob : String)
    (ha : orNull a.frontmatter.order = some oa)
    (hb : orNull b.frontmatter.order = some ob) :
    Current.roadmapCmp a b = localeCompare oa ob := by
  simp only [Current.roadmapCmp, ha, hb]
  rfl

theorem roadmapCmp_eq_sn (a b : Issue) (oa : String)
    (ha : orNull a.frontmatter.order = some oa)
    (hb : orNull b.frontmatter.order = none) :
    Current.roadmapCmp a b = -1 := by
  simp only [Current.roadmapCmp, ha, hb]

theorem roadmapCmp_eq_ns (a b : Issue) (ob : String)
    (ha : orNull a.frontmatter.order = none)
    (hb : orNull b.frontmatter.order = some ob) :
    Current.roadmapCmp a b = 1 := by
  simp only [Current.roadmapCmp, ha, hb]

theorem roadmapCmp_eq_nn (a b : Issue)
    (ha : orNull a.frontmatter.order = none)
    (hb : orNull b.frontmatter.order = none) :
    Current.roadmapCmp a b = localeCompare a.id b.id := by
  simp only [Current.roadmapCmp, ha, hb]
  rfl

theorem roadmapLE_trans (a b c : Issue)
    (hab : Current.roadmapCmp a b ≤ 0) (hbc : Current.roadmapCmp b c ≤ 0) :
    Current.roadmapCmp a c ≤ 0 := by
  cases hoa : orNull a.frontmatter.order with
  | none =>
    cases hoc : orNull c.frontmatter.order with
    | none =>
      rw [roadmapCmp_eq_nn a c hoa hoc, localeCompare_le_iff]
      cases hob : orNull b.frontmatter.order with
      | none =>
        rw [roadmapCmp_eq_nn a b hoa hob, localeCompare_le_iff] at hab
        rw [roadmapCmp_eq_nn b c hob hoc, localeCompare_le_iff] at hbc
        exact ltCU_le_trans _ _ _ hbc hab
      | some ob =>
        rw [roadmapCmp_eq_ns a b ob hoa hob] at hab
        exact absurd hab (by omega)
    | some oc =>
      cases hob : orNull b.frontmatter.order with
      | none =>
        rw [roadmapCmp_eq_ns b c oc hob hoc] at hbc
        exact absurd hbc (by omega)
      | some ob =>
        rw [roadmapCmp_eq_ns a b ob hoa hob] at hab
        exact absurd hab (by omega)
  | some oa =>
    cases hoc : orNull c.frontmatter.order with
    | none =>
      rw [roadmapCmp_eq_sn a c oa hoa hoc]
      omega
    | some oc =>
      cases hob : orNull b.frontmatter.order with
      | none =>
        rw [roadmapCmp_eq_ns b c oc hob hoc] at hbc
        exact absurd hbc (by omega)
      | some ob =>
        rw [roadmapCmp_eq_ss a b oa ob hoa hob, localeCompare_le_iff] at hab
        rw [roadmapCmp_eq_ss b c ob oc hob hoc, localeCompare_le_iff] at hbc
        rw [roadmapCmp_eq_ss a c oa oc hoa hoc, localeCompare_le_iff]
        exact ltCU_le_trans _ _ _ hbc hab

theorem roadmapLE_total (a b : Issue) :
    Current.roadmapCmp a b ≤ 0 ∨ Current.roadmapCmp b a ≤ 0 := by
  cases hoa : orNull a.frontmatter.order with
  | none =>
    cases hob : orNull b.frontmatter.order with
    | none =>
      rw [roadmapCmp_eq_nn a b hoa hob, roadmapCmp_eq_nn b a hob hoa,
        localeCompare_le_iff, localeCompare_le_iff]
      exact ltCU_total _ _
    | some ob =>
      rw [roadmapCmp_eq_sn b a ob hob hoa]
      exact Or.inr (by omega)
  | some oa =>
    cases hob : orNull b.frontmatter.order with
    | none =>
      rw [roadmapCmp_eq_sn a b oa hoa hob]
      exact Or.inl (by omega)
    | some ob =>
      rw [roadmapCmp_eq_ss a b oa ob hoa hob,
        roadmapCmp_eq_ss b a ob oa hob hoa,
        localeCompare_le_iff, localeCompare_le_iff]
      exact ltCU_total _ _

/-- `jsSortBy` (JS stable sort by a three-way comparator) sorts by the
comparator's `· ≤ 0` relation whenever that relation is total and
transitive. -/
theorem jsSortBy_sorted {α : Type} {cmp : α → α → Int}
    (htot : ∀ a b, cmp a b ≤ 0 ∨ cmp b a ≤ 0)
    (htr : ∀ a b c, cmp a b ≤ 0 → cmp b c ≤ 0 → cmp a c ≤ 0)
    (l : List α) :
    (jsSortBy cmp l).Pairwise (fun a b => cmp a b ≤ 0) := by
  haveI : IsTotal α (fun a b => cmp a b ≤ 0) := ⟨htot⟩
  haveI : IsTrans α (fun a b => cmp a b ≤ 0) := ⟨htr⟩
  exact List.sorted_insertionSort _ l

theorem toLower_toLower (c : Char) :
    Char.toLower (Char.toLower c) = Char.toLower c := by
  by_cases h : c.toNat ≥ 65 ∧ c.toNat ≤ 90
  · have hv : Nat.isValidChar (c.toNat + 32) := Or.inl (by omega)
    have h1 : Char.toLower c = Char.ofNat (c.toNat + 32) := by
      show (if c.toNat ≥ 65 ∧ c.toNat ≤ 90 then Char.ofNat (c.toNat + 32)
        else c) = _
      rw [if_pos h]
    have ht : (Char.ofNat (c.toNat + 32)).toNat = c.toNat + 32 := by
      rw [Char.ofNat, dif_pos hv]
      rfl
    rw [h1]
    show (if (Char.ofNat (c.toNat + 32)).toNat ≥ 65 ∧
        (Char.ofNat (c.toNat + 32)).toNat ≤ 90 then _ else _) = _
    rw [if_neg (by rw [ht]; omega)]
  · have h1 : Char.toLower c = c := by
      show (if c.toNat ≥ 65 ∧ c.toNat ≤ 90 then Char.ofNat (c.toNat + 32)
        else c) = _
      rw [if_neg h]
    rw [h1, h1]

theorem toLowerS_idem (s : String) : toLowerS (toLowerS s) = toLowerS s := by
  simp only [toLowerS, List.map_map]
  congr 1
  exact List.map_congr_left (fun c _ => toLower_toLower c)

theorem toLowerS_ne_empty (s : String) (h : s ≠ "") : toLowerS s ≠ "" := by
  intro h0
  apply h
  have hd : (toLowerS s).data = [] := by rw [h0]
  have hsd : s.data = [] := by
    simpa [toLowerS] using hd
  exact String.ext (by rw [hsd])

theorem sortIssues_roadmap (l : List Issue) :
    Current.sortIssues l "roadmap" = jsSortBy Current.roadmapCmp l := by
  simp only [Current.sortIssues]
  rw [if_pos (by decide)]

theorem sortIssues_scope (l : List Issue) :
    Current.sortIssues l "scope" = jsSortBy Current.scopeCmp l := by
  simp only [Current.sortIssues]
  rw [if_neg (by decide), if_neg (by decide), if_pos (by decide)]

theorem sortIssues_priority_key (l : List Issue) :
    Current.sortIssues l "priority" = jsSortBy priorityCmp l := by
  simp only [Current.sortIssues]
  rw [if_neg (by decide), if_pos (by decide)]

theorem sortIssues_unknown (l : List Issue) (s : String)
    (hs : toLowerS s ∉ (["roadmap", "priority", "scope", "created",
      "created-asc", "updated", "id"] : List String)) :
    Current.sortIssues l s = jsSortBy priorityCmp l := by
  simp only [Current.sortIssues]
  simp only [List.mem_cons, List.not_mem_nil, or_false, not_or] at hs
  obtain ⟨h1, h2, h3, h4, h5, h6, h7⟩ := hs
  rw [if_neg h1, if_neg h2, if_neg h3, if_neg h4, if_neg h5, if_neg h6,
    if_neg h7]

/-- C5: when the parsed search text is empty, `filterByQuery` returns the
issues surviving the qualifier filters, ordered by the selected sort: with
the `sort` qualifier absent or `roadmap`, in the §3 default roadmap order
(defined order keys first, ascending as strings, then unordered issues by
id); with `sort:scope`, small to medium to large with id-descending
tiebreak; and an unrecognized nonempty sort value falls back to the
priority sort. -/
theorem C5_filterByQuery_sorts (fuse : Fuse) (issues : List Issue)
    (q : String)
    (hempty : trimS (Current.parseQuery q).searchText = "") :
    ((objGet (Current.parseQuery q).qualifiers "sort" = none ∨
      objGet (Current.parseQuery q).qualifiers "sort" = some "roadmap") →
      (Current.filterByQuery fuse issues q).Perm
        (issues.filter (Current.matchesQualifiers (Current.parseQuery q))) ∧
      (Current.filterByQuery fuse issues q).Pairwise
        (fun a b => Current.roadmapCmp a b ≤ 0)) ∧
    (objGet (Current.parseQuery q).qualifiers "sort" = some "scope" →
      (Current.filterByQuery fuse issues q).Perm
        (issues.filter (Current.matchesQualifiers (Current.parseQuery q))) ∧
      (Current.filterByQuery fuse issues q).Pairwise
        (fun a b => Current.scopeCmp a b ≤ 0)) ∧
    (∀ v, objGet (Current.parseQuery q).qualifiers "sort" = some v →
      v ≠ "" →
      toLowerS v ∉ (["roadmap", "priority", "scope", "created",
        "created-asc", "updated", "id"] : List String) →
      Current.filterByQuery fuse issues q =
        Current.sortIssues
          (issues.filter (Current.matchesQualifiers (Current.parseQuery q)))
          "priority" ∧
      (Current.filterByQuery fuse issues q).Pairwise
        (fun a b => priorityCmp a b ≤ 0)) := by
  have hout : Current.filterByQuery fuse issues q =
      Current.sortIssues
        (issues.filter (Current.matchesQualifiers (Current.parseQuery q)))
        (match orNull ((objGet (Current.parseQuery q).qualifiers
            "sort").map toLowerS) with
          | some s => s
          | none => "roadmap") := by
    simp only [Current.filterByQuery]
    rw [if_pos hempty]
  refine ⟨?_, ?_, ?_⟩
  · intro hsort
    have hkey : (match orNull ((objGet (Current.parseQuery q).qualifiers
        "sort").map toLowerS) with
        | some s => s
        | none => "roadmap") = "roadmap" := by
      rcases hsort with h | h <;> rw [h] <;> rfl
    rw [hout, hkey, sortIssues_roadmap]
    exact ⟨List.perm_insertionSort _ _,
      jsSortBy_sorted roadmapLE_total roadmapLE_trans _⟩
  · intro hsort
    have hkey : (match orNull ((objGet (Current.parseQuery q).qualifiers
        "sort").map toLowerS) with
        | some s => s
        | none => "roadmap") = "scope" := by
      rw [hsort]
      rfl
    rw [hout, hkey, sortIssues_scope]
    exact ⟨List.perm_insertionSort _ _,
      jsSortBy_sorted
        (rankCmp_le_total (fun i : Issue => Current.scopeRank i.frontmatter.scope)
          (fun i : Issue => i.id) Current.scopeCmp (fun x y => rfl))
        (rankCmp_le_trans (fun i : Issue => Current.scopeRank i.frontmatter.scope)
          (fun i : Issue => i.id) Current.scopeCmp (fun x y => rfl)) _⟩
  · intro v hv hne hlow
    have hne' : toLowerS v ≠ "" := toLowerS_ne_empty v hne
    have hkey : (match orNull ((objGet (Current.parseQuery q).qualifiers
        "sort").map toLowerS) with
        | some s => s
        | none => "roadmap") = toLowerS v := by
      rw [hv]
      simp [orNull, truthy, hne']
    have hlow' : toLowerS (toLowerS v) ∉ (["roadmap", "priority", "scope",
        "created", "created-asc", "updated", "id"] : List String) := by
      rw [toLowerS_idem]
      exact hlow
    rw [hout, hkey, sortIssues_unknown _ _ hlow', sortIssues_priority_key]
    exact ⟨rfl,
      jsSortBy_sorted
        (rankCmp_le_total (fun i : Issue => priorityRank i.frontmatter.priority)
          (fun i : Issue => i.id) priorityCmp (fun x y => rfl))
        (rankCmp_le_trans (fun i : Issue => priorityRank i.frontmatter.priority)
          (fun i : Issue => i.id) priorityCmp (fun x y => rfl)) _⟩

/-- Witness for C5 at the empty query (no sort qualifier, empty search
text): the roadmap default case applies to a concrete collection. -/
theorem C5_filterByQuery_sorts_witness :
    trimS (Current.parseQuery "").searchText = "" ∧
    ((objGet (Current.parseQuery "").qualifiers "sort" = none ∨
      objGet (Current.parseQuery "").qualifiers "sort" = some "roadmap") →
      (Current.filterByQuery (fun _ _ => [])
        [⟨"0002", "0002-b.md",
          ⟨some "B", some "low", none, some "bug", none, some "open",
           some "a1", some "2026-01-01T00:00:00", none⟩, "b"⟩,
         ⟨"0001", "0001-a.md",
          ⟨some "A", some "high", none, some "bug", none, some "open",
           some "a0", some "2026-01-01T00:00:00", none⟩, "a"⟩] "").Perm
        ([⟨"0002", "0002-b.md",
          ⟨some "B", some "low", none, some "bug", none, some "open",
           some "a1", some "2026-01-01T00:00:00", none⟩, "b"⟩,
         ⟨"0001", "0001-a.md",
          ⟨some "A", some "high", none, some "bug", none, some "open",
           some "a0", some "2026-01-01T00:00:00", none⟩, "a"⟩].filter
          (Current.matchesQualifiers (Current.parseQuery ""))) ∧
      (Current.filterByQuery (fun _ _ => [])
        [⟨"0002", "0002-b.md",
          ⟨some "B", some "low", none, some "bug", none, some "open",
           some "a1", some "2026-01-01T00:00:00", none⟩, "b"⟩,
         ⟨"0001", "0001-a.md",
          ⟨some "A", some "high", none, some "bug", none, some "open",
           some "a0", some "2026-01-01T00:00:00", none⟩, "a"⟩] "").Pairwise
        (fun a b => Current.roadmapCmp a b ≤ 0)) :=
  ⟨by decide,
   (C5_filterByQuery_sorts (fun _ _ => [])
      [⟨"0002", "0002-b.md",
        ⟨some "B", some "low", none, some "bug", none, some "open",
         some "a1", some "2026-01-01T00:00:00", none⟩, "b"⟩,
       ⟨"0001", "0001-a.md",
        ⟨some "A", some "high", none, some "bug", none, some "open",
         some "a0", some "2026-01-01T00:00:00", none⟩, "a"⟩] ""
      (by decide)).1⟩

/-! ## Claim C7: id-prefix matches outrank fuzzy matches -/

theorem threeWay_le_iff (x y : Rat) :
    ((if x < y then (-1 : Int) else if y < x then 1 else 0) ≤ 0) ↔ x ≤ y := by
  rcases lt_trichotomy x y with h | h | h
  · rw [if_pos h]
    exact iff_of_true (by omega) h.le
  · rw [if_neg (by rw [h]; exact lt_irrefl y),
      if_neg (by rw [h]; exact lt_irrefl y)]
    exact iff_of_true (by omega) h.le
  · rw [if_neg (lt_asymm h), if_pos h]
    exact iff_of_false (by omega) (not_le.mpr h)

/-- The shape of a search result: every id-prefix match of the filtered
list first, in incoming relative order, followed by exactly the fuzzy-only
matches, sorted by ascending Fuse score (none of which is an id match). -/
def searchComposed (srs : List (String × Option Rat)) (result : List Issue)
    (q : String) (out : List Issue) : Prop :=
  ∃ tail,
    out = result.filter (isIdMatch q) ++ tail ∧
    tail.Perm (result.filter (fun issue =>
      issue.id ∉ (result.filter (isIdMatch q)).map Issue.id ∧
      issue.id ∈ srs.map Prod.fst)) ∧
    tail.Pairwise (fun a b => scoreOf srs a.id ≤ scoreOf srs b.id) ∧
    ∀ i ∈ tail, isIdMatch q i = false

theorem composeSearch_structure (srs : List (String × Option Rat))
    (result : List Issue) (q : String) :
    searchComposed srs result q (composeSearch srs result q) := by
  refine ⟨jsSortBy (fun a b =>
      if scoreOf srs a.id < scoreOf srs b.id then -1
      else if scoreOf srs b.id < scoreOf srs a.id then 1 else 0)
    (result.filter (fun issue =>
      issue.id ∉ (result.filter (isIdMatch q)).map Issue.id ∧
      issue.id ∈ srs.map Prod.fst)), rfl, List.perm_insertionSort _ _,
    ?_, ?_⟩
  · have hp := @jsSortBy_sorted Issue (fun a b =>
        if scoreOf srs a.id < scoreOf srs b.id then (-1 : Int)
        else if scoreOf srs b.id < scoreOf srs a.id then 1 else 0)
      (fun a b => by
        rw [threeWay_le_iff, threeWay_le_iff]
        exact le_total _ _)
      (fun a b c hab hbc => by
        rw [threeWay_le_iff] at hab hbc ⊢
        exact le_trans hab hbc)
      (result.filter (fun issue =>
        issue.id ∉ (result.filter (isIdMatch q)).map Issue.id ∧
        issue.id ∈ srs.map Prod.fst))
    exact hp.imp (fun h => (threeWay_le_iff _ _).mp h)
  · intro i hi
    have hi' := (List.perm_insertionSort _ _).subset hi
    rcases List.mem_filter.mp hi' with ⟨hres, hcond⟩
    rcases Bool.eq_false_or_eq_true (isIdMatch q i) with ht | hf
    · exfalso
      have h1 : i ∈ result.filter (isIdMatch q) :=
        List.mem_filter.mpr ⟨hres, ht⟩
      have h2 : i.id ∈ (result.filter (isIdMatch q)).map Issue.id :=
        List.mem_map.mpr ⟨i, h1, rfl⟩
      exact (of_decide_eq_true hcond).1 h2
    · exact hf

/-- C7: in both `filterByQuery` (with search text) and
`filterAndSearchIssues` (with a search filter), the output consists of
every id-prefix match of the surviving issues first — kept in their
incoming relative order and placed ahead of the fuzzy matches regardless
of the fuzzy scores — followed by exactly the fuzzy-only matches, sorted
by ascending Fuse score. -/
theorem C7_id_prefix_outranks_fuzzy (fuse : Fuse) (issues : List Issue)
    (q : String) (filters : IssueFilters) (s : String)
    (hq : trimS (parseQuery q).searchText ≠ "")
    (hs : filters.search = some s) (hs' : trimS s ≠ "") :
    searchComposed
      (fuse (issues.filter (matchesQualifiers (parseQuery q)))
        (trimS (parseQuery q).searchText))
      (issues.filter (matchesQualifiers (parseQuery q)))
      (trimS (parseQuery q).searchText)
      (filterByQuery fuse issues q) ∧
    searchComposed (fuse issues (trimS s)) (filterIssues issues filters)
      (trimS s) (filterAndSearchIssues fuse issues filters) := by
  constructor
  · have he : filterByQuery fuse issues q =
        composeSearch
          (fuse (issues.filter (matchesQualifiers (parseQuery q)))
            (trimS (parseQuery q).searchText))
          (issues.filter (matchesQualifiers (parseQuery q)))
          (trimS (parseQuery q).searchText) := by
      simp only [filterByQuery]
      rw [if_neg hq]
    rw [he]
    exact composeSearch_structure _ _ _
  · have he : filterAndSearchIssues fuse issues filters =
        composeSearch (fuse issues (trimS s)) (filterIssues issues filters)
          (trimS s) := by
      simp only [filterAndSearchIssues, hs]
      rw [if_pos hs']
    rw [he]
    exact composeSearch_structure _ _ _

/-- The spec's concrete scenario: issues `0001-login-bug` and
`0099-login-typo`, searched with `"1"`. -/
def searchDemoA : Issue :=
  ⟨"0001", "0001-login-bug.md",
   ⟨some "Login bug", some "high", none, some "bug", none, some "open",
    none, some "2026-01-01T00:00:00", none⟩, ""⟩

def searchDemoB : Issue :=
  ⟨"0099", "0099-login-typo.md",
   ⟨some "Login typo", some "high", none, some "bug", none, some "open",
    none, some "2026-01-01T00:00:00", none⟩, ""⟩

/-- A search engine that scores `0099` strictly better than `0001`; the
id-prefix match `0001` must still come first. -/
def searchDemoFuse : Fuse :=
  fun _ _ => [("0099", some ((1 : Rat) / 10)), ("0001", some ((1 : Rat) / 2))]

/-- Witness for C7 at the spec's scenario. -/
theorem C7_id_prefix_outranks_fuzzy_witness :
    trimS (parseQuery "1").searchText ≠ "" ∧
    (⟨none, none, none, none, some "1"⟩ : IssueFilters).search = some "1" ∧
    trimS "1" ≠ "" ∧
    (searchComposed
      (searchDemoFuse ([searchDemoA, searchDemoB].filter
          (matchesQualifiers (parseQuery "1")))
        (trimS (parseQuery "1").searchText))
      ([searchDemoA, searchDemoB].filter (matchesQualifiers (parseQuery "1")))
      (trimS (parseQuery "1").searchText)
      (filterByQuery searchDemoFuse [searchDemoA, searchDemoB] "1") ∧
     searchComposed (searchDemoFuse [searchDemoA, searchDemoB] (trimS "1"))
      (filterIssues [searchDemoA, searchDemoB]
        ⟨none, none, none, none, some "1"⟩)
      (trimS "1")
      (filterAndSearchIssues searchDemoFuse [searchDemoA, searchDemoB]
        ⟨none, none, none, none, some "1"⟩)) :=
  ⟨by decide, rfl, by decide,
   C7_id_prefix_outranks_fuzzy searchDemoFuse [searchDemoA, searchDemoB] "1"
     ⟨none, none, none, none, some "1"⟩ "1" (by decide) rfl (by decide)⟩

/-! ## Claims C1 and C2: order-key generation

Correctness of the embedded `fractional-indexing` library: `midpoint`,
`incrementInteger`, `decrementInteger` and `generateKeyBetween` produce
keys strictly between their bounds, and `computeOrderKey` therefore keeps
every insertion sequence sorted. -/

set_option maxRecDepth 10000

/-- Alphabet facts, checked by evaluation: every base-62 digit has an index
in `[0, 62)`, `digAt` inverts `digIdx`, and the code units lie in
`[48, 122]`. -/
theorem alpha_spec : ∀ c ∈ BASE_62_DIGITS,
    0 ≤ digIdx c ∧ digIdx c < 62 ∧ digAt (digIdx c) = c ∧
    48 ≤ c.toNat ∧ c.toNat ≤ 122 := by decide

theorem digAtN_spec : ∀ n : Nat, n < 62 →
    digAt n ∈ BASE_62_DIGITS ∧ digIdx (digAt n) = n := by decide

/-- The digit order agrees with the code-unit order on the alphabet. -/
theorem digIdx_mono : ∀ c ∈ BASE_62_DIGITS, ∀ d ∈ BASE_62_DIGITS,
    (digIdx c < digIdx d ↔ c.toNat < d.toNat) := by decide

theorem digIdx_zero_iff : ∀ c ∈ BASE_62_DIGITS, (digIdx c = 0 ↔ c = '0') :=
  by decide

theorem digIdx_61_iff : ∀ c ∈ BASE_62_DIGITS, (digIdx c = 61 ↔ c = 'z') :=
  by decide

theorem char_toNat_inj (a b : Char) (h : a.toNat = b.toNat) : a = b := by
  have := congrArg Char.ofNat h
  rwa [Char.ofNat_toNat, Char.ofNat_toNat] at this

/-- `digAt` of an integer in range, as `digAt` of the corresponding `Nat`. -/
theorem digAt_int (i : Int) (h0 : 0 ≤ i) (h62 : i < 62) :
    digAt i ∈ BASE_62_DIGITS ∧ digIdx (digAt i) = i := by
  have hlt : i.toNat < 62 := by omega
  have hspec := digAtN_spec i.toNat hlt
  rw [← Int.toNat_of_nonneg h0]
  exact hspec

theorem getLast?_cons_ne (c : Char) (bt : List Char) (h : bt ≠ []) :
    (c :: bt).getLast? = bt.getLast? := by
  cases bt with
  | nil => exact absurd rfl h
  | cons x xs => exact List.getLast?_cons_cons

theorem ltCU_nil_left (b : List Char) (h : b ≠ []) : ltCU [] b = true := by
  cases b with
  | nil => exact absurd rfl h
  | cons c cs => rfl

/-- Stripping a common prefix does not change the code-unit comparison. -/
theorem ltCU_append_congr (p x y : List Char) :
    ltCU (p ++ x) (p ++ y) = ltCU x y := by
  induction p with
  | nil => rfl
  | cons c cs ih =>
    show (if c.toNat < c.toNat then true
      else if c.toNat < c.toNat then false else ltCU (cs ++ x) (cs ++ y)) = _
    rw [if_neg (lt_irrefl _), if_neg (lt_irrefl _)]
    exact ih

theorem ltCU_self_append (x r : List Char) (h : r ≠ []) :
    ltCU x (x ++ r) = true := by
  have := ltCU_append_congr x [] r
  rw [List.append_nil] at this
  rw [this]
  exact ltCU_nil_left r h

theorem ltCU_append_self (x r : List Char) : ltCU (x ++ r) x = false := by
  have := ltCU_append_congr x r []
  rw [List.append_nil] at this
  rw [this]
  exact ltCU_nil_right r

/-- When the heads differ in code units, the comparison is decided at the
head. -/
theorem ltCU_head_ne (c d : Char) (p q : List Char)
    (h : c.toNat ≠ d.toNat) :
    ltCU (c :: p) (d :: q) = decide (c.toNat < d.toNat) := by
  show (if c.toNat < d.toNat then true
    else if d.toNat < c.toNat then false else ltCU p q) = _
  by_cases h1 : c.toNat < d.toNat
  · rw [if_pos h1]
    simp [h1]
  · rw [if_neg h1, if_pos (by omega)]
    simp [h1]

/-- Appending anything after two distinct equal-length lists does not change
their comparison. -/
theorem ltCU_append_of_len_eq : ∀ (u v x y : List Char),
    u.length = v.length → u ≠ v → ltCU (u ++ x) (v ++ y) = ltCU u v
  | [], [], _, _, _, hne => absurd rfl hne
  | [], _ :: _, _, _, hlen, _ => by simp at hlen
  | _ :: _, [], _, _, hlen, _ => by simp at hlen
  | c :: u', d :: v', x, y, hlen, hne => by
    by_cases hcd : c.toNat = d.toNat
    · have hc : c = d := char_toNat_inj c d hcd
      subst hc
      have hne' : u' ≠ v' := by
        intro h
        exact hne (by rw [h])
      have ih := ltCU_append_of_len_eq u' v' x y (by simpa using hlen) hne'
      show (if c.toNat < c.toNat then true
        else if c.toNat < c.toNat then false
        else ltCU (u' ++ x) (v' ++ y)) = _
      rw [if_neg (lt_irrefl _), if_neg (lt_irrefl _), ih]
      show _ = (if c.toNat < c.toNat then true
        else if c.toNat < c.toNat then false else ltCU u' v')
      rw [if_neg (lt_irrefl _), if_neg (lt_irrefl _)]
    · rw [List.cons_append, List.cons_append, ltCU_head_ne _ _ _ _ hcd,
        ltCU_head_ne _ _ _ _ hcd]

/-- If the padded common-prefix count exhausts `bs`, either `a` extends `bs`
or `bs` ends in the zero digit. -/
theorem commonN_full : ∀ (a bs : List Char), commonN a bs = bs.length →
    (∃ r, a = bs ++ r) ∨ (bs ≠ [] ∧ bs.getLast? = some ZERO)
  | a, [], _ => Or.inl ⟨a, rfl⟩
  | [], c :: bt, h => by
    simp only [commonN, List.length_cons] at h
    by_cases hc : ZERO = c
    · rw [if_pos hc] at h
      have hbt : commonN [] bt = bt.length := by omega
      rcases commonN_full [] bt hbt with ⟨r, hr⟩ | ⟨hne, hlast⟩
      · have : bt = [] := by
          cases bt with
          | nil => rfl
          | cons x xs => simp at hr
        subst this
        refine Or.inr ⟨List.cons_ne_nil _ _, ?_⟩
        rw [← hc]
        rfl
      · refine Or.inr ⟨List.cons_ne_nil _ _, ?_⟩
        rw [getLast?_cons_ne c bt hne]
        exact hlast
    · rw [if_neg hc] at h
      omega
  | x :: at', c :: bt, h => by
    simp only [commonN, List.length_cons] at h
    by_cases hc : x = c
    · rw [if_pos hc] at h
      have hbt : commonN at' bt = bt.length := by omega
      rcases commonN_full at' bt hbt with ⟨r, hr⟩ | ⟨hne, hlast⟩
      · exact Or.inl ⟨r, by rw [hc, hr]; rfl⟩
      · refine Or.inr ⟨List.cons_ne_nil _ _, ?_⟩
        rw [getLast?_cons_ne c bt hne]
        exact hlast
    · rw [if_neg hc] at h
      omega

/-- The common prefix counted by `commonN` really is a prefix of `bs` equal
to `a` padded with zero digits. -/
theorem commonN_take_spec : ∀ (a bs : List Char),
    bs.take (commonN a bs) =
      a.take (commonN a bs) ++
        List.replicate (commonN a bs - a.length) ZERO
  | _, [] => by simp [commonN]
  | [], c :: bt => by
    simp only [commonN]
    by_cases hc : ZERO = c
    · rw [if_pos hc]
      have ih := commonN_take_spec [] bt
      simp only [List.take_nil, List.nil_append] at ih ⊢
      rw [List.take_succ_cons, ih, List.length_nil]
      rw [show commonN [] bt + 1 - 0 = commonN [] bt - 0 + 1 from by omega]
      rw [List.replicate_succ, ← hc]
    · rw [if_neg hc]
      simp
  | x :: at', c :: bt => by
    simp only [commonN]
    by_cases hc : x = c
    · rw [if_pos hc]
      have ih := commonN_take_spec at' bt
      rw [List.take_succ_cons, List.take_succ_cons, ih, List.length_cons]
      rw [show commonN at' bt + 1 - (at'.length + 1) =
        commonN at' bt - at'.length from by omega, hc]
      rfl
    · rw [if_neg hc]
      simp

/-- Dropping the common prefix preserves a strict comparison. -/
theorem ltCU_drop_commonN : ∀ (a bs : List Char), ltCU a bs = true →
    commonN a bs < bs.length →
    ltCU (a.drop (commonN a bs)) (bs.drop (commonN a bs)) = true
  | _, [], _, hlt => by simp [commonN] at hlt
  | [], c :: bt, hab, hlt => by
    simp only [commonN] at hlt ⊢
    by_cases hc : ZERO = c
    · rw [if_pos hc] at hlt ⊢
      simp only [List.drop_nil, List.drop_succ_cons]
      apply ltCU_nil_left
      intro hnil
      have : bt.length ≤ commonN [] bt := by
        rw [← List.drop_eq_nil_iff]
        exact hnil
      simp only [List.length_cons] at hlt
      omega
    · rw [if_neg hc] at hlt ⊢
      exact hab
  | x :: at', c :: bt, hab, hlt => by
    simp only [commonN] at hlt ⊢
    by_cases hc : x = c
    · rw [if_pos hc] at hlt ⊢
      simp only [List.drop_succ_cons]
      have hab' : ltCU at' bt = true := by
        subst hc
        have : ltCU (x :: at') (x :: bt) = ltCU at' bt := by
          show (if x.toNat < x.toNat then true
            else if x.toNat < x.toNat then false else ltCU at' bt) = _
          rw [if_neg (lt_irrefl _), if_neg (lt_irrefl _)]
        rwa [this] at hab
      simp only [List.length_cons] at hlt
      exact ltCU_drop_commonN at' bt hab' (by omega)
    · rw [if_neg hc] at hlt ⊢
      exact hab

theorem getLast?_drop_eq : ∀ (l : List Char) (n : Nat), l.drop n ≠ [] →
    (l.drop n).getLast? = l.getLast?
  | _, 0, _ => rfl
  | [], _ + 1, h => absurd rfl h
  | c :: ls, n + 1, h => by
    have h' : ls.drop n ≠ [] := by simpa using h
    have hne : ls ≠ [] := by
      intro hnil
      subst hnil
      simp at h'
    rw [List.drop_succ_cons, getLast?_drop_eq ls n h',
      getLast?_cons_ne c ls hne]

theorem getLast?_drop_pres (l : List Char) (n : Nat)
    (h : l.getLast? ≠ some ZERO) : (l.drop n).getLast? ≠ some ZERO := by
  cases hd : l.drop n with
  | nil => simp
  | cons x xs =>
    have hne : l.drop n ≠ [] := by rw [hd]; exact List.cons_ne_nil _ _
    rw [← hd, getLast?_drop_eq l n hne]
    exact h

theorem digitAOf_range (a : List Char)
    (haA : ∀ c ∈ a, c ∈ BASE_62_DIGITS) :
    0 ≤ digitAOf a ∧ digitAOf a < 62 := by
  cases a with
  | nil => exact ⟨le_refl 0, by show (0 : Int) < 62; norm_num⟩
  | cons c at' =>
    have hc := haA c (List.mem_cons_self c at')
    have h := alpha_spec c hc
    exact ⟨h.1, h.2.1⟩

theorem ltCU_cons_of_lt (x d : Char) (p q : List Char)
    (h : x.toNat < d.toNat) : ltCU (x :: p) (d :: q) = true := by
  rw [ltCU_head_ne x d p q (by omega)]
  simp [h]

/-- A single digit strictly above `digitAOf a` is strictly above `a`. -/
theorem ltCU_single_digit (a : List Char) (d : Char)
    (hd : d ∈ BASE_62_DIGITS) (haA : ∀ c ∈ a, c ∈ BASE_62_DIGITS)
    (h : digitAOf a < digIdx d) : ltCU a [d] = true := by
  cases a with
  | nil => exact ltCU_nil_left _ (List.cons_ne_nil _ _)
  | cons c at' =>
    have hc := haA c (List.mem_cons_self c at')
    have hlt : c.toNat < d.toNat := (digIdx_mono c hc d hd).mp h
    exact ltCU_cons_of_lt c d at' [] hlt

/-- With no padded common prefix, `a`'s first (padded) digit is strictly
below `b`'s. -/
theorem midpoint_head_lt (a : List Char) (b0 : Char) (bt : List Char)
    (haA : ∀ c ∈ a, c ∈ BASE_62_DIGITS) (hb0 : b0 ∈ BASE_62_DIGITS)
    (hn0 : commonN a (b0 :: bt) = 0) (hab : ltCU a (b0 :: bt) = true) :
    digitAOf a < digIdx b0 := by
  cases a with
  | nil =>
    have hne : ¬(ZERO = b0) := by
      intro h
      simp [commonN, if_pos h] at hn0
    have h0 := (alpha_spec b0 hb0).1
    show (0 : Int) < digIdx b0
    rcases lt_or_eq_of_le h0 with h | h
    · exact h
    · exact absurd ((digIdx_zero_iff b0 hb0).mp h.symm)
        (fun hb => hne hb.symm)
  | cons c at' =>
    have hcb : c ≠ b0 := by
      intro h
      simp [commonN, if_pos h] at hn0
    have hc := haA c (List.mem_cons_self c at')
    have hlt : c.toNat < b0.toNat := by
      rw [ltCU_cons_iff] at hab
      rcases hab with h | ⟨he, _⟩
      · exact h
      · exact absurd (char_toNat_inj c b0 he) hcb
    exact (digIdx_mono c hc b0 hb0).mpr hlt

theorem roundHalf_between (x y : Int) (h : y - x > 1) :
    x < roundHalf (x + y) ∧ roundHalf (x + y) < y := by
  unfold roundHalf
  split <;> omega

/-- Correctness of `midpoint`: on in-range inputs with no trailing zeros
and `a < b`, it returns a nonempty digit string strictly between `a` and
`b` (unbounded above when `b` is `null`), again without a trailing zero. -/
theorem midpoint_sound (a : List Char) (b : Option (List Char))
    (haA : ∀ c ∈ a, c ∈ BASE_62_DIGITS) (haZ : a.getLast? ≠ some ZERO)
    (hb : ∀ bs, b = some bs → (∀ c ∈ bs, c ∈ BASE_62_DIGITS) ∧
      bs.getLast? ≠ some ZERO ∧ ltCU a bs = true) :
    ∃ m, midpoint a b = Except.ok m ∧ m ≠ [] ∧
      (∀ c ∈ m, c ∈ BASE_62_DIGITS) ∧ m.getLast? ≠ some ZERO ∧
      ltCU a m = true ∧ ∀ bs, b = some bs → ltCU m bs = true := by
  match b with
  | some bs =>
    obtain ⟨hbA, hbZ, hab⟩ := hb bs rfl
    rw [midpoint.eq_1]
    rw [dif_pos hab]
    rw [dif_neg (show ¬(a.getLast? = some ZERO ∨
        (bs ≠ [] ∧ bs.getLast? = some ZERO)) from
      fun h => h.elim haZ (fun q => hbZ q.2))]
    have hbne : bs ≠ [] := by
      intro h
      subst h
      rw [ltCU_nil_right] at hab
      exact absurd hab (by simp)
    by_cases h3 : 0 < commonN a bs
    · rw [dif_pos h3]
      have hlt : commonN a bs < bs.length := by
        rcases Nat.lt_or_ge (commonN a bs) bs.length with h | h
        · exact h
        · have hle := commonN_le a bs
          have heq : commonN a bs = bs.length := by omega
          rcases commonN_full a bs heq with ⟨r, hr⟩ | ⟨_, hlast⟩
          · rw [hr, ltCU_append_self] at hab
            exact absurd hab (by simp)
          · exact absurd hlast hbZ
      obtain ⟨m', hm'eq, hm'ne, hm'A, hm'Z, hm'lt, hm'ltb⟩ :=
        midpoint_sound (a.drop (commonN a bs))
          (some (bs.drop (commonN a bs)))
          (fun c hc => haA c (List.mem_of_mem_drop hc))
          (getLast?_drop_pres a _ haZ)
          (fun bs' hbs' => by
            injection hbs' with hbs'
            subst hbs'
            exact ⟨fun c hc => hbA c (List.mem_of_mem_drop hc),
              getLast?_drop_pres bs _ hbZ,
              ltCU_drop_commonN a bs hab hlt⟩)
      refine ⟨bs.take (commonN a bs) ++ m', by rw [hm'eq]; rfl, ?_, ?_,
        ?_, ?_, ?_⟩
      · intro h
        rcases List.append_eq_nil.mp h with ⟨h1, _⟩
        rw [List.take_eq_nil_iff] at h1
        rcases h1 with h1 | h1
        · omega
        · exact hbne h1
      · intro c hc
        rcases List.mem_append.mp hc with h | h
        · exact hbA c (List.mem_of_mem_take h)
        · exact hm'A c h
      · rw [List.getLast?_append_of_ne_nil _ hm'ne]
        exact hm'Z
      · rcases le_or_lt (commonN a bs) a.length with hna | hna
        · have hts := commonN_take_spec a bs
          rw [show commonN a bs - a.length = 0 from by omega,
            List.replicate_zero, List.append_nil] at hts
          rw [hts]
          have hc := ltCU_append_congr (a.take (commonN a bs))
            (a.drop (commonN a bs)) m'
          rw [List.take_append_drop] at hc
          rw [hc]
          exact hm'lt
        · have hts := commonN_take_spec a bs
          rw [List.take_of_length_le
            (show a.length ≤ commonN a bs by omega)] at hts
          have hdnil : a.drop (commonN a bs) = [] :=
            List.drop_eq_nil_iff.mpr (by omega)
          rw [hts, List.append_assoc]
          apply ltCU_self_append
          intro h
          rcases List.append_eq_nil.mp h with ⟨h1, _⟩
          have : commonN a bs - a.length ≠ 0 := by omega
          rw [List.replicate_eq_nil] at h1
          exact this h1
      · intro bs' hbs'
        injection hbs' with hbs'
        subst hbs'
        have hc := ltCU_append_congr (bs.take (commonN a bs)) m'
          (bs.drop (commonN a bs))
        rw [List.take_append_drop] at hc
        rw [hc]
        exact hm'ltb (bs.drop (commonN a bs)) rfl
    · rw [dif_neg h3]
      have hn0 : commonN a bs = 0 := by omega
      obtain ⟨b0, bt, rfl⟩ : ∃ b0 bt, bs = b0 :: bt := by
        cases bs with
        | nil => exact absurd rfl hbne
        | cons x xs => exact ⟨x, xs, rfl⟩
      have hb0 : b0 ∈ BASE_62_DIGITS := hbA b0 (List.mem_cons_self _ _)
      have hAB : digitAOf a < digIdx b0 :=
        midpoint_head_lt a b0 bt haA hb0 hn0 hab
      have hdA := digitAOf_range a haA
      have hdB := alpha_spec b0 hb0
      have hdBv : digitBOf (some (b0 :: bt)) = digIdx b0 := rfl
      by_cases h4 : digitBOf (some (b0 :: bt)) - digitAOf a > 1
      · rw [dif_pos h4]
        have hr := roundHalf_between (digitAOf a)
          (digitBOf (some (b0 :: bt))) h4
        have hrange : 0 ≤ roundHalf (digitAOf a + digitBOf (some (b0 :: bt)))
            ∧ roundHalf (digitAOf a + digitBOf (some (b0 :: bt))) < 62 := by
          rw [hdBv] at hr ⊢
          omega
        have hdig := digAt_int _ hrange.1 hrange.2
        refine ⟨_, rfl, List.cons_ne_nil _ _, ?_, ?_, ?_, ?_⟩
        · intro c hc
          rw [List.mem_singleton] at hc
          subst hc
          exact hdig.1
        · show some _ ≠ some ZERO
          intro h
          injection h with h
          have h0 : digIdx (digAt (roundHalf
              (digitAOf a + digitBOf (some (b0 :: bt))))) = 0 := by
            rw [(digIdx_zero_iff _ hdig.1).mpr h]
          rw [hdig.2] at h0
          omega
        · exact ltCU_single_digit a _ hdig.1 haA (by rw [hdig.2]; exact hr.1)
        · intro bs' hbs'
          injection hbs' with hbs'
          subst hbs'
          apply ltCU_cons_of_lt
          apply (digIdx_mono _ hdig.1 b0 hb0).mp
          rw [hdig.2]
          rw [hdBv] at hr
          exact hr.2
      · rw [dif_neg h4]
        by_cases h5 : (b0 :: bt).length > 1
        · rw [dif_pos h5]
          have hbt : bt ≠ [] := by
            intro h
            subst h
            simp at h5
          refine ⟨[b0], rfl, List.cons_ne_nil _ _, ?_, ?_, ?_, ?_⟩
          · intro c hc
            rw [List.mem_singleton] at hc
            subst hc
            exact hb0
          · show some b0 ≠ some ZERO
            intro h
            injection h with h
            have : digIdx b0 = 0 := (digIdx_zero_iff b0 hb0).mpr h
            omega
          · exact ltCU_single_digit a b0 hb0 haA hAB
          · intro bs' hbs'
            injection hbs' with hbs'
            subst hbs'
            show (if b0.toNat < b0.toNat then true
              else if b0.toNat < b0.toNat then false else ltCU [] bt) = true
            rw [if_neg (lt_irrefl _), if_neg (lt_irrefl _)]
            exact ltCU_nil_left bt hbt
        · rw [dif_neg h5]
          have hbt : bt = [] := by
            cases bt with
            | nil => rfl
            | cons x xs => simp at h5
          subst hbt
          obtain ⟨m', hm'eq, hm'ne, hm'A, hm'Z, hm'lt, _⟩ :=
            midpoint_sound (a.drop 1) none
              (fun c hc => haA c (List.mem_of_mem_drop hc))
              (getLast?_drop_pres a _ haZ)
              (fun bs' hbs' => Option.noConfusion hbs')
          have hdig := digAt_int (digitAOf a) hdA.1 hdA.2
          refine ⟨digAt (digitAOf a) :: m', by rw [hm'eq]; rfl,
            List.cons_ne_nil _ _, ?_, ?_, ?_, ?_⟩
          · intro c hc
            rcases List.mem_cons.mp hc with h | h
            · subst h
              exact hdig.1
            · exact hm'A c h
          · rw [getLast?_cons_ne _ _ hm'ne]
            exact hm'Z
          · cases a with
            | nil => exact ltCU_nil_left _ (List.cons_ne_nil _ _)
            | cons c at' =>
              have hc := haA c (List.mem_cons_self c at')
              have : digAt (digitAOf (c :: at')) = c := (alpha_spec c hc).2.2.1
              rw [this]
              show (if c.toNat < c.toNat then true
                else if c.toNat < c.toNat then false
                else ltCU at' m') = true
              rw [if_neg (lt_irrefl _), if_neg (lt_irrefl _)]
              exact hm'lt
          · intro bs' hbs'
            injection hbs' with hbs'
            subst hbs'
            apply ltCU_cons_of_lt
            apply (digIdx_mono _ hdig.1 b0 hb0).mp
            rw [hdig.2]
            exact hAB
  | none =>
    rw [midpoint.eq_2]
    rw [dif_neg haZ]
    have hdA := digitAOf_range a haA
    by_cases h4 : digitBOf none - digitAOf a > 1
    · rw [dif_pos h4]
      have hr := roundHalf_between (digitAOf a) (digitBOf none) h4
      have hrange : 0 ≤ roundHalf (digitAOf a + digitBOf none) ∧
          roundHalf (digitAOf a + digitBOf none) < 62 := by
        have : digitBOf none = 62 := rfl
        omega
      have hdig := digAt_int _ hrange.1 hrange.2
      refine ⟨_, rfl, List.cons_ne_nil _ _, ?_, ?_, ?_, ?_⟩
      · intro c hc
        rw [List.mem_singleton] at hc
        subst hc
        exact hdig.1
      · show some _ ≠ some ZERO
        intro h
        injection h with h
        have h0 : digIdx (digAt (roundHalf
            (digitAOf a + digitBOf none))) = 0 := by
          rw [(digIdx_zero_iff _ hdig.1).mpr h]
        rw [hdig.2] at h0
        omega
      · exact ltCU_single_digit a _ hdig.1 haA (by rw [hdig.2]; exact hr.1)
      · intro bs' hbs'
        exact Option.noConfusion hbs'
    · rw [dif_neg h4]
      have hane : a ≠ [] := by
        intro h
        subst h
        simp [digitAOf, digitBOf] at h4
      obtain ⟨m', hm'eq, hm'ne, hm'A, hm'Z, hm'lt, _⟩ :=
        midpoint_sound (a.drop 1) none
          (fun c hc => haA c (List.mem_of_mem_drop hc))
          (getLast?_drop_pres a _ haZ)
          (fun bs' hbs' => Option.noConfusion hbs')
      have hdig := digAt_int (digitAOf a) hdA.1 hdA.2
      refine ⟨digAt (digitAOf a) :: m', by rw [hm'eq]; rfl,
        List.cons_ne_nil _ _, ?_, ?_, ?_, ?_⟩
      · intro c hc
        rcases List.mem_cons.mp hc with h | h
        · subst h
          exact hdig.1
        · exact hm'A c h
      · rw [getLast?_cons_ne _ _ hm'ne]
        exact hm'Z
      · cases a with
        | nil => exact absurd rfl hane
        | cons c at' =>
          have hc := haA c (List.mem_cons_self c at')
          have : digAt (digitAOf (c :: at')) = c := (alpha_spec c hc).2.2.1
          rw [this]
          show (if c.toNat < c.toNat then true
            else if c.toNat < c.toNat then false
            else ltCU at' m') = true
          rw [if_neg (lt_irrefl _), if_neg (lt_irrefl _)]
          exact hm'lt
      · intro bs' hbs'
        exact Option.noConfusion hbs'
termination_by a.length + (match b with | none => 0 | some bs => bs.length)
decreasing_by
  all_goals try have hle := commonN_le a bs
  all_goals try have hlen : a.length ≠ 0 :=
    fun h => hane (List.length_eq_zero.mp h)
  all_goals try (have hbslen : 0 < bs.length :=
    List.length_pos.mpr (by assumption))
  all_goals try simp only [List.length_drop, List.length_cons,
    List.length_nil]
  all_goals omega

theorem char_le_toNat (a b : Char) : a ≤ b ↔ a.toNat ≤ b.toNat :=
  Iff.rfl

theorem toNat_ofNat_small (n : Nat) (h : n < 55296) :
    (Char.ofNat n).toNat = n := by
  rw [Char.ofNat, dif_pos (Or.inl h)]
  rfl

theorem ofNat_mem_lower : ∀ n < 123, 97 ≤ n →
    Char.ofNat n ∈ BASE_62_DIGITS := by decide

theorem ofNat_mem_upper : ∀ n < 91, 65 ≤ n →
    Char.ofNat n ∈ BASE_62_DIGITS := by decide

/-- The self-describing integer length as a function of the head's code
unit. -/
theorem getIntegerLength_ok (h : Char) (len : Nat)
    (he : getIntegerLength h = Except.ok len) :
    (97 ≤ h.toNat ∧ h.toNat ≤ 122 ∧ len = h.toNat - 97 + 2) ∨
    (65 ≤ h.toNat ∧ h.toNat ≤ 90 ∧ len = 90 - h.toNat + 2) := by
  unfold getIntegerLength at he
  by_cases h1 : 'a' ≤ h ∧ h ≤ 'z'
  · rw [if_pos h1] at he
    injection he with he
    rw [char_le_toNat, char_le_toNat] at h1
    exact Or.inl ⟨h1.1, h1.2, he.symm⟩
  · rw [if_neg h1] at he
    by_cases h2 : 'A' ≤ h ∧ h ≤ 'Z'
    · rw [if_pos h2] at he
      injection he with he
      rw [char_le_toNat, char_le_toNat] at h2
      exact Or.inr ⟨h2.1, h2.2, he.symm⟩
    · rw [if_neg h2] at he
      exact Except.noConfusion he

theorem getIntegerLength_lower (h : Char) (ha : 97 ≤ h.toNat)
    (hz : h.toNat ≤ 122) :
    getIntegerLength h = Except.ok (h.toNat - 97 + 2) := by
  unfold getIntegerLength
  rw [if_pos ⟨(char_le_toNat 'a' h).mpr ha, (char_le_toNat h 'z').mpr hz⟩]
  rw [show ('a'.toNat : Nat) = 97 from rfl]

theorem getIntegerLength_upper (h : Char) (ha : 65 ≤ h.toNat)
    (hz : h.toNat ≤ 90) :
    getIntegerLength h = Except.ok (90 - h.toNat + 2) := by
  unfold getIntegerLength
  rw [if_neg (fun hc => by
    have h1 := (char_le_toNat 'a' h).mp hc.1
    have e : 'a'.toNat = 97 := rfl
    omega)]
  rw [if_pos ⟨(char_le_toNat 'A' h).mpr ha, (char_le_toNat h 'Z').mpr hz⟩]
  rw [show ('Z'.toNat : Nat) = 90 from rfl]

theorem validateInteger_ok (i : List Char) (hv : validateInteger i =
    Except.ok ()) : ∃ h t, i = h :: t ∧
    getIntegerLength h = Except.ok i.length := by
  cases i with
  | nil => exact Except.noConfusion hv
  | cons h t =>
    refine ⟨h, t, rfl, ?_⟩
    cases hl : getIntegerLength h with
    | error e =>
      unfold validateInteger at hv
      simp only [List.head?, hl] at hv
      exact Except.noConfusion hv
    | ok len =>
      unfold validateInteger at hv
      simp only [List.head?, hl] at hv
      by_cases he : (h :: t).length = len
      · rw [he]
      · rw [if_neg he] at hv
        exact Except.noConfusion hv

theorem validateInteger_of (i : List Char) (h : Char) (t : List Char)
    (hi : i = h :: t) (hl : getIntegerLength h = Except.ok i.length) :
    validateInteger i = Except.ok () := by
  subst hi
  unfold validateInteger
  simp [List.head?, hl]

theorem incDigitsRev_cons (d : Char) (rest : List Char) :
    incDigitsRev (d :: rest) =
      if digIdx d + 1 = 62 then
        (ZERO :: (incDigitsRev rest).1, (incDigitsRev rest).2)
      else (digAt (digIdx d + 1) :: rest, false) := rfl

theorem decDigitsRev_cons (d : Char) (rest : List Char) :
    decDigitsRev (d :: rest) =
      if digIdx d - 1 = -1 then
        ('z' :: (decDigitsRev rest).1, (decDigitsRev rest).2)
      else (digAt (digIdx d - 1) :: rest, false) := rfl

/-- The carry loop of `incrementInteger` on the reversed digits: a
surviving carry means every digit was the top digit (all zeroed); an
absorbed carry splits the digits at the first non-top digit, which is
bumped by one. -/
theorem incDigitsRev_spec : ∀ (rd : List Char),
    (∀ c ∈ rd, c ∈ BASE_62_DIGITS) →
    ((incDigitsRev rd).2 = true →
      (∀ c ∈ rd, c = 'z') ∧
      (incDigitsRev rd).1 = List.replicate rd.length ZERO) ∧
    ((incDigitsRev rd).2 = false →
      ∃ k d t, rd = List.replicate k 'z' ++ d :: t ∧ d ∈ BASE_62_DIGITS ∧
        digIdx d < 61 ∧
        (incDigitsRev rd).1 =
          List.replicate k ZERO ++ digAt (digIdx d + 1) :: t) := by
  intro rd hA
  induction rd with
  | nil =>
    refine ⟨fun _ => ⟨fun c hc => absurd hc (List.not_mem_nil c), rfl⟩,
      fun h => ?_⟩
    simp [incDigitsRev] at h
  | cons d rest ih =>
    have hd : d ∈ BASE_62_DIGITS := hA d (List.mem_cons_self _ _)
    have hrest : ∀ c ∈ rest, c ∈ BASE_62_DIGITS :=
      fun c hc => hA c (List.mem_cons_of_mem _ hc)
    have ih' := ih hrest
    have hrange := alpha_spec d hd
    by_cases hz : digIdx d + 1 = 62
    · have hdz : d = 'z' := (digIdx_61_iff d hd).mp (by omega)
      have hstep : incDigitsRev (d :: rest) =
          (ZERO :: (incDigitsRev rest).1, (incDigitsRev rest).2) := by
        rw [incDigitsRev_cons, if_pos hz]
      constructor
      · intro hc
        rw [hstep] at hc
        obtain ⟨hall, hrep⟩ := ih'.1 hc
        refine ⟨?_, ?_⟩
        · intro c hmem
          rcases List.mem_cons.mp hmem with h | h
          · rw [h, hdz]
          · exact hall c h
        · rw [hstep, hrep]
          rfl
      · intro hc
        rw [hstep] at hc
        obtain ⟨k, d', t, hrd, hd', hlt, hres⟩ := ih'.2 hc
        refine ⟨k + 1, d', t, ?_, hd', hlt, ?_⟩
        · rw [List.replicate_succ, List.cons_append, ← hrd, hdz]
        · rw [hstep, hres]
          rfl
    · have hstep : incDigitsRev (d :: rest) =
          (digAt (digIdx d + 1) :: rest, false) := by
        simp only [incDigitsRev]
        rw [if_neg hz]
      constructor
      · intro hc
        rw [hstep] at hc
        exact absurd hc (by simp)
      · intro _
        exact ⟨0, d, rest, rfl, hd, by omega, by rw [hstep]; rfl⟩

/-- The borrow loop of `decrementInteger` on the reversed digits. -/
theorem decDigitsRev_spec : ∀ (rd : List Char),
    (∀ c ∈ rd, c ∈ BASE_62_DIGITS) →
    ((decDigitsRev rd).2 = true →
      (∀ c ∈ rd, c = '0') ∧
      (decDigitsRev rd).1 = List.replicate rd.length 'z') ∧
    ((decDigitsRev rd).2 = false →
      ∃ k d t, rd = List.replicate k '0' ++ d :: t ∧ d ∈ BASE_62_DIGITS ∧
        0 < digIdx d ∧
        (decDigitsRev rd).1 =
          List.replicate k 'z' ++ digAt (digIdx d - 1) :: t) := by
  intro rd hA
  induction rd with
  | nil =>
    refine ⟨fun _ => ⟨fun c hc => absurd hc (List.not_mem_nil c), rfl⟩,
      fun h => ?_⟩
    simp [decDigitsRev] at h
  | cons d rest ih =>
    have hd : d ∈ BASE_62_DIGITS := hA d (List.mem_cons_self _ _)
    have hrest : ∀ c ∈ rest, c ∈ BASE_62_DIGITS :=
      fun c hc => hA c (List.mem_cons_of_mem _ hc)
    have ih' := ih hrest
    have hrange := alpha_spec d hd
    by_cases hz : digIdx d - 1 = -1
    · have hdz : d = '0' := (digIdx_zero_iff d hd).mp (by omega)
      have hstep : decDigitsRev (d :: rest) =
          ('z' :: (decDigitsRev rest).1, (decDigitsRev rest).2) := by
        rw [decDigitsRev_cons, if_pos hz]
      constructor
      · intro hc
        rw [hstep] at hc
        obtain ⟨hall, hrep⟩ := ih'.1 hc
        refine ⟨?_, ?_⟩
        · intro c hmem
          rcases List.mem_cons.mp hmem with h | h
          · rw [h, hdz]
          · exact hall c h
        · rw [hstep, hrep]
          rfl
      · intro hc
        rw [hstep] at hc
        obtain ⟨k, d', t, hrd, hd', hlt, hres⟩ := ih'.2 hc
        refine ⟨k + 1, d', t, ?_, hd', hlt, ?_⟩
        · rw [List.replicate_succ, List.cons_append, ← hrd, hdz]
        · rw [hstep, hres]
          rfl
    · have hstep : decDigitsRev (d :: rest) =
          (digAt (digIdx d - 1) :: rest, false) := by
        simp only [decDigitsRev]
        rw [if_neg hz]
      constructor
      · intro hc
        rw [hstep] at hc
        exact absurd hc (by simp)
      · intro _
        exact ⟨0, d, rest, rfl, hd, by omega, by rw [hstep]; rfl⟩

theorem ltCU_cons_same (c : Char) (p q : List Char) :
    ltCU (c :: p) (c :: q) = ltCU p q := by
  show (if c.toNat < c.toNat then true
    else if c.toNat < c.toNat then false else ltCU p q) = _
  rw [if_neg (lt_irrefl _), if_neg (lt_irrefl _)]

theorem incrementInteger_cons (head : Char) (digs : List Char)
    (hv : validateInteger (head :: digs) = Except.ok ()) :
    incrementInteger (head :: digs) =
      (if (incDigitsRev digs.reverse).2 then
        if head = 'Z' then Except.ok (some ['a', ZERO])
        else if head = 'z' then Except.ok none
        else
          if 'a'.toNat < (Char.ofNat (head.toNat + 1)).toNat then
            Except.ok (some (Char.ofNat (head.toNat + 1) ::
              (incDigitsRev digs.reverse).1.reverse ++ [ZERO]))
          else Except.ok (some (Char.ofNat (head.toNat + 1) ::
            ((incDigitsRev digs.reverse).1.reverse).dropLast))
      else Except.ok (some (head :: (incDigitsRev digs.reverse).1.reverse)))
    := by
  unfold incrementInteger
  rw [hv]

/-- Correctness of `incrementInteger` on a valid integer: either the input
is the largest integer and the JS function returns `null`, or it returns a
strictly larger valid integer. -/
theorem incrementInteger_sound (i : List Char)
    (hA : ∀ c ∈ i, c ∈ BASE_62_DIGITS)
    (hv : validateInteger i = Except.ok ()) :
    (incrementInteger i = Except.ok none ∧
      i = 'z' :: List.replicate 26 'z') ∨
    ∃ j, incrementInteger i = Except.ok (some j) ∧
      (∀ c ∈ j, c ∈ BASE_62_DIGITS) ∧ validateInteger j = Except.ok () ∧
      ltCU i j = true := by
  obtain ⟨head, digs, hi, hlen⟩ := validateInteger_ok i hv
  subst hi
  have hstep := incrementInteger_cons head digs hv
  have hheadB : head ∈ BASE_62_DIGITS := hA head (List.mem_cons_self _ _)
  have hdigsA : ∀ c ∈ digs.reverse, c ∈ BASE_62_DIGITS := fun c hc =>
    hA c (List.mem_cons_of_mem _ (List.mem_reverse.mp hc))
  have hspec := incDigitsRev_spec digs.reverse hdigsA
  have hheadlen := getIntegerLength_ok head _ hlen
  have hL : (head :: digs).length = digs.length + 1 := by simp
  rcases Bool.eq_false_or_eq_true ((incDigitsRev digs.reverse).2) with
    hcarry | hcarry
  · -- carry survives: all digits were 'z'
    obtain ⟨hallz, hrep⟩ := hspec.1 hcarry
    have hdigsz : digs = List.replicate digs.length 'z' :=
      List.eq_replicate.mpr ⟨rfl,
        fun b hb => hallz b (List.mem_reverse.mpr hb)⟩
    rw [hstep, if_pos hcarry]
    by_cases hZ : head = 'Z'
    · subst hZ
      right
      refine ⟨['a', ZERO], by rw [if_pos rfl], ?_, rfl, ?_⟩
      · intro c hc
        rcases List.mem_cons.mp hc with h | h
        · rw [h]
          decide
        · rw [List.mem_singleton] at h
          rw [h]
          decide
      · exact ltCU_cons_of_lt _ _ _ _ (by decide)
    · by_cases hz : head = 'z'
      · subst hz
        left
        refine ⟨by rw [if_neg hZ, if_pos rfl], ?_⟩
        have h27 : digs.length = 26 := by
          rcases hheadlen with ⟨h1, h2, hl⟩ | ⟨h1, h2, hl⟩
          · rw [hL] at hl
            rw [show ('z'.toNat : Nat) = 122 from rfl] at hl
            omega
          · rw [show ('z'.toNat : Nat) = 122 from rfl] at h2
            omega
        rw [hdigsz, h27]
      · right
        have hofNat : (Char.ofNat (head.toNat + 1)).toNat =
            head.toNat + 1 := by
          apply toNat_ofNat_small
          rcases hheadlen with ⟨h1, h2, _⟩ | ⟨h1, h2, _⟩ <;> omega
        have hne122 : head.toNat ≠ 122 :=
          fun h => hz (char_toNat_inj head 'z' (by rw [h]; rfl))
        have hne90 : head.toNat ≠ 90 :=
          fun h => hZ (char_toNat_inj head 'Z' (by rw [h]; rfl))
        have hdigs2 : (incDigitsRev digs.reverse).1.reverse =
            List.replicate digs.length ZERO := by
          rw [hrep, List.reverse_replicate, List.length_reverse]
        rcases hheadlen with ⟨h1, h2, hl⟩ | ⟨h1, h2, hl⟩
        · -- lowercase head, bump and append a zero digit
          rw [hL] at hl
          have hcond : 'a'.toNat < (Char.ofNat (head.toNat + 1)).toNat := by
            rw [hofNat]
            rw [show ('a'.toNat : Nat) = 97 from rfl]
            omega
          rw [if_neg hZ, if_neg hz, if_pos hcond]
          refine ⟨_, rfl, ?_, ?_, ?_⟩
          · intro c hc
            rcases List.mem_cons.mp hc with h | h
            · rw [h]
              exact ofNat_mem_lower _ (by omega) (by omega)
            · rcases List.mem_append.mp h with h | h
              · rw [hdigs2] at h
                rw [(List.eq_of_mem_replicate h : c = ZERO)]
                decide
              · rw [List.mem_singleton] at h
                rw [h]
                decide
          · apply validateInteger_of _ (Char.ofNat (head.toNat + 1))
              ((incDigitsRev digs.reverse).1.reverse ++ [ZERO]) rfl
            have hlen2 : (Char.ofNat (head.toNat + 1) ::
                ((incDigitsRev digs.reverse).1.reverse ++ [ZERO])).length =
                digs.length + 2 := by
              simp [hdigs2]
            rw [hlen2, getIntegerLength_lower _ (by omega) (by omega),
              hofNat]
            congr 1
            omega
          · exact ltCU_cons_of_lt _ _ _ _ (by omega)
        · -- uppercase head, bump and drop a zero digit
          rw [hL] at hl
          have hcond : ¬('a'.toNat < (Char.ofNat (head.toNat + 1)).toNat)
              := by
            rw [hofNat]
            rw [show ('a'.toNat : Nat) = 97 from rfl]
            omega
          rw [if_neg hZ, if_neg hz, if_neg hcond]
          refine ⟨_, rfl, ?_, ?_, ?_⟩
          · intro c hc
            rcases List.mem_cons.mp hc with h | h
            · rw [h]
              exact ofNat_mem_upper _ (by omega) (by omega)
            · have h' := List.dropLast_subset _ h
              rw [hdigs2] at h'
              rw [(List.eq_of_mem_replicate h' : c = ZERO)]
              decide
          · apply validateInteger_of _ (Char.ofNat (head.toNat + 1))
              ((incDigitsRev digs.reverse).1.reverse).dropLast rfl
            have hlen2 : (Char.ofNat (head.toNat + 1) ::
                ((incDigitsRev digs.reverse).1.reverse).dropLast).length =
                digs.length := by
              simp only [List.length_cons, List.length_dropLast, hdigs2,
                List.length_replicate]
              omega
            rw [hlen2, getIntegerLength_upper _ (by omega) (by omega),
              hofNat]
            congr 1
            omega
          · exact ltCU_cons_of_lt _ _ _ _ (by omega)
  · -- carry absorbed: one digit bumped, the zeroed tail follows
    obtain ⟨k, d, t, hrd, hd, hlt61, hres⟩ := hspec.2 hcarry
    have hdB := alpha_spec d hd
    have hdigs : digs = t.reverse ++ d :: List.replicate k 'z' := by
      have h := congrArg List.reverse hrd
      rw [List.reverse_reverse] at h
      rw [h]
      simp [List.reverse_append, List.reverse_replicate]
    have hdigs2 : (incDigitsRev digs.reverse).1.reverse =
        t.reverse ++ digAt (digIdx d + 1) :: List.replicate k ZERO := by
      rw [hres]
      simp [List.reverse_append, List.reverse_replicate]
    have hdig := digAt_int (digIdx d + 1) (by omega) (by omega)
    rw [hstep, if_neg (by rw [hcarry]; exact Bool.false_ne_true)]
    right
    refine ⟨_, rfl, ?_, ?_, ?_⟩
    · intro c hc
      rcases List.mem_cons.mp hc with h | h
      · rw [h]
        exact hheadB
      · rw [hdigs2] at h
        rcases List.mem_append.mp h with h | h
        · apply hA
          apply List.mem_cons_of_mem
          rw [hdigs]
          exact List.mem_append.mpr (Or.inl h)
        · rcases List.mem_cons.mp h with h | h
          · rw [h]
            exact hdig.1
          · rw [(List.eq_of_mem_replicate h : c = ZERO)]
            decide
    · apply validateInteger_of _ head
        ((incDigitsRev digs.reverse).1.reverse) rfl
      have hlen2 : ((incDigitsRev digs.reverse).1.reverse).length =
          digs.length := by
        rw [hdigs2, hdigs]
        simp
      rw [show (head :: (incDigitsRev digs.reverse).1.reverse).length =
        (head :: digs).length from by simp [hlen2]]
      exact hlen
    · rw [ltCU_cons_same, hdigs2, hdigs, ltCU_append_congr]
      apply ltCU_cons_of_lt
      apply (digIdx_mono d hd _ hdig.1).mp
      rw [hdig.2]
      omega

theorem decrementInteger_cons (head : Char) (digs : List Char)
    (hv : validateInteger (head :: digs) = Except.ok ()) :
    decrementInteger (head :: digs) =
      (if (decDigitsRev digs.reverse).2 then
        if head = 'a' then Except.ok (some ['Z', 'z'])
        else if head = 'A' then Except.ok none
        else
          if (Char.ofNat (head.toNat - 1)).toNat < 'Z'.toNat then
            Except.ok (some (Char.ofNat (head.toNat - 1) ::
              (decDigitsRev digs.reverse).1.reverse ++ ['z']))
          else Except.ok (some (Char.ofNat (head.toNat - 1) ::
            ((decDigitsRev digs.reverse).1.reverse).dropLast))
      else Except.ok (some (head :: (decDigitsRev digs.reverse).1.reverse)))
    := by
  unfold decrementInteger
  rw [hv]

/-- Correctness of `decrementInteger` on a valid integer other than the
smallest one: it returns a strictly smaller valid integer. -/
theorem decrementInteger_sound (i : List Char)
    (hA : ∀ c ∈ i, c ∈ BASE_62_DIGITS)
    (hv : validateInteger i = Except.ok ())
    (hns : i ≠ SMALLEST_INTEGER) :
    ∃ j, decrementInteger i = Except.ok (some j) ∧
      (∀ c ∈ j, c ∈ BASE_62_DIGITS) ∧ validateInteger j = Except.ok () ∧
      ltCU j i = true := by
  obtain ⟨head, digs, hi, hlen⟩ := validateInteger_ok i hv
  subst hi
  have hstep := decrementInteger_cons head digs hv
  have hheadB : head ∈ BASE_62_DIGITS := hA head (List.mem_cons_self _ _)
  have hdigsA : ∀ c ∈ digs.reverse, c ∈ BASE_62_DIGITS := fun c hc =>
    hA c (List.mem_cons_of_mem _ (List.mem_reverse.mp hc))
  have hspec := decDigitsRev_spec digs.reverse hdigsA
  have hheadlen := getIntegerLength_ok head _ hlen
  have hL : (head :: digs).length = digs.length + 1 := by simp
  rcases Bool.eq_false_or_eq_true ((decDigitsRev digs.reverse).2) with
    hborrow | hborrow
  · -- borrow survives: all digits were '0'
    obtain ⟨hallz, hrep⟩ := hspec.1 hborrow
    have hdigsz : digs = List.replicate digs.length '0' :=
      List.eq_replicate.mpr ⟨rfl,
        fun b hb => hallz b (List.mem_reverse.mpr hb)⟩
    rw [hstep, if_pos hborrow]
    by_cases ha : head = 'a'
    · subst ha
      refine ⟨['Z', 'z'], by rw [if_pos rfl], ?_, rfl, ?_⟩
      · intro c hc
        rcases List.mem_cons.mp hc with h | h
        · rw [h]
          decide
        · rw [List.mem_singleton] at h
          rw [h]
          decide
      · exact ltCU_cons_of_lt _ _ _ _ (by decide)
    · by_cases hA' : head = 'A'
      · exfalso
        subst hA'
        apply hns
        have h27 : digs.length = 26 := by
          rcases hheadlen with ⟨h1, h2, hl⟩ | ⟨h1, h2, hl⟩
          · rw [show ('A'.toNat : Nat) = 65 from rfl] at h1
            omega
          · rw [hL, show ('A'.toNat : Nat) = 65 from rfl] at hl
            omega
        rw [hdigsz, h27]
        rfl
      · have hofNat : (Char.ofNat (head.toNat - 1)).toNat =
            head.toNat - 1 := by
          apply toNat_ofNat_small
          rcases hheadlen with ⟨h1, h2, _⟩ | ⟨h1, h2, _⟩ <;> omega
        have hne97 : head.toNat ≠ 97 :=
          fun h => ha (char_toNat_inj head 'a' (by rw [h]; rfl))
        have hne65 : head.toNat ≠ 65 :=
          fun h => hA' (char_toNat_inj head 'A' (by rw [h]; rfl))
        have hdigs2 : (decDigitsRev digs.reverse).1.reverse =
            List.replicate digs.length 'z' := by
          rw [hrep, List.reverse_replicate, List.length_reverse]
        rcases hheadlen with ⟨h1, h2, hl⟩ | ⟨h1, h2, hl⟩
        · -- lowercase head: drop a digit
          rw [hL] at hl
          have hcond : ¬((Char.ofNat (head.toNat - 1)).toNat <
              'Z'.toNat) := by
            rw [hofNat, show ('Z'.toNat : Nat) = 90 from rfl]
            omega
          rw [if_neg ha, if_neg hA', if_neg hcond]
          refine ⟨_, rfl, ?_, ?_, ?_⟩
          · intro c hc
            rcases List.mem_cons.mp hc with h | h
            · rw [h]
              exact ofNat_mem_lower _ (by omega) (by omega)
            · have h' := List.dropLast_subset _ h
              rw [hdigs2] at h'
              rw [(List.eq_of_mem_replicate h' : c = 'z')]
              decide
          · apply validateInteger_of _ (Char.ofNat (head.toNat - 1))
              ((decDigitsRev digs.reverse).1.reverse).dropLast rfl
            have hlen2 : (Char.ofNat (head.toNat - 1) ::
                ((decDigitsRev digs.reverse).1.reverse).dropLast).length =
                digs.length := by
              simp only [List.length_cons, List.length_dropLast, hdigs2,
                List.length_replicate]
              omega
            rw [hlen2, getIntegerLength_lower _ (by omega) (by omega),
              hofNat]
            congr 1
            omega
          · exact ltCU_cons_of_lt _ _ _ _ (by omega)
        · -- uppercase head: append a top digit
          rw [hL] at hl
          have hcond : (Char.ofNat (head.toNat - 1)).toNat < 'Z'.toNat := by
            rw [hofNat, show ('Z'.toNat : Nat) = 90 from rfl]
            omega
          rw [if_neg ha, if_neg hA', if_pos hcond]
          refine ⟨_, rfl, ?_, ?_, ?_⟩
          · intro c hc
            rcases List.mem_cons.mp hc with h | h
            · rw [h]
              exact ofNat_mem_upper _ (by omega) (by omega)
            · rcases List.mem_append.mp h with h | h
              · rw [hdigs2] at h
                rw [(List.eq_of_mem_replicate h : c = 'z')]
                decide
              · rw [List.mem_singleton] at h
                rw [h]
                decide
          · apply validateInteger_of _ (Char.ofNat (head.toNat - 1))
              ((decDigitsRev digs.reverse).1.reverse ++ ['z']) rfl
            have hlen2 : (Char.ofNat (head.toNat - 1) ::
                ((decDigitsRev digs.reverse).1.reverse ++ ['z'])).length =
                digs.length + 2 := by
              simp [hdigs2]
            rw [hlen2, getIntegerLength_upper _ (by omega) (by omega),
              hofNat]
            congr 1
            omega
          · exact ltCU_cons_of_lt _ _ _ _ (by omega)
  · -- borrow absorbed: one digit lowered, topped tail follows
    obtain ⟨k, d, t, hrd, hd, hlt0, hres⟩ := hspec.2 hborrow
    have hdB := alpha_spec d hd
    have hdigs : digs = t.reverse ++ d :: List.replicate k '0' := by
      have h := congrArg List.reverse hrd
      rw [List.reverse_reverse] at h
      rw [h]
      simp [List.reverse_append, List.reverse_replicate]
    have hdigs2 : (decDigitsRev digs.reverse).1.reverse =
        t.reverse ++ digAt (digIdx d - 1) :: List.replicate k 'z' := by
      rw [hres]
      simp [List.reverse_append, List.reverse_replicate]
    have hdig := digAt_int (digIdx d - 1) (by omega) (by omega)
    rw [hstep, if_neg (by rw [hborrow]; exact Bool.false_ne_true)]
    refine ⟨_, rfl, ?_, ?_, ?_⟩
    · intro c hc
      rcases List.mem_cons.mp hc with h | h
      · rw [h]
        exact hheadB
      · rw [hdigs2] at h
        rcases List.mem_append.mp h with h | h
        · apply hA
          apply List.mem_cons_of_mem
          rw [hdigs]
          exact List.mem_append.mpr (Or.inl h)
        · rcases List.mem_cons.mp h with h | h
          · rw [h]
            exact hdig.1
          · rw [(List.eq_of_mem_replicate h : c = 'z')]
            decide
    · apply validateInteger_of _ head
        ((decDigitsRev digs.reverse).1.reverse) rfl
      have hlen2 : ((decDigitsRev digs.reverse).1.reverse).length =
          digs.length := by
        rw [hdigs2, hdigs]
        simp
      rw [show (head :: (decDigitsRev digs.reverse).1.reverse).length =
        (head :: digs).length from by simp [hlen2]]
      exact hlen
    · rw [ltCU_cons_same, hdigs2, hdigs, ltCU_append_congr]
      apply ltCU_cons_of_lt
      apply (digIdx_mono _ hdig.1 d hd).mp
      rw [hdig.2]
      omega

/-- Nothing of bounded length exceeds the all-top-digit string. -/
theorem ltCU_all_top : ∀ (u j : List Char), (∀ c ∈ u, c.toNat = 122) →
    (∀ c ∈ j, c.toNat ≤ 122) → j.length ≤ u.length → ltCU u j = false
  | u, [], _, _, _ => ltCU_nil_right u
  | [], _ :: _, _, _, hlen => by simp at hlen
  | x :: xs, c :: cs, hu, hj, hlen => by
    have hx : x.toNat = 122 := hu x (List.mem_cons_self _ _)
    have hc : c.toNat ≤ 122 := hj c (List.mem_cons_self _ _)
    rw [ltCU_cons_false_iff]
    by_cases heq : c.toNat = 122
    · refine Or.inr ⟨by omega, ?_⟩
      exact ltCU_all_top xs cs
        (fun a ha => hu a (List.mem_cons_of_mem _ ha))
        (fun a ha => hj a (List.mem_cons_of_mem _ ha))
        (by simpa using hlen)
    · exact Or.inl (by omega)

theorem validInt_len_le (i : List Char)
    (hv : validateInteger i = Except.ok ()) : i.length ≤ 27 := by
  obtain ⟨h, t, hi, hl⟩ := validateInteger_ok i hv
  rcases getIntegerLength_ok h _ hl with ⟨h1, h2, hl'⟩ | ⟨h1, h2, hl'⟩ <;>
    omega

theorem validInt_len_ge (i : List Char)
    (hv : validateInteger i = Except.ok ()) : 2 ≤ i.length := by
  obtain ⟨h, t, hi, hl⟩ := validateInteger_ok i hv
  rcases getIntegerLength_ok h _ hl with ⟨h1, h2, hl'⟩ | ⟨h1, h2, hl'⟩ <;>
    omega

/-- Two distinct valid integers compare the same way whatever is appended
to them: the self-describing length makes the comparison happen strictly
inside both integer parts. -/
theorem validInt_append_congr (u v x y : List Char)
    (hu : validateInteger u = Except.ok ())
    (hv : validateInteger v = Except.ok ()) (hne : u ≠ v) :
    ltCU (u ++ x) (v ++ y) = ltCU u v := by
  obtain ⟨hu0, tu, hueq, hul⟩ := validateInteger_ok u hu
  obtain ⟨hv0, tv, hveq, hvl⟩ := validateInteger_ok v hv
  by_cases hh : hu0.toNat = hv0.toNat
  · have he : hu0 = hv0 := char_toNat_inj _ _ hh
    subst he
    rw [hul] at hvl
    injection hvl with hvl
    exact ltCU_append_of_len_eq u v x y (by rw [hvl]) hne
  · subst hueq
    subst hveq
    rw [List.cons_append, List.cons_append, ltCU_head_ne _ _ _ _ hh,
      ltCU_head_ne _ _ _ _ hh]

theorem getIntegerPart_ok (k i : List Char)
    (h : getIntegerPart k = Except.ok i) :
    ∃ hd t len, k = hd :: t ∧ getIntegerLength hd = Except.ok len ∧
      len ≤ k.length ∧ i = k.take len := by
  cases k with
  | nil => exact Except.noConfusion h
  | cons hd t =>
    cases hl : getIntegerLength hd with
    | error e =>
      unfold getIntegerPart at h
      simp only [List.head?, hl] at h
      exact Except.noConfusion h
    | ok len =>
      unfold getIntegerPart at h
      simp only [List.head?, hl] at h
      by_cases hgt : len > (hd :: t).length
      · rw [if_pos hgt] at h
        exact Except.noConfusion h
      · rw [if_neg hgt] at h
        injection h with h
        exact ⟨hd, t, len, rfl, hl, by omega, h.symm⟩

/-- The integer part of a key is itself a valid integer, and the key splits
as integer part plus fractional part. -/
theorem getIntegerPart_split (k i : List Char)
    (h : getIntegerPart k = Except.ok i) :
    validateInteger i = Except.ok () ∧ i ≠ [] ∧
      k = i ++ k.drop i.length := by
  obtain ⟨hd, t, len, hk, hl, hle, hi⟩ := getIntegerPart_ok k i h
  have hlen2 : 2 ≤ len := by
    rcases getIntegerLength_ok hd _ hl with ⟨_, _, h'⟩ | ⟨_, _, h'⟩ <;> omega
  have hilen : i.length = len := by
    rw [hi, List.length_take]
    omega
  have hine : i ≠ [] := by
    intro h0
    rw [h0] at hilen
    simp at hilen
    omega
  refine ⟨?_, hine, ?_⟩
  · have hhead : i = hd :: (k.take len).tail := by
      rw [hi, hk]
      cases len with
      | zero => omega
      | succ n => rfl
    exact validateInteger_of i hd _ hhead (by rw [hilen]; exact hl)
  · rw [hilen, hi]
    exact (List.take_append_drop len k).symm

/-- `validateInteger` succeeding means `getIntegerPart` returns the whole
string. -/
theorem getIntegerPart_of_validateInteger (i : List Char)
    (hv : validateInteger i = Except.ok ()) :
    getIntegerPart i = Except.ok i := by
  obtain ⟨h, t, hi, hl⟩ := validateInteger_ok i hv
  subst hi
  unfold getIntegerPart
  simp only [List.head?, hl]
  rw [if_neg (by omega)]
  rw [List.take_of_length_le (le_refl _)]

/-- The structural validity of a generated order key, as a decidable
check: every character is a base-62 digit, the integer part is
well-formed, and the fractional part has no trailing zero digit.
(`validateOrderKey` additionally rejects the smallest integer.) -/
def validKey (k : List Char) : Bool :=
  k.all (fun c => decide (c ∈ BASE_62_DIGITS)) &&
  (match getIntegerPart k with
   | Except.ok i => decide ((k.drop i.length).getLast? ≠ some ZERO)
   | Except.error _ => false)

theorem validKey_parts (k : List Char) (h : validKey k = true) :
    (∀ c ∈ k, c ∈ BASE_62_DIGITS) ∧
    ∃ i, getIntegerPart k = Except.ok i ∧
      validateInteger i = Except.ok () ∧ i ≠ [] ∧
      k = i ++ k.drop i.length ∧
      (k.drop i.length).getLast? ≠ some ZERO := by
  unfold validKey at h
  rw [Bool.and_eq_true] at h
  obtain ⟨hall, hrest⟩ := h
  have hA : ∀ c ∈ k, c ∈ BASE_62_DIGITS := by
    intro c hc
    have := List.all_eq_true.mp hall c hc
    exact of_decide_eq_true this
  refine ⟨hA, ?_⟩
  cases hp : getIntegerPart k with
  | error e =>
    rw [hp] at hrest
    exact Bool.noConfusion hrest
  | ok i =>
    rw [hp] at hrest
    obtain ⟨hvi, hine, hsplit⟩ := getIntegerPart_split k i hp
    exact ⟨i, rfl, hvi, hine, hsplit, of_decide_eq_true hrest⟩

theorem validKey_of (k i : List Char)
    (hp : getIntegerPart k = Except.ok i)
    (hA : ∀ c ∈ k, c ∈ BASE_62_DIGITS)
    (hz : (k.drop i.length).getLast? ≠ some ZERO) :
    validKey k = true := by
  unfold validKey
  rw [Bool.and_eq_true]
  constructor
  · rw [List.all_eq_true]
    exact fun c hc => decide_eq_true (hA c hc)
  · rw [hp]
    exact decide_eq_true hz

/-- A bare valid integer is a valid key (empty fractional part). -/
theorem validKey_of_int (i : List Char)
    (hv : validateInteger i = Except.ok ())
    (hA : ∀ c ∈ i, c ∈ BASE_62_DIGITS) : validKey i = true := by
  apply validKey_of i i (getIntegerPart_of_validateInteger i hv) hA
  rw [List.drop_of_length_le (le_refl _)]
  simp

/-- An integer part with any non-trailing-zero fraction appended is a
valid key. -/
theorem validKey_int_frac (i f : List Char)
    (hv : validateInteger i = Except.ok ())
    (hiA : ∀ c ∈ i, c ∈ BASE_62_DIGITS)
    (hfA : ∀ c ∈ f, c ∈ BASE_62_DIGITS)
    (hz : f.getLast? ≠ some ZERO) : validKey (i ++ f) = true := by
  obtain ⟨hd, t, hi, hl⟩ := validateInteger_ok i hv
  have hp : getIntegerPart (i ++ f) = Except.ok i := by
    cases hif : i ++ f with
    | nil =>
      rcases List.append_eq_nil.mp hif with ⟨h1, _⟩
      rw [h1] at hi
      exact List.noConfusion hi
    | cons x xs =>
      have hx : x = hd := by
        rw [hi] at hif
        injection hif with h1 _
        exact h1.symm
      unfold getIntegerPart
      rw [← hif]
      have hhead : (i ++ f).head? = some hd := by
        rw [hif, hx]
        rfl
      rw [hhead]
      simp only [hl]
      rw [if_neg (by
        simp only [List.length_append]
        omega)]
      rw [List.take_append_of_le_length (le_refl _)]
      rw [List.take_of_length_le (le_refl _)]
  apply validKey_of _ i hp
  · intro c hc
    rcases List.mem_append.mp hc with h | h
    · exact hiA c h
    · exact hfA c h
  · rw [List.drop_append_of_le_length (le_refl _)]
    rw [List.drop_of_length_le (le_refl _)]
    simpa using hz

/-- `validateOrderKey` accepts exactly the structurally valid keys other
than the smallest integer (acceptance direction). -/
theorem validateOrderKey_of (k : List Char) (hvk : validKey k = true)
    (hns : k ≠ SMALLEST_INTEGER) : validateOrderKey k = Except.ok () := by
  obtain ⟨hA, i, hp, hvi, hine, hsplit, hz⟩ := validKey_parts k hvk
  unfold validateOrderKey
  rw [if_neg hns]
  simp only [hp]
  rw [if_neg hz]

/-- Main soundness of `generateKeyBetween`: with valid, non-smallest,
correctly ordered bounds it succeeds and returns a structurally valid key
strictly between the bounds. -/
theorem gkb_ok (a b : Option (List Char))
    (ha : ∀ ka, a = some ka → validKey ka = true ∧ ka ≠ SMALLEST_INTEGER)
    (hb : ∀ kb, b = some kb → validKey kb = true ∧ kb ≠ SMALLEST_INTEGER)
    (hab : ∀ ka kb, a = some ka → b = some kb → ltCU ka kb = true) :
    ∃ k, generateKeyBetween a b = Except.ok k ∧ validKey k = true ∧
      (∀ ka, a = some ka → ltCU ka k = true) ∧
      (∀ kb, b = some kb → ltCU k kb = true) := by
  match a, b with
  | none, none =>
    refine ⟨['a', ZERO], rfl, by decide, ?_, ?_⟩ <;>
      exact fun x hx => Option.noConfusion hx
  | none, some kb =>
    obtain ⟨hkb, hkbns⟩ := hb kb rfl
    have hvb := validateOrderKey_of kb hkb hkbns
    obtain ⟨hkbA, ib, hpb, hvib, hibne, hsplitb, hzb⟩ := validKey_parts kb hkb
    have hibA : ∀ c ∈ ib, c ∈ BASE_62_DIGITS := fun c hc => hkbA c (by
      rw [hsplitb]
      exact List.mem_append.mpr (Or.inl hc))
    have hfbA : ∀ c ∈ kb.drop ib.length, c ∈ BASE_62_DIGITS :=
      fun c hc => hkbA c (List.mem_of_mem_drop hc)
    have hg : generateKeyBetween none (some kb) = gkbCore none (some kb) :=
      by simp only [generateKeyBetween, hvb]
    rw [hg]
    by_cases hsm : ib = SMALLEST_INTEGER
    · have hfbne : kb.drop ib.length ≠ [] := by
        intro h0
        apply hkbns
        rw [hsplitb, h0, List.append_nil, hsm]
      obtain ⟨m, hmeq, hmne, hmA, hmZ, _, hmltb⟩ :=
        midpoint_sound [] (some (kb.drop ib.length))
          (fun c hc => absurd hc (List.not_mem_nil c)) (by simp)
          (fun bs hbs => by
            injection hbs with hbs
            subst hbs
            exact ⟨hfbA, hzb, ltCU_nil_left _ hfbne⟩)
      refine ⟨ib ++ m, ?_, ?_, fun x hx => Option.noConfusion hx, ?_⟩
      · simp only [gkbCore, hpb]
        rw [if_pos hsm, hmeq]
        rfl
      · exact validKey_int_frac ib m hvib hibA hmA hmZ
      · intro kb' hkb'
        injection hkb' with hkb'
        subst hkb'
        have hc := ltCU_append_congr ib m (kb.drop ib.length)
        rw [← hsplitb] at hc
        rw [hc]
        exact hmltb _ rfl
    · by_cases hlt : ltCU ib kb = true
      · refine ⟨ib, ?_, validKey_of_int ib hvib hibA,
          fun x hx => Option.noConfusion hx, ?_⟩
        · simp only [gkbCore, hpb]
          rw [if_neg hsm, if_pos hlt]
        · intro kb' hkb'
          injection hkb' with hkb'
          subst hkb'
          exact hlt
      · have hfb : kb.drop ib.length = [] := by
          by_contra hne
          apply hlt
          rw [hsplitb]
          exact ltCU_self_append ib _ hne
        have hkbib : kb = ib := by
          rw [hsplitb, hfb, List.append_nil]
        obtain ⟨j, hjeq, hjA, hjv, hjlt⟩ :=
          decrementInteger_sound ib hibA hvib hsm
        refine ⟨j, ?_, validKey_of_int j hjv hjA,
          fun x hx => Option.noConfusion hx, ?_⟩
        · simp only [gkbCore, hpb]
          rw [if_neg hsm, if_neg hlt]
          simp only [hjeq]
        · intro kb' hkb'
          injection hkb' with hkb'
          subst hkb'
          rw [hkbib]
          exact hjlt
  | some ka, none =>
    obtain ⟨hka, hkans⟩ := ha ka rfl
    have hva := validateOrderKey_of ka hka hkans
    obtain ⟨hkaA, ia, hpa, hvia, hiane, hsplita, hza⟩ := validKey_parts ka hka
    have hiaA : ∀ c ∈ ia, c ∈ BASE_62_DIGITS := fun c hc => hkaA c (by
      rw [hsplita]
      exact List.mem_append.mpr (Or.inl hc))
    have hfaA : ∀ c ∈ ka.drop ia.length, c ∈ BASE_62_DIGITS :=
      fun c hc => hkaA c (List.mem_of_mem_drop hc)
    have hg : generateKeyBetween (some ka) none = gkbCore (some ka) none :=
      by simp only [generateKeyBetween, hva]
    rw [hg]
    rcases incrementInteger_sound ia hiaA hvia with ⟨hnone, _⟩ |
      ⟨j, hjeq, hjA, hjv, hjlt⟩
    · obtain ⟨m, hmeq, hmne, hmA, hmZ, hmlt, _⟩ :=
        midpoint_sound (ka.drop ia.length) none hfaA hza
          (fun bs hbs => Option.noConfusion hbs)
      refine ⟨ia ++ m, ?_, validKey_int_frac ia m hvia hiaA hmA hmZ, ?_,
        fun x hx => Option.noConfusion hx⟩
      · simp only [gkbCore, hpa, hnone]
        rw [hmeq]
        rfl
      · intro ka' hka'
        injection hka' with hka'
        subst hka'
        have hc := ltCU_append_congr ia (ka.drop ia.length) m
        rw [← hsplita] at hc
        rw [hc]
        exact hmlt
    · have hne : ia ≠ j := by
        intro he
        rw [he, ltCU_irrefl] at hjlt
        exact Bool.noConfusion hjlt
      refine ⟨j, ?_, validKey_of_int j hjv hjA, ?_,
        fun x hx => Option.noConfusion hx⟩
      · simp only [gkbCore, hpa, hjeq]
      · intro ka' hka'
        injection hka' with hka'
        subst hka'
        have hc := validInt_append_congr ia j (ka.drop ia.length) []
          hvia hjv hne
        rw [List.append_nil, ← hsplita] at hc
        rw [hc]
        exact hjlt
  | some ka, some kb =>
    obtain ⟨hka, hkans⟩ := ha ka rfl
    obtain ⟨hkb, hkbns⟩ := hb kb rfl
    have hva := validateOrderKey_of ka hka hkans
    have hvb := validateOrderKey_of kb hkb hkbns
    have hlt := hab ka kb rfl rfl
    obtain ⟨hkaA, ia, hpa, hvia, hiane, hsplita, hza⟩ := validKey_parts ka hka
    obtain ⟨hkbA, ib, hpb, hvib, hibne, hsplitb, hzb⟩ := validKey_parts kb hkb
    have hiaA : ∀ c ∈ ia, c ∈ BASE_62_DIGITS := fun c hc => hkaA c (by
      rw [hsplita]
      exact List.mem_append.mpr (Or.inl hc))
    have hibA : ∀ c ∈ ib, c ∈ BASE_62_DIGITS := fun c hc => hkbA c (by
      rw [hsplitb]
      exact List.mem_append.mpr (Or.inl hc))
    have hfaA : ∀ c ∈ ka.drop ia.length, c ∈ BASE_62_DIGITS :=
      fun c hc => hkaA c (List.mem_of_mem_drop hc)
    have hfbA : ∀ c ∈ kb.drop ib.length, c ∈ BASE_62_DIGITS :=
      fun c hc => hkbA c (List.mem_of_mem_drop hc)
    have hg : generateKeyBetween (some ka) (some kb) =
        gkbCore (some ka) (some kb) := by
      simp only [generateKeyBetween, hva, hvb]
      rw [if_neg (fun hc => hc hlt)]
    rw [hg]
    by_cases hiab : ia = ib
    · have hsplitb' : kb = ia ++ kb.drop ia.length := by
        rw [hiab]
        exact hsplitb
      have hfafb : ltCU (ka.drop ia.length) (kb.drop ia.length) = true := by
        have hc := ltCU_append_congr ia (ka.drop ia.length)
          (kb.drop ia.length)
        rw [← hsplita, ← hsplitb'] at hc
        rw [← hc]
        exact hlt
      obtain ⟨m, hmeq, hmne, hmA, hmZ, hmlt, hmltb⟩ :=
        midpoint_sound (ka.drop ia.length) (some (kb.drop ia.length))
          hfaA hza
          (fun bs hbs => by
            injection hbs with hbs
            subst hbs
            exact ⟨by rw [hiab]; exact hfbA, by rw [hiab]; exact hzb,
              hfafb⟩)
      refine ⟨ia ++ m, ?_, validKey_int_frac ia m hvia hiaA hmA hmZ,
        ?_, ?_⟩
      · simp only [gkbCore, hpa, hpb]
        rw [if_pos hiab]
        rw [show kb.drop ib.length = kb.drop ia.length from by rw [hiab]]
        rw [hmeq]
        rfl
      · intro ka' hka'
        injection hka' with hka'
        subst hka'
        have hc := ltCU_append_congr ia (ka.drop ia.length) m
        rw [← hsplita] at hc
        rw [hc]
        exact hmlt
      · intro kb' hkb'
        injection hkb' with hkb'
        subst hkb'
        have hc := ltCU_append_congr ia m (kb.drop ia.length)
        rw [← hsplitb'] at hc
        rw [hc]
        exact hmltb _ rfl
    · have hiaib : ltCU ia ib = true := by
        have hc := validInt_append_congr ia ib (ka.drop ia.length)
          (kb.drop ib.length) hvia hvib hiab
        rw [← hsplita, ← hsplitb] at hc
        rw [← hc]
        exact hlt
      rcases incrementInteger_sound ia hiaA hvia with ⟨hnone, hiz⟩ |
        ⟨j, hjeq, hjA, hjv, hjlt⟩
      · exfalso
        rw [hiz] at hiaib
        have : ltCU ('z' :: List.replicate 26 'z') ib = false := by
          apply ltCU_all_top
          · intro c hc
            rcases List.mem_cons.mp hc with h | h
            · rw [h]
              rfl
            · rw [List.eq_of_mem_replicate h]
              rfl
          · intro c hc
            exact (alpha_spec c (hibA c hc)).2.2.2.2
          · have := validInt_len_le ib hvib
            simpa using this
        rw [this] at hiaib
        exact Bool.noConfusion hiaib
      · have hne : ia ≠ j := by
          intro he
          rw [he, ltCU_irrefl] at hjlt
          exact Bool.noConfusion hjlt
        have hkalt : ∀ x, ltCU ka (j ++ x) = true := by
          intro x
          have hc := validInt_append_congr ia j (ka.drop ia.length) x
            hvia hjv hne
          rw [← hsplita] at hc
          rw [hc]
          exact hjlt
        by_cases hjkb : ltCU j kb = true
        · refine ⟨j, ?_, validKey_of_int j hjv hjA, ?_, ?_⟩
          · simp only [gkbCore, hpa, hpb]
            rw [if_neg hiab]
            simp only [hjeq]
            rw [if_pos hjkb]
          · intro ka' hka'
            injection hka' with hka'
            subst hka'
            have := hkalt []
            rwa [List.append_nil] at this
          · intro kb' hkb'
            injection hkb' with hkb'
            subst hkb'
            exact hjkb
        · obtain ⟨m, hmeq, hmne, hmA, hmZ, hmlt, _⟩ :=
            midpoint_sound (ka.drop ia.length) none hfaA hza
              (fun bs hbs => Option.noConfusion hbs)
          refine ⟨ia ++ m, ?_,
            validKey_int_frac ia m hvia hiaA hmA hmZ, ?_, ?_⟩
          · simp only [gkbCore, hpa, hpb]
            rw [if_neg hiab]
            simp only [hjeq]
            rw [if_neg hjkb, hmeq]
            rfl
          · intro ka' hka'
            injection hka' with hka'
            subst hka'
            have hc := ltCU_append_congr ia (ka.drop ia.length) m
            rw [← hsplita] at hc
            rw [hc]
            exact hmlt
          · intro kb' hkb'
            injection hkb' with hkb'
            subst hkb'
            have hc := validInt_append_congr ia ib m (kb.drop ib.length)
              hvia hvib hiab
            rw [← hsplitb] at hc
            rw [hc]
            exact hiaib

theorem validateOrderKey_smallest :
    validateOrderKey SMALLEST_INTEGER = Except.error "invalid order key"
    := by
  unfold validateOrderKey
  rw [if_pos rfl]

theorem gkb_not_ok_left (b : Option (List Char)) (k : List Char) :
    generateKeyBetween (some SMALLEST_INTEGER) b ≠ Except.ok k := by
  intro h
  unfold generateKeyBetween at h
  simp only [validateOrderKey_smallest] at h
  exact Except.noConfusion h

theorem gkb_not_ok_right (a : Option (List Char)) (k : List Char) :
    generateKeyBetween a (some SMALLEST_INTEGER) ≠ Except.ok k := by
  intro h
  unfold generateKeyBetween at h
  cases hva : (match a with
      | some ka => validateOrderKey ka
      | none => Except.ok ()) with
  | error e =>
    simp only [hva] at h
    exact Except.noConfusion h
  | ok u =>
    simp only [hva, validateOrderKey_smallest] at h
    exact Except.noConfusion h

/-- Whenever `generateKeyBetween` succeeds on valid, ordered bounds, the
key is valid and strictly between the bounds (the smallest integer is
allowed as a bound here because the validation rejects it with an error,
which is covered vacuously). -/
theorem gkb_of_ok (a b : Option (List Char)) (k : List Char)
    (ha : ∀ ka, a = some ka → validKey ka = true)
    (hb : ∀ kb, b = some kb → validKey kb = true)
    (hab : ∀ ka kb, a = some ka → b = some kb → ltCU ka kb = true)
    (hk : generateKeyBetween a b = Except.ok k) :
    validKey k = true ∧
    (∀ ka, a = some ka → ltCU ka k = true) ∧
    (∀ kb, b = some kb → ltCU k kb = true) := by
  by_cases hsa : ∀ ka, a = some ka → ka ≠ SMALLEST_INTEGER
  · by_cases hsb : ∀ kb, b = some kb → kb ≠ SMALLEST_INTEGER
    · obtain ⟨k', hk', hkv, hlo, hhi⟩ := gkb_ok a b
        (fun ka h => ⟨ha ka h, hsa ka h⟩)
        (fun kb h => ⟨hb kb h, hsb kb h⟩) hab
      rw [hk] at hk'
      injection hk' with hk'
      subst hk'
      exact ⟨hkv, hlo, hhi⟩
    · exfalso
      push_neg at hsb
      obtain ⟨kb, hkb, hsm⟩ := hsb
      subst hsm
      rw [hkb] at hk
      exact gkb_not_ok_right a k hk
  · exfalso
    push_neg at hsa
    obtain ⟨ka, hka, hsm⟩ := hsa
    subst hsm
    rw [hka] at hk
    exact gkb_not_ok_left b k hk

theorem mem_of_getLast? {α : Type} : ∀ {l : List α} {a : α},
    l.getLast? = some a → a ∈ l
  | [], a, h => Option.noConfusion h
  | [x], a, h => by
    rw [List.getLast?_singleton] at h
    injection h with h
    exact List.mem_singleton.mpr h.symm
  | x :: y :: t, a, h => by
    have h' : (y :: t).getLast? = some a := by
      rw [← List.getLast?_cons_cons]
      exact h
    exact List.mem_cons_of_mem x (mem_of_getLast? h')

/-- In a pairwise-related list, every element relates to the last one or
is it. -/
theorem pairwise_rel_getLast {α : Type} {R : α → α → Prop} :
    ∀ {l : List α} {last : α}, l.Pairwise R → l.getLast? = some last →
    ∀ x ∈ l, x = last ∨ R x last
  | [], _, _, h => absurd h (by simp)
  | [a], last, _, h => by
    rw [List.getLast?_singleton] at h
    injection h with h
    intro x hx
    rw [List.mem_singleton] at hx
    exact Or.inl (by rw [hx, h])
  | a :: b :: t, last, hpw, h => by
    intro x hx
    have h' : (b :: t).getLast? = some last := by
      rw [← List.getLast?_cons_cons]
      exact h
    rcases List.mem_cons.mp hx with hxa | hxbt
    · subst hxa
      refine Or.inr ?_
      have hmem : last ∈ b :: t := mem_of_getLast? h'
      exact (List.pairwise_cons.mp hpw).1 last hmem
    · exact pairwise_rel_getLast (List.pairwise_cons.mp hpw).2 h' x hxbt

theorem pairwise_cons_head {α : Type} {R : α → α → Prop}
    (htr : ∀ x y z, R x y → R y z → R x z) (st : List α) (new : α)
    (hpw : st.Pairwise R) (h : ∀ x, st.head? = some x → R new x) :
    (new :: st).Pairwise R := by
  refine List.pairwise_cons.mpr ⟨?_, hpw⟩
  intro y hy
  cases st with
  | nil => exact absurd hy (List.not_mem_nil y)
  | cons h0 rest =>
    have hr0 : R new h0 := h h0 rfl
    rcases List.mem_cons.mp hy with h' | h'
    · rw [h']
      exact hr0
    · exact htr _ _ _ hr0 ((List.pairwise_cons.mp hpw).1 y h')

theorem pairwise_append_last {α : Type} {R : α → α → Prop}
    (htr : ∀ x y z, R x y → R y z → R x z) (st : List α) (new : α)
    (hpw : st.Pairwise R) (h : ∀ x, st.getLast? = some x → R x new) :
    (st ++ [new]).Pairwise R := by
  rw [List.pairwise_append]
  refine ⟨hpw, List.pairwise_singleton R new, ?_⟩
  intro x hx y hy
  rw [List.mem_singleton] at hy
  subst hy
  cases hlast : st.getLast? with
  | none =>
    rw [List.getLast?_eq_none_iff] at hlast
    rw [hlast] at hx
    exact absurd hx (List.not_mem_nil x)
  | some l =>
    rcases pairwise_rel_getLast hpw hlast x hx with he | hr
    · rw [he]
      exact h l hlast
    · exact htr _ _ _ hr (h l hlast)

theorem pairwise_insert_between {α : Type} {R : α → α → Prop}
    (htr : ∀ x y z, R x y → R y z → R x z) (u v : List α) (t new : α)
    (hpw : (u ++ t :: v).Pairwise R) (h1 : R t new)
    (h2 : ∀ y, v.head? = some y → R new y) :
    (u ++ t :: new :: v).Pairwise R := by
  rw [List.pairwise_append] at hpw ⊢
  obtain ⟨hu, htv, hcross⟩ := hpw
  obtain ⟨hTv, hv⟩ := List.pairwise_cons.mp htv
  have hnewv : ∀ y ∈ v, R new y := by
    intro y hy
    cases v with
    | nil => exact absurd hy (List.not_mem_nil y)
    | cons y0 w =>
      have h0 : R new y0 := h2 y0 rfl
      rcases List.mem_cons.mp hy with h' | h'
      · rw [h']
        exact h0
      · exact htr _ _ _ h0 ((List.pairwise_cons.mp hv).1 y h')
  refine ⟨hu, ?_, ?_⟩
  · refine List.pairwise_cons.mpr ⟨?_, List.pairwise_cons.mpr ⟨hnewv, hv⟩⟩
    intro y hy
    rcases List.mem_cons.mp hy with h' | h'
    · rw [h']
      exact h1
    · exact hTv y h'
  · intro x hx y hy
    rcases List.mem_cons.mp hy with h' | h'
    · rw [h']
      exact hcross x hx t (List.mem_cons_self _ _)
    · rcases List.mem_cons.mp h' with h'' | h''
      · rw [h'']
        exact htr _ _ _ (hcross x hx t (List.mem_cons_self _ _)) h1
      · exact hcross x hx y (List.mem_cons_of_mem _ h'')

theorem pairwise_insert_before {α : Type} {R : α → α → Prop}
    (htr : ∀ x y z, R x y → R y z → R x z) (u v : List α) (t new : α)
    (hpw : (u ++ t :: v).Pairwise R) (h2 : R new t)
    (h1 : ∀ x, u.getLast? = some x → R x new) :
    (u ++ new :: t :: v).Pairwise R := by
  rw [List.pairwise_append] at hpw ⊢
  obtain ⟨hu, htv, hcross⟩ := hpw
  obtain ⟨hTv, hv⟩ := List.pairwise_cons.mp htv
  refine ⟨hu, ?_, ?_⟩
  · refine List.pairwise_cons.mpr ⟨?_, htv⟩
    intro y hy
    rcases List.mem_cons.mp hy with h' | h'
    · rw [h']
      exact h2
    · exact htr _ _ _ h2 (hTv y h')
  · intro x hx y hy
    have hxnew : R x new := by
      cases hlast : u.getLast? with
      | none =>
        rw [List.getLast?_eq_none_iff] at hlast
        rw [hlast] at hx
        exact absurd hx (List.not_mem_nil x)
      | some l =>
        rcases pairwise_rel_getLast hu hlast x hx with he | hr
        · rw [he]
          exact h1 l hlast
        · exact htr _ _ _ hr (h1 l hlast)
    rcases List.mem_cons.mp hy with h' | h'
    · rw [h']
      exact hxnew
    · exact hcross x hx y h'

/-- The order key of an issue, as characters (empty when absent). -/
def keyOf (i : Issue) : List Char :=
  ((orNull i.frontmatter.order).getD "").data

/-- A defined, structurally valid, non-smallest order key. -/
def goodOrder (i : Issue) : Bool :=
  match orNull i.frontmatter.order with
  | some s => validKey s.data && decide (s.data ≠ SMALLEST_INTEGER)
  | none => false

theorem goodOrder_parts (i : Issue) (h : goodOrder i = true) :
    orderBound i = some (keyOf i) ∧ validKey (keyOf i) = true ∧
      keyOf i ≠ SMALLEST_INTEGER := by
  unfold goodOrder at h
  cases ho : orNull i.frontmatter.order with
  | none =>
    rw [ho] at h
    exact Bool.noConfusion h
  | some s =>
    rw [ho] at h
    rw [Bool.and_eq_true] at h
    have hk : keyOf i = s.data := by
      unfold keyOf
      rw [ho]
      rfl
    refine ⟨?_, ?_, ?_⟩
    · unfold orderBound
      rw [ho, hk]
    · rw [hk]
      exact h.1
    · rw [hk]
      exact of_decide_eq_true h.2

/-- The weaker invariant for generated keys (the smallest integer can be
produced by a decrement and is then stored). -/
def okOrder (i : Issue) : Bool :=
  match orNull i.frontmatter.order with
  | some s => validKey s.data
  | none => false

theorem okOrder_parts (i : Issue) (h : okOrder i = true) :
    orderBound i = some (keyOf i) ∧ validKey (keyOf i) = true := by
  unfold okOrder at h
  cases ho : orNull i.frontmatter.order with
  | none =>
    rw [ho] at h
    exact Bool.noConfusion h
  | some s =>
    rw [ho] at h
    have hk : keyOf i = s.data := by
      unfold keyOf
      rw [ho]
      rfl
    refine ⟨?_, ?_⟩
    · unfold orderBound
      rw [ho, hk]
    · rw [hk]
      exact h

theorem goodOrder_ok (i : Issue) (h : goodOrder i = true) :
    okOrder i = true := by
  unfold goodOrder at h
  unfold okOrder
  cases ho : orNull i.frontmatter.order with
  | none =>
    rw [ho] at h
    exact Bool.noConfusion h
  | some s =>
    rw [ho] at h
    rw [Bool.and_eq_true] at h
    exact h.1

theorem get?_some_mem {α : Type} {l : List α} {n : Nat} {a : α}
    (h : l.get? n = some a) : a ∈ l ∧ n < l.length := by
  rw [List.get?_eq_getElem?] at h
  have hlt : n < l.length := by
    by_contra hge
    rw [List.getElem?_eq_none (by omega)] at h
    exact Option.noConfusion h
  have ha : l[n] = a := by
    rw [List.getElem?_eq_getElem hlt] at h
    injection h
  rw [← ha]
  exact ⟨List.getElem_mem hlt, hlt⟩

/-- C2: on a list of open issues with defined, valid order keys, sorted
strictly ascending by those keys, `computeOrderKey` with `after` (resp.
`before`) fails with the exact not-found message naming the requested id
when no open issue has the zero-padded id, and otherwise returns a key
strictly above the target's key and strictly below the following issue's
key when one exists (resp. strictly below the target's and strictly above
the preceding issue's). -/
theorem C2_computeOrderKey_bounds (issues : List Issue) (aid bid : String)
    (hgood : ∀ i ∈ issues, goodOrder i = true)
    (hsorted : issues.Pairwise
      (fun x y => ltCU (keyOf x) (keyOf y) = true)) :
    (issues.findIdx? (fun i => i.id = padStart aid 4 '0') = none →
      computeOrderKey issues ⟨none, some aid, false, false⟩ none =
        Except.error ("Issue #" ++ aid ++
          " not found among open issues. The --after target must be an open issue.")) ∧
    (∀ idx target,
      issues.findIdx? (fun i => i.id = padStart aid 4 '0') = some idx →
      issues.get? idx = some target →
      ∃ k, computeOrderKey issues ⟨none, some aid, false, false⟩ none =
          Except.ok k ∧
        ltCU (keyOf target) k.data = true ∧
        (∀ next, issues.get? (idx + 1) = some next →
          ltCU k.data (keyOf next) = true)) ∧
    (issues.findIdx? (fun i => i.id = padStart bid 4 '0') = none →
      computeOrderKey issues ⟨some bid, none, false, false⟩ none =
        Except.error ("Issue #" ++ bid ++
          " not found among open issues. The --before target must be an open issue.")) ∧
    (∀ idx target,
      issues.findIdx? (fun i => i.id = padStart bid 4 '0') = some idx →
      issues.get? idx = some target →
      ∃ k, computeOrderKey issues ⟨some bid, none, false, false⟩ none =
          Except.ok k ∧
        ltCU k.data (keyOf target) = true ∧
        (∀ prev, 0 < idx → issues.get? (idx - 1) = some prev →
          ltCU (keyOf prev) k.data = true)) := by
  have hrel := List.pairwise_iff_getElem.mp hsorted
  refine ⟨?_, ?_, ?_, ?_⟩
  · intro hfind
    simp only [computeOrderKey, hfind, Bool.false_eq_true, reduceIte]
  · intro idx target hfind hget
    obtain ⟨hmem, hlt⟩ := get?_some_mem hget
    obtain ⟨hbnd, hvk, hns⟩ := goodOrder_parts target (hgood target hmem)
    cases hnext : issues.get? (idx + 1) with
    | some next =>
      obtain ⟨hmemn, hltn⟩ := get?_some_mem hnext
      obtain ⟨hbndn, hvkn, hnsn⟩ := goodOrder_parts next (hgood next hmemn)
      have hord : ltCU (keyOf target) (keyOf next) = true := by
        have h1 : issues[idx] = target := by
          rw [List.get?_eq_getElem?, List.getElem?_eq_getElem hlt] at hget
          injection hget
        have h2 : issues[idx + 1] = next := by
          rw [List.get?_eq_getElem?, List.getElem?_eq_getElem hltn] at hnext
          injection hnext
        have := hrel idx (idx + 1) hlt hltn (by omega)
        rwa [h1, h2] at this
      obtain ⟨key, hkeq, hkv, hlo, hhi⟩ := gkb_ok (some (keyOf target))
        (some (keyOf next))
        (fun ka h => by
          injection h with h
          subst h
          exact ⟨hvk, hns⟩)
        (fun kb h => by
          injection h with h
          subst h
          exact ⟨hvkn, hnsn⟩)
        (fun ka kb h1 h2 => by
          injection h1 with h1
          injection h2 with h2
          subst h1
          subst h2
          exact hord)
      refine ⟨String.mk key, ?_, hlo _ rfl, ?_⟩
      · simp only [computeOrderKey, hfind, hget, hnext, hbnd, hbndn, hkeq]
        rfl
      · intro next' hnext'
        injection hnext' with hnext'
        subst hnext'
        exact hhi _ rfl
    | none =>
      obtain ⟨key, hkeq, hkv, hlo, _⟩ := gkb_ok (some (keyOf target)) none
        (fun ka h => by
          injection h with h
          subst h
          exact ⟨hvk, hns⟩)
        (fun kb h => Option.noConfusion h)
        (fun ka kb _ h2 => Option.noConfusion h2)
      refine ⟨String.mk key, ?_, hlo _ rfl, ?_⟩
      · simp only [computeOrderKey, hfind, hget, hnext, hbnd, hkeq]
        rfl
      · intro next' hnext'
        exact Option.noConfusion hnext'
  · intro hfind
    simp only [computeOrderKey, hfind, Bool.false_eq_true, reduceIte]
  · intro idx target hfind hget
    obtain ⟨hmem, hlt⟩ := get?_some_mem hget
    obtain ⟨hbnd, hvk, hns⟩ := goodOrder_parts target (hgood target hmem)
    have h1 : issues[idx] = target := by
      rw [List.get?_eq_getElem?, List.getElem?_eq_getElem hlt] at hget
      injection hget
    by_cases hpos : 0 < idx
    · cases hprev : issues.get? (idx - 1) with
      | some prev =>
        obtain ⟨hmemp, hltp⟩ := get?_some_mem hprev
        obtain ⟨hbndp, hvkp, hnsp⟩ :=
          goodOrder_parts prev (hgood prev hmemp)
        have hord : ltCU (keyOf prev) (keyOf target) = true := by
          have h2 : issues[idx - 1] = prev := by
            rw [List.get?_eq_getElem?,
              List.getElem?_eq_getElem hltp] at hprev
            injection hprev
          have := hrel (idx - 1) idx hltp hlt (by omega)
          rwa [h1, h2] at this
        obtain ⟨key, hkeq, hkv, hlo, hhi⟩ := gkb_ok (some (keyOf prev))
          (some (keyOf target))
          (fun ka h => by
            injection h with h
            subst h
            exact ⟨hvkp, hnsp⟩)
          (fun kb h => by
            injection h with h
            subst h
            exact ⟨hvk, hns⟩)
          (fun ka kb ha' hb' => by
            injection ha' with ha'
            injection hb' with hb'
            subst ha'
            subst hb'
            exact hord)
        refine ⟨String.mk key, ?_, hhi _ rfl, ?_⟩
        · simp only [computeOrderKey, hfind, hget, hprev, hbnd, hbndp]
          rw [if_pos hpos]
          simp only [hprev, hbndp, hkeq]
          rfl
        · intro prev' _ hprev'
          injection hprev' with hprev'
          subst hprev'
          exact hlo _ rfl
      | none =>
        exfalso
        have : idx - 1 < issues.length := by omega
        rw [List.get?_eq_getElem?, List.getElem?_eq_getElem this] at hprev
        exact Option.noConfusion hprev
    · obtain ⟨key, hkeq, hkv, _, hhi⟩ := gkb_ok none (some (keyOf target))
        (fun ka h => Option.noConfusion h)
        (fun kb h => by
          injection h with h
          subst h
          exact ⟨hvk, hns⟩)
        (fun ka kb h1' _ => Option.noConfusion h1')
      refine ⟨String.mk key, ?_, hhi _ rfl, ?_⟩
      · simp only [computeOrderKey, hfind, hget, hbnd]
        rw [if_neg hpos]
        simp only [hkeq]
        rfl
      · intro prev' hpos' _
        exact absurd hpos' hpos

theorem validKey_ne_nil (k : List Char) (h : validKey k = true) :
    k ≠ [] := by
  obtain ⟨_, i, _, _, hine, hsplit, _⟩ := validKey_parts k h
  intro h0
  rw [h0] at hsplit
  exact hine (List.append_eq_nil.mp hsplit.symm).1

/-- One roadmap insertion request, as issued against `computeOrderKey`. -/
inductive InsReq where
  | first : InsReq
  | last : InsReq
  | after (id : String) : InsReq
  | before (id : String) : InsReq
deriving Repr, DecidableEq

def optionsOf : InsReq → OrderOptions
  | InsReq.first => ⟨none, none, true, false⟩
  | InsReq.last => ⟨none, none, false, true⟩
  | InsReq.after i => ⟨none, some i, false, false⟩
  | InsReq.before i => ⟨some i, none, false, false⟩

/-- A fresh open issue carrying a computed order key. -/
def mkOpenIssue (id k : String) : Issue :=
  ⟨id, id ++ "-i.md",
   ⟨some id, some "high", none, some "bug", none, some "open", some k,
    some "2026-01-01T00:00:00", none⟩, ""⟩

theorem mkOpenIssue_order (nid : String) (key : List Char)
    (hne : key ≠ []) :
    orNull (mkOpenIssue nid (String.mk key)).frontmatter.order =
      some (String.mk key) ∧
    keyOf (mkOpenIssue nid (String.mk key)) = key := by
  have hne' : String.mk key ≠ "" := by
    intro h0
    exact hne (congrArg String.data h0)
  have htr : truthy (some (String.mk key)) = true := by
    simp [truthy, hne']
  constructor
  · show orNull (some (String.mk key)) = some (String.mk key)
    unfold orNull
    rw [if_pos htr]
  · show ((orNull (some (String.mk key))).getD "").data = key
    unfold orNull
    rw [if_pos htr]
    rfl

theorem mkOpenIssue_okOrder (nid : String) (key : List Char)
    (hv : validKey key = true) :
    okOrder (mkOpenIssue nid (String.mk key)) = true := by
  unfold okOrder
  rw [(mkOpenIssue_order nid key (validKey_ne_nil key hv)).1]
  exact hv

/-- Perform one insertion: compute the key, then place the new issue at
the intended position in the roadmap (failures of `computeOrderKey`, or a
request whose target id is absent, abort). -/
def applyInsertion (st : List Issue) (r : InsReq) (newId : String) :
    Option (List Issue) :=
  match computeOrderKey st (optionsOf r) none with
  | Except.error _ => none
  | Except.ok k =>
    let new := mkOpenIssue newId k
    match r with
    | InsReq.first => some (new :: st)
    | InsReq.last => some (st ++ [new])
    | InsReq.after aid =>
      match st.findIdx? (fun i => i.id = padStart aid 4 '0') with
      | some idx => some (st.take (idx + 1) ++ new :: st.drop (idx + 1))
      | none => none
    | InsReq.before bid =>
      match st.findIdx? (fun i => i.id = padStart bid 4 '0') with
      | some idx => some (st.take idx ++ new :: st.drop idx)
      | none => none

def applyInsertions : List Issue → List (InsReq × String) →
    Option (List Issue)
  | st, [] => some st
  | st, (r, nid) :: rest =>
    match applyInsertion st r nid with
    | some st2 => applyInsertions st2 rest
    | none => none

/-- One insertion preserves the roadmap invariant: every issue keeps a
structurally valid key and the list stays strictly sorted by key. -/
theorem applyInsertion_inv (st : List Issue) (r : InsReq) (nid : String)
    (st' : List Issue)
    (hok : ∀ i ∈ st, okOrder i = true)
    (hpw : st.Pairwise (fun x y => ltCU (keyOf x) (keyOf y) = true))
    (happ : applyInsertion st r nid = some st') :
    (∀ i ∈ st', okOrder i = true) ∧
    st'.Pairwise (fun x y => ltCU (keyOf x) (keyOf y) = true) := by
  have htr : ∀ x y z : Issue, ltCU (keyOf x) (keyOf y) = true →
      ltCU (keyOf y) (keyOf z) = true →
      ltCU (keyOf x) (keyOf z) = true :=
    fun x y z hxy hyz => ltCU_trans _ _ _ hxy hyz
  match r with
  | InsReq.first =>
    cases st with
    | nil =>
      have hck : computeOrderKey [] (optionsOf InsReq.first) none =
          Except.ok (String.mk ['a', ZERO]) := rfl
      unfold applyInsertion at happ
      rw [hck] at happ
      simp only [] at happ
      injection happ with happ
      subst happ
      refine ⟨?_, List.pairwise_singleton _ _⟩
      intro i hi
      rw [List.mem_singleton] at hi
      subst hi
      exact mkOpenIssue_okOrder nid ['a', ZERO] (by decide)
    | cons i0 rest =>
      have hck : computeOrderKey (i0 :: rest) (optionsOf InsReq.first)
          none = (generateKeyBetween none (orderBound i0)).map String.mk
          := rfl
      unfold applyInsertion at happ
      rw [hck] at happ
      obtain ⟨hb0, hv0⟩ := okOrder_parts i0
        (hok i0 (List.mem_cons_self _ _))
      cases hg : generateKeyBetween none (orderBound i0) with
      | error e =>
        rw [hg] at happ
        exact Option.noConfusion happ
      | ok key =>
        rw [hg] at happ
        simp only [Except.map] at happ
        injection happ with happ
        subst happ
        obtain ⟨hkv, _, hhi⟩ := gkb_of_ok none (orderBound i0) key
          (fun ka h => Option.noConfusion h)
          (fun kb h => by
            rw [hb0] at h
            injection h with h
            subst h
            exact hv0)
          (fun ka kb h _ => Option.noConfusion h) hg
        have hmk := mkOpenIssue_order nid key (validKey_ne_nil key hkv)
        refine ⟨?_, ?_⟩
        · intro i hi
          rcases List.mem_cons.mp hi with h | h
          · subst h
            exact mkOpenIssue_okOrder nid key hkv
          · exact hok i h
        · apply pairwise_cons_head htr _ _ hpw
          intro x hx
          injection hx with hx
          subst hx
          rw [hmk.2]
          exact hhi (keyOf i0) hb0
  | InsReq.last =>
    cases hlast : st.getLast? with
    | none =>
      rw [List.getLast?_eq_none_iff] at hlast
      subst hlast
      have hck : computeOrderKey [] (optionsOf InsReq.last) none =
          Except.ok (String.mk ['a', ZERO]) := rfl
      unfold applyInsertion at happ
      rw [hck] at happ
      simp only [] at happ
      injection happ with happ
      subst happ
      refine ⟨?_, List.pairwise_singleton _ _⟩
      intro i hi
      rcases List.mem_append.mp hi with h | h
      · exact absurd h (List.not_mem_nil i)
      · rw [List.mem_singleton] at h
        subst h
        exact mkOpenIssue_okOrder nid ['a', ZERO] (by decide)
    | some ilast =>
      have hck : computeOrderKey st (optionsOf InsReq.last) none =
          (generateKeyBetween (orderBound ilast) none).map String.mk := by
        simp only [computeOrderKey, optionsOf, hlast, Bool.false_eq_true,
          reduceIte]
      unfold applyInsertion at happ
      rw [hck] at happ
      obtain ⟨hbl, hvl⟩ := okOrder_parts ilast
        (hok ilast (mem_of_getLast? hlast))
      cases hg : generateKeyBetween (orderBound ilast) none with
      | error e =>
        rw [hg] at happ
        exact Option.noConfusion happ
      | ok key =>
        rw [hg] at happ
        simp only [Except.map] at happ
        injection happ with happ
        subst happ
        obtain ⟨hkv, hlo, _⟩ := gkb_of_ok (orderBound ilast) none key
          (fun ka h => by
            rw [hbl] at h
            injection h with h
            subst h
            exact hvl)
          (fun kb h => Option.noConfusion h)
          (fun ka kb _ h => Option.noConfusion h) hg
        have hmk := mkOpenIssue_order nid key (validKey_ne_nil key hkv)
        refine ⟨?_, ?_⟩
        · intro i hi
          rcases List.mem_append.mp hi with h | h
          · exact hok i h
          · rw [List.mem_singleton] at h
            subst h
            exact mkOpenIssue_okOrder nid key hkv
        · apply pairwise_append_last htr _ _ hpw
          intro x hx
          rw [hlast] at hx
          injection hx with hx
          subst hx
          rw [hmk.2]
          exact hlo (keyOf ilast) hbl
  | InsReq.after aid =>
    cases hfind : st.findIdx? (fun i => i.id = padStart aid 4 '0') with
    | none =>
      have hck : computeOrderKey st (optionsOf (InsReq.after aid)) none =
          Except.error ("Issue #" ++ aid ++
            " not found among open issues. The --after target must be an open issue.") := by
        simp only [computeOrderKey, optionsOf, hfind, Bool.false_eq_true,
          reduceIte]
      unfold applyInsertion at happ
      rw [hck] at happ
      exact Option.noConfusion happ
    | some idx =>
      have hlt : idx < st.length :=
        (List.findIdx?_eq_some_iff_findIdx_eq.mp hfind).1
      have hget : st.get? idx = some st[idx] := by
        rw [List.get?_eq_getElem?, List.getElem?_eq_getElem hlt]
      have hnext : st.get? (idx + 1) = (st.drop (idx + 1)).head? := by
        rw [List.get?_eq_getElem?, List.head?_drop]
      have hst : st = st.take idx ++ st[idx] :: st.drop (idx + 1) := by
        have h1 := List.take_append_drop idx st
        rw [List.drop_eq_getElem_cons hlt] at h1
        exact h1.symm
      have hulen : (st.take idx).length = idx := by
        rw [List.length_take]
        omega
      obtain ⟨hbt, hvt⟩ := okOrder_parts st[idx]
        (hok st[idx] (List.getElem_mem hlt))
      have htake : st.take (idx + 1) =
          st.take idx ++ [st[idx]] := by
        conv_lhs => rw [hst]
        rw [show idx + 1 = (st.take idx).length + 1 from by rw [hulen],
          List.take_append]
        rfl
      have hck : computeOrderKey st (optionsOf (InsReq.after aid)) none =
          (generateKeyBetween (orderBound st[idx])
            (match (st.drop (idx + 1)).head? with
             | some i => orderBound i
             | none => none)).map String.mk := by
        simp only [computeOrderKey, optionsOf, hfind, hget, hnext,
          Bool.false_eq_true, reduceIte]
      unfold applyInsertion at happ
      rw [hck] at happ
      have hside : ∀ key, generateKeyBetween (orderBound st[idx])
          (match (st.drop (idx + 1)).head? with
           | some i => orderBound i
           | none => none) = Except.ok key →
          validKey key = true ∧ ltCU (keyOf st[idx]) key = true ∧
          (∀ y, (st.drop (idx + 1)).head? = some y →
            ltCU key (keyOf y) = true) := by
        intro key hg
        cases hhd : (st.drop (idx + 1)).head? with
        | none =>
          rw [hhd] at hg
          obtain ⟨hkv, hlo, _⟩ := gkb_of_ok (orderBound st[idx]) none key
            (fun ka h => by
              rw [hbt] at h
              injection h with h
              subst h
              exact hvt)
            (fun kb h => Option.noConfusion h)
            (fun ka kb _ h => Option.noConfusion h) hg
          refine ⟨hkv, ?_, ?_⟩
          · exact hlo (keyOf st[idx]) hbt
          · intro y hy
            exact Option.noConfusion hy
        | some nxt =>
          rw [hhd] at hg
          have hnmem : nxt ∈ st := by
            have : nxt ∈ st.drop (idx + 1) := by
              cases hd : st.drop (idx + 1) with
              | nil =>
                rw [hd] at hhd
                exact Option.noConfusion hhd
              | cons x xs =>
                rw [hd] at hhd
                injection hhd with hhd
                subst hhd
                exact List.mem_cons_self _ _
            exact List.mem_of_mem_drop this
          obtain ⟨hbn, hvn⟩ := okOrder_parts nxt (hok nxt hnmem)
          have hord : ltCU (keyOf st[idx]) (keyOf nxt) = true := by
            rw [hst] at hpw
            rw [List.pairwise_append] at hpw
            have := (List.pairwise_cons.mp hpw.2.1).1 nxt
            apply this
            cases hd : st.drop (idx + 1) with
            | nil =>
              rw [hd] at hhd
              exact Option.noConfusion hhd
            | cons x xs =>
              rw [hd] at hhd
              injection hhd with hhd
              subst hhd
              exact List.mem_cons_self _ _
          obtain ⟨hkv, hlo, hhi⟩ := gkb_of_ok (orderBound st[idx])
            (orderBound nxt) key
            (fun ka h => by
              rw [hbt] at h
              injection h with h
              subst h
              exact hvt)
            (fun kb h => by
              rw [hbn] at h
              injection h with h
              subst h
              exact hvn)
            (fun ka kb h1 h2 => by
              rw [hbt] at h1
              rw [hbn] at h2
              injection h1 with h1
              injection h2 with h2
              subst h1
              subst h2
              exact hord) hg
          refine ⟨hkv, hlo (keyOf st[idx]) hbt, ?_⟩
          intro y hy
          injection hy with hy
          subst hy
          exact hhi (keyOf nxt) hbn
      cases hg : generateKeyBetween (orderBound st[idx])
          (match (st.drop (idx + 1)).head? with
           | some i => orderBound i
           | none => none) with
      | error e =>
        rw [hg] at happ
        exact Option.noConfusion happ
      | ok key =>
        rw [hg] at happ
        simp only [Except.map, hfind] at happ
        injection happ with happ
        subst happ
        obtain ⟨hkv, hlo, hhi⟩ := hside key hg
        have hmk := mkOpenIssue_order nid key (validKey_ne_nil key hkv)
        refine ⟨?_, ?_⟩
        · intro i hi
          rcases List.mem_append.mp hi with h | h
          · exact hok i (List.mem_of_mem_take h)
          · rcases List.mem_cons.mp h with h' | h'
            · subst h'
              exact mkOpenIssue_okOrder nid key hkv
            · exact hok i (List.mem_of_mem_drop h')
        · rw [htake, List.append_assoc, List.singleton_append]
          apply pairwise_insert_between htr _ _ _ _ (by rw [← hst]; exact hpw)
          · rw [hmk.2]
            exact hlo
          · intro y hy
            rw [hmk.2]
            exact hhi y hy
  | InsReq.before bid =>
    cases hfind : st.findIdx? (fun i => i.id = padStart bid 4 '0') with
    | none =>
      have hck : computeOrderKey st (optionsOf (InsReq.before bid)) none =
          Except.error ("Issue #" ++ bid ++
            " not found among open issues. The --before target must be an open issue.") := by
        simp only [computeOrderKey, optionsOf, hfind, Bool.false_eq_true,
          reduceIte]
      unfold applyInsertion at happ
      rw [hck] at happ
      exact Option.noConfusion happ
    | some idx =>
      have hlt : idx < st.length :=
        (List.findIdx?_eq_some_iff_findIdx_eq.mp hfind).1
      have hget : st.get? idx = some st[idx] := by
        rw [List.get?_eq_getElem?, List.getElem?_eq_getElem hlt]
      have hst : st = st.take idx ++ st[idx] :: st.drop (idx + 1) := by
        have h1 := List.take_append_drop idx st
        rw [List.drop_eq_getElem_cons hlt] at h1
        exact h1.symm
      have hulen : (st.take idx).length = idx := by
        rw [List.length_take]
        omega
      have hdropidx : st.drop idx = st[idx] :: st.drop (idx + 1) :=
        List.drop_eq_getElem_cons hlt
      obtain ⟨hbt, hvt⟩ := okOrder_parts st[idx]
        (hok st[idx] (List.getElem_mem hlt))
      have hrel := List.pairwise_iff_getElem.mp hpw
      by_cases hpos : 0 < idx
      · have hltp : idx - 1 < st.length := by omega
        have hprev : st.get? (idx - 1) = some st[idx - 1] := by
          rw [List.get?_eq_getElem?, List.getElem?_eq_getElem hltp]
        obtain ⟨hbp, hvp⟩ := okOrder_parts st[idx - 1]
          (hok st[idx - 1] (List.getElem_mem hltp))
        have hord : ltCU (keyOf st[idx - 1]) (keyOf st[idx]) = true :=
          hrel (idx - 1) idx hltp hlt (by omega)
        have hck : computeOrderKey st (optionsOf (InsReq.before bid)) none
            = (generateKeyBetween (orderBound st[idx - 1])
              (orderBound st[idx])).map String.mk := by
          simp only [computeOrderKey, optionsOf, hfind, hget,
            Bool.false_eq_true, reduceIte]
          rw [if_pos hpos]
          simp only [hprev]
        unfold applyInsertion at happ
        rw [hck] at happ
        cases hg : generateKeyBetween (orderBound st[idx - 1])
            (orderBound st[idx]) with
        | error e =>
          rw [hg] at happ
          exact Option.noConfusion happ
        | ok key =>
          rw [hg] at happ
          simp only [Except.map, hfind] at happ
          injection happ with happ
          subst happ
          obtain ⟨hkv, hlo, hhi⟩ := gkb_of_ok (orderBound st[idx - 1])
            (orderBound st[idx]) key
            (fun ka h => by
              rw [hbp] at h
              injection h with h
              subst h
              exact hvp)
            (fun kb h => by
              rw [hbt] at h
              injection h with h
              subst h
              exact hvt)
            (fun ka kb h1 h2 => by
              rw [hbp] at h1
              rw [hbt] at h2
              injection h1 with h1
              injection h2 with h2
              subst h1
              subst h2
              exact hord) hg
          have hmk := mkOpenIssue_order nid key (validKey_ne_nil key hkv)
          have hulast : (st.take idx).getLast? = some st[idx - 1] := by
            rw [List.getLast?_eq_getElem?, hulen, List.getElem?_take]
            rw [if_pos (by omega), List.getElem?_eq_getElem hltp]
          refine ⟨?_, ?_⟩
          · intro i hi
            rcases List.mem_append.mp hi with h | h
            · exact hok i (List.mem_of_mem_take h)
            · rcases List.mem_cons.mp h with h' | h'
              · subst h'
                exact mkOpenIssue_okOrder nid key hkv
              · exact hok i (List.mem_of_mem_drop h')
          · rw [hdropidx]
            apply pairwise_insert_before htr _ _ _ _
              (by rw [← hst]; exact hpw)
            · rw [hmk.2]
              exact hhi (keyOf st[idx]) hbt
            · intro x hx
              rw [hulast] at hx
              injection hx with hx
              subst hx
              rw [hmk.2]
              exact hlo (keyOf st[idx - 1]) hbp
      · have hidx0 : idx = 0 := by omega
        subst hidx0
        have hck : computeOrderKey st (optionsOf (InsReq.before bid)) none
            = (generateKeyBetween none (orderBound st[0])).map String.mk
            := by
          simp only [computeOrderKey, optionsOf, hfind, hget,
            Bool.false_eq_true, reduceIte]
          rw [if_neg hpos]
        unfold applyInsertion at happ
        rw [hck] at happ
        cases hg : generateKeyBetween none (orderBound st[0]) with
        | error e =>
          rw [hg] at happ
          exact Option.noConfusion happ
        | ok key =>
          rw [hg] at happ
          simp only [Except.map, hfind] at happ
          injection happ with happ
          subst happ
          obtain ⟨hkv, _, hhi⟩ := gkb_of_ok none (orderBound st[0]) key
            (fun ka h => Option.noConfusion h)
            (fun kb h => by
              rw [hbt] at h
              injection h with h
              subst h
              exact hvt)
            (fun ka kb h _ => Option.noConfusion h) hg
          have hmk := mkOpenIssue_order nid key (validKey_ne_nil key hkv)
          refine ⟨?_, ?_⟩
          · intro i hi
            rcases List.mem_append.mp hi with h | h
            · exact hok i (List.mem_of_mem_take h)
            · rcases List.mem_cons.mp h with h' | h'
              · subst h'
                exact mkOpenIssue_okOrder nid key hkv
              · exact hok i (List.mem_of_mem_drop h')
          · rw [List.take_zero, List.nil_append, List.drop_zero]
            apply pairwise_cons_head htr _ _ hpw
            intro x hx
            have hh := List.head?_drop st 0
            rw [List.drop_zero] at hh
            rw [List.getElem?_eq_getElem hlt] at hh
            rw [hh] at hx
            injection hx with hx
            subst hx
            rw [hmk.2]
            exact hhi (keyOf st[0]) hbt

theorem findIdx?_prefix_stable {α : Type} (p : α → Bool)
    (u rest rest' : List α) (idx : Nat)
    (h : (u ++ rest).findIdx? p = some idx) (hidx : idx < u.length) :
    (u ++ rest').findIdx? p = some idx := by
  rw [List.findIdx?_append] at h
  rw [List.findIdx?_append]
  cases hu : u.findIdx? p with
  | none =>
    rw [hu] at h
    cases hr : rest.findIdx? p with
    | none =>
      rw [hr] at h
      exact Option.noConfusion h
    | some j =>
      rw [hr] at h
      have h2 : some (j + u.length) = some idx := h
      injection h2 with h2
      exact absurd h2 (by omega)
  | some j =>
    rw [hu] at h
    have h2 : some j = some idx := h
    exact h2

theorem mkOpenIssue_goodOrder (nid : String) (key : List Char)
    (hv : validKey key = true) (hns : key ≠ SMALLEST_INTEGER) :
    goodOrder (mkOpenIssue nid (String.mk key)) = true := by
  unfold goodOrder
  rw [(mkOpenIssue_order nid key (validKey_ne_nil key hv)).1]
  show (validKey key && decide (key ≠ SMALLEST_INTEGER)) = true
  rw [Bool.and_eq_true]
  exact ⟨hv, decide_eq_true hns⟩

theorem ltCU_replicate_zero : ∀ (v f : List Char),
    (∀ c ∈ v, c ∈ BASE_62_DIGITS) →
    v ≠ List.replicate v.length '0' →
    ltCU (List.replicate v.length '0') (v ++ f) = true
  | [], _, _, hne => absurd rfl hne
  | c :: v', f, hA, hne => by
    have hc := hA c (List.mem_cons_self c v')
    have h48 : 48 ≤ c.toNat := (alpha_spec c hc).2.2.2.1
    rw [List.length_cons, List.replicate_succ, List.cons_append]
    by_cases hceq : c = '0'
    · subst hceq
      rw [ltCU_cons_same]
      apply ltCU_replicate_zero v' f
        (fun d hd => hA d (List.mem_cons_of_mem _ hd))
      intro h0
      apply hne
      rw [List.length_cons, List.replicate_succ]
      rw [← h0]
    · apply ltCU_cons_of_lt
      have e : ('0'.toNat : Nat) = 48 := rfl
      have hne48 : c.toNat ≠ 48 := fun hh =>
        hceq (char_toNat_inj c '0' (hh.trans rfl))
      omega

/-- Every structurally valid key other than the smallest integer lies
strictly above the smallest integer in code-unit order. -/
theorem smallest_min (k : List Char) (hv : validKey k = true)
    (hne : k ≠ SMALLEST_INTEGER) :
    ltCU SMALLEST_INTEGER k = true := by
  obtain ⟨hA, i, hp, hvi, hine, hsplit, hz⟩ := validKey_parts k hv
  obtain ⟨h, t, hi, hl⟩ := validateInteger_ok i hvi
  have hiA : ∀ c ∈ i, c ∈ BASE_62_DIGITS := by
    intro c hc
    apply hA
    rw [hsplit]
    exact List.mem_append.mpr (Or.inl hc)
  have hmain : ltCU SMALLEST_INTEGER (i ++ k.drop i.length) = true := by
    rcases getIntegerLength_ok h i.length hl with
      ⟨h97, h122, hlen⟩ | ⟨h65, h90, hlen⟩
    · show ltCU ('A' :: List.replicate 26 ZERO) (i ++ k.drop i.length) =
        true
      rw [hi, List.cons_append]
      apply ltCU_cons_of_lt
      have e : ('A'.toNat : Nat) = 65 := rfl
      omega
    · by_cases hA65 : h.toNat = 65
      · have hh : h = 'A' := char_toNat_inj h 'A' (hA65.trans rfl)
        subst hh
        have hic : i.length = t.length + 1 := by
          rw [hi]
          rfl
        have htlen : t.length = 26 := by
          have eA : ('A'.toNat : Nat) = 65 := rfl
          omega
        have htA : ∀ c ∈ t, c ∈ BASE_62_DIGITS := by
          intro c hc
          apply hiA
          rw [hi]
          exact List.mem_cons_of_mem _ hc
        by_cases ht0 : t = List.replicate t.length '0'
        · have hiS : i = SMALLEST_INTEGER := by
            rw [hi, ht0, htlen]
            rfl
          have hf : k.drop i.length ≠ [] := by
            intro h0
            apply hne
            rw [hsplit, h0, List.append_nil, hiS]
          rw [hiS] at hf ⊢
          exact ltCU_self_append _ _ hf
        · show ltCU ('A' :: List.replicate 26 ZERO)
            (i ++ k.drop i.length) = true
          rw [hi, List.cons_append, ltCU_cons_same]
          rw [show (26 : Nat) = t.length from htlen.symm]
          exact ltCU_replicate_zero t (k.drop ('A' :: t).length) htA ht0
      · show ltCU ('A' :: List.replicate 26 ZERO) (i ++ k.drop i.length) =
          true
        rw [hi, List.cons_append]
        apply ltCU_cons_of_lt
        have e : ('A'.toNat : Nat) = 65 := rfl
        omega
  rw [hsplit]
  exact hmain

/-- With a target present in a well-keyed sorted roadmap, an `after`
insertion always succeeds and places a fresh issue right behind the
target, with a valid non-smallest key strictly between the neighbours. -/
theorem applyInsertion_after_ok (st : List Issue) (tid nid : String)
    (idx : Nat)
    (hfind : st.findIdx? (fun i => i.id = padStart tid 4 '0') = some idx)
    (hgood : ∀ i ∈ st, goodOrder i = true)
    (hpw : st.Pairwise (fun x y => ltCU (keyOf x) (keyOf y) = true)) :
    ∃ key, applyInsertion st (InsReq.after tid) nid =
        some (st.take (idx + 1) ++
          mkOpenIssue nid (String.mk key) :: st.drop (idx + 1)) ∧
      validKey key = true ∧ key ≠ SMALLEST_INTEGER ∧
      (∀ target, st.get? idx = some target →
        ltCU (keyOf target) key = true) ∧
      (∀ y, st.get? (idx + 1) = some y → ltCU key (keyOf y) = true) := by
  have hlt : idx < st.length :=
    (List.findIdx?_eq_some_iff_findIdx_eq.mp hfind).1
  have hget : st.get? idx = some st[idx] := by
    rw [List.get?_eq_getElem?, List.getElem?_eq_getElem hlt]
  have hnext : st.get? (idx + 1) = (st.drop (idx + 1)).head? := by
    rw [List.get?_eq_getElem?, List.head?_drop]
  obtain ⟨hbt, hvt, hnst⟩ := goodOrder_parts st[idx]
    (hgood st[idx] (List.getElem_mem hlt))
  have hSt : ltCU SMALLEST_INTEGER (keyOf st[idx]) = true :=
    smallest_min (keyOf st[idx]) hvt hnst
  cases hhd : (st.drop (idx + 1)).head? with
  | none =>
    have hck : computeOrderKey st (optionsOf (InsReq.after tid)) none =
        (generateKeyBetween (orderBound st[idx]) none).map String.mk := by
      simp only [computeOrderKey, optionsOf, hfind, hget, hnext, hhd,
        Bool.false_eq_true, reduceIte]
    obtain ⟨k, hgk, hkv, hlo, _⟩ := gkb_ok (orderBound st[idx]) none
      (fun ka h => by
        rw [hbt] at h
        injection h with h
        subst h
        exact ⟨hvt, hnst⟩)
      (fun kb h => Option.noConfusion h)
      (fun ka kb _ h => Option.noConfusion h)
    have hlok : ltCU (keyOf st[idx]) k = true := hlo (keyOf st[idx]) hbt
    have hnsk : k ≠ SMALLEST_INTEGER := by
      intro h0
      subst h0
      have hcon := ltCU_trans _ _ _ hSt hlok
      rw [ltCU_irrefl] at hcon
      exact Bool.noConfusion hcon
    refine ⟨k, ?_, hkv, hnsk, ?_, ?_⟩
    · unfold applyInsertion
      rw [hck, hgk]
      simp only [Except.map, hfind]
    · intro target htg
      rw [hget] at htg
      injection htg with htg
      subst htg
      exact hlok
    · intro y hy
      rw [hnext, hhd] at hy
      exact Option.noConfusion hy
  | some nxt =>
    have hnmem : nxt ∈ st := by
      have h1 : nxt ∈ st.drop (idx + 1) := by
        cases hd : st.drop (idx + 1) with
        | nil =>
          rw [hd] at hhd
          exact Option.noConfusion hhd
        | cons x xs =>
          rw [hd] at hhd
          injection hhd with hhd
          subst hhd
          exact List.mem_cons_self _ _
      exact List.mem_of_mem_drop h1
    obtain ⟨hbn, hvn, hnsn⟩ := goodOrder_parts nxt (hgood nxt hnmem)
    have hst : st = st.take idx ++ st[idx] :: st.drop (idx + 1) := by
      have h1 := List.take_append_drop idx st
      rw [List.drop_eq_getElem_cons hlt] at h1
      exact h1.symm
    have hord : ltCU (keyOf st[idx]) (keyOf nxt) = true := by
      rw [hst] at hpw
      rw [List.pairwise_append] at hpw
      have h2 := (List.pairwise_cons.mp hpw.2.1).1 nxt
      apply h2
      cases hd : st.drop (idx + 1) with
      | nil =>
        rw [hd] at hhd
        exact Option.noConfusion hhd
      | cons x xs =>
        rw [hd] at hhd
        injection hhd with hhd
        subst hhd
        exact List.mem_cons_self _ _
    have hck : computeOrderKey st (optionsOf (InsReq.after tid)) none =
        (generateKeyBetween (orderBound st[idx]) (orderBound nxt)).map
          String.mk := by
      simp only [computeOrderKey, optionsOf, hfind, hget, hnext, hhd,
        Bool.false_eq_true, reduceIte]
    obtain ⟨k, hgk, hkv, hlo, hhi⟩ := gkb_ok (orderBound st[idx])
      (orderBound nxt)
      (fun ka h => by
        rw [hbt] at h
        injection h with h
        subst h
        exact ⟨hvt, hnst⟩)
      (fun kb h => by
        rw [hbn] at h
        injection h with h
        subst h
        exact ⟨hvn, hnsn⟩)
      (fun ka kb h1 h2 => by
        rw [hbt] at h1
        rw [hbn] at h2
        injection h1 with h1
        injection h2 with h2
        subst h1
        subst h2
        exact hord)
    have hlok : ltCU (keyOf st[idx]) k = true := hlo (keyOf st[idx]) hbt
    have hnsk : k ≠ SMALLEST_INTEGER := by
      intro h0
      subst h0
      have hcon := ltCU_trans _ _ _ hSt hlok
      rw [ltCU_irrefl] at hcon
      exact Bool.noConfusion hcon
    refine ⟨k, ?_, hkv, hnsk, ?_, ?_⟩
    · unfold applyInsertion
      rw [hck, hgk]
      simp only [Except.map, hfind]
    · intro target htg
      rw [hget] at htg
      injection htg with htg
      subst htg
      exact hlok
    · intro y hy
      rw [hnext, hhd] at hy
      injection hy with hy
      subst hy
      exact hhi (keyOf nxt) hbn

theorem applyInsertions_inv : ∀ (reqs : List (InsReq × String))
    (st st' : List Issue),
    (∀ i ∈ st, okOrder i = true) →
    st.Pairwise (fun x y => ltCU (keyOf x) (keyOf y) = true) →
    applyInsertions st reqs = some st' →
    (∀ i ∈ st', okOrder i = true) ∧
    st'.Pairwise (fun x y => ltCU (keyOf x) (keyOf y) = true)
  | [], st, st', hok, hpw, happ => by
    injection happ with happ
    subst happ
    exact ⟨hok, hpw⟩
  | (r, nid) :: rest, st, st', hok, hpw, happ => by
    have happ2 : (match applyInsertion st r nid with
        | some st2 => applyInsertions st2 rest
        | none => none) = some st' := happ
    cases h1 : applyInsertion st r nid with
    | none =>
      rw [h1] at happ2
      exact Option.noConfusion happ2
    | some st1 =>
      rw [h1] at happ2
      obtain ⟨hok1, hpw1⟩ := applyInsertion_inv st r nid st1 hok hpw h1
      exact applyInsertions_inv rest st1 st' hok1 hpw1 happ2

theorem pairwise_middle {α : Type} {R : α → α → Prop} (u v w : List α)
    (h : (u ++ v ++ w).Pairwise R) : v.Pairwise R := by
  rw [List.pairwise_append] at h
  have h2 := h.1
  rw [List.pairwise_append] at h2
  exact h2.2.1

theorem pairwise_keys_ne (l : List Issue)
    (h : l.Pairwise (fun x y => ltCU (keyOf x) (keyOf y) = true)) :
    l.Pairwise (fun x y => keyOf x ≠ keyOf y) := by
  refine h.imp ?_
  intro a b hab heq
  rw [heq] at hab
  rw [ltCU_irrefl] at hab
  exact Bool.noConfusion hab

/-- Repeated `after`-the-same-target insertions: every step succeeds, the
new issues pile up directly behind the target, each with a valid
non-smallest key strictly above the target's, and the roadmap stays
strictly sorted (so the generated keys are pairwise distinct). -/
theorem afterN_spec : ∀ (ids : List String) (tid : String)
    (st : List Issue) (idx : Nat),
    (∀ nid ∈ ids, nid ≠ padStart tid 4 '0') →
    st.findIdx? (fun i => i.id = padStart tid 4 '0') = some idx →
    (∀ i ∈ st, goodOrder i = true) →
    st.Pairwise (fun x y => ltCU (keyOf x) (keyOf y) = true) →
    ∃ ins,
      applyInsertions st (ids.map (fun nid => (InsReq.after tid, nid))) =
        some (st.take (idx + 1) ++ ins ++ st.drop (idx + 1)) ∧
      ins.length = ids.length ∧
      (∀ b ∈ ins, goodOrder b = true ∧
        ∀ target, st.get? idx = some target →
          ltCU (keyOf target) (keyOf b) = true) ∧
      (st.take (idx + 1) ++ ins ++ st.drop (idx + 1)).Pairwise
        (fun x y => ltCU (keyOf x) (keyOf y) = true) ∧
      ins.Pairwise (fun x y => keyOf x ≠ keyOf y)
  | [], tid, st, idx, hids, hfind, hgood, hpw => by
    have he : st.take (idx + 1) ++ [] ++ st.drop (idx + 1) = st := by
      rw [List.append_nil, List.take_append_drop]
    refine ⟨[], ?_, rfl, ?_, ?_, List.Pairwise.nil⟩
    · exact congrArg some he.symm
    · intro b hb
      exact absurd hb (List.not_mem_nil b)
    · rw [he]
      exact hpw
  | nid :: rest, tid, st, idx, hids, hfind, hgood, hpw => by
    have hlt : idx < st.length :=
      (List.findIdx?_eq_some_iff_findIdx_eq.mp hfind).1
    have htklen : (st.take (idx + 1)).length = idx + 1 := by
      rw [List.length_take]
      omega
    obtain ⟨key, happ1, hkv, hns, hlo, hhi⟩ :=
      applyInsertion_after_ok st tid nid idx hfind hgood hpw
    have hnewgood : goodOrder (mkOpenIssue nid (String.mk key)) = true :=
      mkOpenIssue_goodOrder nid key hkv hns
    have hst1good : ∀ i ∈ st.take (idx + 1) ++
        mkOpenIssue nid (String.mk key) :: st.drop (idx + 1),
        goodOrder i = true := by
      intro i hi
      rcases List.mem_append.mp hi with h | h
      · exact hgood i (List.mem_of_mem_take h)
      · rcases List.mem_cons.mp h with h' | h'
        · rw [h']
          exact hnewgood
        · exact hgood i (List.mem_of_mem_drop h')
    have hst1pw : (st.take (idx + 1) ++
        mkOpenIssue nid (String.mk key) :: st.drop (idx + 1)).Pairwise
        (fun x y => ltCU (keyOf x) (keyOf y) = true) :=
      (applyInsertion_inv st (InsReq.after tid) nid _
        (fun i hi => goodOrder_ok i (hgood i hi)) hpw happ1).2
    have hst1find : (st.take (idx + 1) ++
        mkOpenIssue nid (String.mk key) :: st.drop (idx + 1)).findIdx?
        (fun i => i.id = padStart tid 4 '0') = some idx := by
      apply findIdx?_prefix_stable _ _ (st.drop (idx + 1))
      · rw [List.take_append_drop]
        exact hfind
      · rw [htklen]
        omega
    obtain ⟨ins', happ', hlen', hprop', hpw', _⟩ :=
      afterN_spec rest tid
        (st.take (idx + 1) ++ mkOpenIssue nid (String.mk key) ::
          st.drop (idx + 1)) idx
        (fun n hn => hids n (List.mem_cons_of_mem _ hn))
        hst1find hst1good hst1pw
    have htake1 := List.take_left (st.take (idx + 1))
      (mkOpenIssue nid (String.mk key) :: st.drop (idx + 1))
    rw [htklen] at htake1
    have hdrop1 := List.drop_left (st.take (idx + 1))
      (mkOpenIssue nid (String.mk key) :: st.drop (idx + 1))
    rw [htklen] at hdrop1
    have hget : st.get? idx = some st[idx] := by
      rw [List.get?_eq_getElem?, List.getElem?_eq_getElem hlt]
    have hget1 : (st.take (idx + 1) ++ mkOpenIssue nid (String.mk key) ::
        st.drop (idx + 1)).get? idx = some st[idx] := by
      rw [List.get?_eq_getElem?]
      rw [List.getElem?_append]
      rw [if_pos (show idx < (st.take (idx + 1)).length from by
        rw [htklen]
        omega)]
      rw [List.getElem?_take]
      rw [if_pos (by omega)]
      rw [List.getElem?_eq_getElem hlt]
    have hfinal : (st.take (idx + 1) ++
        mkOpenIssue nid (String.mk key) :: st.drop (idx + 1)).take
          (idx + 1) ++ ins' ++
        (st.take (idx + 1) ++ mkOpenIssue nid (String.mk key) ::
          st.drop (idx + 1)).drop (idx + 1) =
        st.take (idx + 1) ++
          (ins' ++ [mkOpenIssue nid (String.mk key)]) ++
          st.drop (idx + 1) := by
      rw [htake1, hdrop1]
      simp [List.append_assoc]
    refine ⟨ins' ++ [mkOpenIssue nid (String.mk key)], ?_, ?_, ?_, ?_, ?_⟩
    · rw [List.map_cons]
      simp only [applyInsertions, happ1]
      rw [happ']
      exact congrArg some hfinal
    · simp [List.length_append, hlen']
    · intro b hb
      rcases List.mem_append.mp hb with h | h
      · obtain ⟨hg', hrel'⟩ := hprop' b h
        refine ⟨hg', ?_⟩
        intro target htg
        rw [hget] at htg
        injection htg with htg
        subst htg
        exact hrel' st[idx] hget1
      · rw [List.mem_singleton] at h
        subst h
        refine ⟨hnewgood, ?_⟩
        intro target htg
        rw [(mkOpenIssue_order nid key (validKey_ne_nil key hkv)).2]
        exact hlo target htg
    · rw [← hfinal]
      exact hpw'
    · apply pairwise_keys_ne
      apply pairwise_middle (st.take (idx + 1)) _ (st.drop (idx + 1))
      rw [← hfinal]
      exact hpw'

/-- C1: for every sequence of roadmap insertions driven by
`computeOrderKey` with any mix of first/last/after/before requests
(each returned key stored as the `order` of a new open issue placed at
the intended position), every successful run keeps all stored keys
structurally valid and the roadmap strictly sorted by key in code-unit
(string) order, so the keys sorted lexicographically reproduce exactly
the intended insertion positions; and for any number of consecutive
insertions after one fixed target (100 and 1000 included) every step
succeeds and the new issues carry valid, pairwise-distinct keys, each
strictly greater than the target's key and strictly ordered among
themselves as placed. -/
theorem C1_insertion_sequences_sorted :
    (∀ (reqs : List (InsReq × String)) (st' : List Issue),
      applyInsertions [] reqs = some st' →
      (∀ i ∈ st', okOrder i = true) ∧
      st'.Pairwise (fun x y => ltCU (keyOf x) (keyOf y) = true)) ∧
    (∀ (ids : List String) (tid : String) (st : List Issue) (idx : Nat),
      (∀ nid ∈ ids, nid ≠ padStart tid 4 '0') →
      st.findIdx? (fun i => i.id = padStart tid 4 '0') = some idx →
      (∀ i ∈ st, goodOrder i = true) →
      st.Pairwise (fun x y => ltCU (keyOf x) (keyOf y) = true) →
      ∃ ins,
        applyInsertions st (ids.map (fun nid => (InsReq.after tid, nid)))
          = some (st.take (idx + 1) ++ ins ++ st.drop (idx + 1)) ∧
        ins.length = ids.length ∧
        (∀ b ∈ ins, goodOrder b = true ∧
          ∀ target, st.get? idx = some target →
            ltCU (keyOf target) (keyOf b) = true) ∧
        (st.take (idx + 1) ++ ins ++ st.drop (idx + 1)).Pairwise
          (fun x y => ltCU (keyOf x) (keyOf y) = true) ∧
        ins.Pairwise (fun x y => keyOf x ≠ keyOf y)) :=
  ⟨fun reqs st' happ => applyInsertions_inv reqs [] st'
      (fun i hi => absurd hi (List.not_mem_nil i)) List.Pairwise.nil happ,
   afterN_spec⟩

theorem C1_insertion_sequences_sorted_witness :
    ((∀ i ∈ [mkOpenIssue "0001" "a0"], okOrder i = true) ∧
      ([mkOpenIssue "0001" "a0"].Pairwise
        (fun x y => ltCU (keyOf x) (keyOf y) = true))) ∧
    (∃ ins,
      applyInsertions [mkOpenIssue "0001" "a0"]
          (["0002"].map (fun nid => (InsReq.after "1", nid))) =
        some ([mkOpenIssue "0001" "a0"].take (0 + 1) ++ ins ++
          [mkOpenIssue "0001" "a0"].drop (0 + 1)) ∧
      ins.length = ["0002"].length ∧
      (∀ b ∈ ins, goodOrder b = true ∧
        ∀ target, [mkOpenIssue "0001" "a0"].get? 0 = some target →
          ltCU (keyOf target) (keyOf b) = true) ∧
      ([mkOpenIssue "0001" "a0"].take (0 + 1) ++ ins ++
        [mkOpenIssue "0001" "a0"].drop (0 + 1)).Pairwise
        (fun x y => ltCU (keyOf x) (keyOf y) = true) ∧
      ins.Pairwise (fun x y => keyOf x ≠ keyOf y)) :=
  ⟨C1_insertion_sequences_sorted.1 [(InsReq.first, "0001")]
      [mkOpenIssue "0001" "a0"] rfl,
   C1_insertion_sequences_sorted.2 ["0002"] "1"
      [mkOpenIssue "0001" "a0"] 0 (by decide) (by decide) (by decide)
      (by decide)⟩

theorem C2_computeOrderKey_bounds_witness :
    (∀ i ∈ [mkOpenIssue "0001" "a0", mkOpenIssue "0002" "a1",
        mkOpenIssue "0003" "a2"], goodOrder i = true) ∧
    ([mkOpenIssue "0001" "a0", mkOpenIssue "0002" "a1",
      mkOpenIssue "0003" "a2"].Pairwise
        (fun x y => ltCU (keyOf x) (keyOf y) = true)) ∧
    (∃ k, computeOrderKey
        [mkOpenIssue "0001" "a0", mkOpenIssue "0002" "a1",
          mkOpenIssue "0003" "a2"] ⟨none, some "1", false, false⟩ none =
        Except.ok k ∧
      ltCU (keyOf (mkOpenIssue "0001" "a0")) k.data = true ∧
      (∀ next, [mkOpenIssue "0001" "a0", mkOpenIssue "0002" "a1",
          mkOpenIssue "0003" "a2"].get? (0 + 1) = some next →
        ltCU k.data (keyOf next) = true)) :=
  ⟨by decide, by decide,
   (C2_computeOrderKey_bounds
      [mkOpenIssue "0001" "a0", mkOpenIssue "0002" "a1",
        mkOpenIssue "0003" "a2"] "1" "1" (by decide) (by decide)).2.1
      0 (mkOpenIssue "0001" "a0") (by decide) rfl⟩

end Issy
